import Mathlib

/-!
Verification of the phrase-query-processor core: the index builder
(`build_index.py`) and the two query resolvers (`process_queries.py`),
shallowly embedded as executable Lean definitions over `List Nat` postings
stores and insertion-ordered association lists (modelling Python dicts).
-/

namespace PQP

/-! ## Association lists (Python dict model)

Python dicts preserve insertion order; `d[k] = v` updates in place when the
key exists and appends otherwise. -/

def alookup {κ β : Type} [DecidableEq κ] (l : List (κ × β)) (k : κ) : Option β :=
  (l.find? (fun p => p.1 = k)).map Prod.snd

def ainsert {κ β : Type} [DecidableEq κ] (l : List (κ × β)) (k : κ) (v : β) : List (κ × β) :=
  if (alookup l k).isSome then l.map (fun p => if p.1 = k then (k, v) else p) else l ++ [(k, v)]

def aupdate {κ β : Type} [DecidableEq κ] (l : List (κ × β)) (k : κ) (f : β → β) : List (κ × β) :=
  l.map (fun p => if p.1 = k then (p.1, f p.2) else p)

/-! ## Data model -/

/-- Standard lexicon entry (`build_index.py`, `process_record`). -/
structure Entry where
  doc_freq : Nat
  collection_freq : Nat
  offset : Nat
deriving DecidableEq, Repr

/-- Biword (nextword) lexicon entry (`build_index.py`, `process_nextword_record`). -/
structure NWEntry where
  doc_freq : Nat
  num_next_terms : Nat
  collection_freq : Nat
  offset : Nat
deriving DecidableEq, Repr

/-- A parsed standard record line `term,doc_id,pos1,...`. -/
structure StdRecord where
  term : String
  doc_id : Nat
  positions : List Nat
deriving DecidableEq, Repr

/-- A parsed nextword record line `first_term,0,next_term,doc_id,pos1,...`. -/
structure NWRecord where
  first_term : String
  next_term : String
  doc_id : Nat
  positions : List Nat
deriving DecidableEq, Repr

/-! ## Standard index builder (`IndexBuilder.process_record`) -/

structure StdState where
  terms : List (String × Entry)
  store : List Nat
  current_offset : Nat
deriving DecidableEq, Repr

/-- `IndexBuilder.write_int`: append one fixed-width integer, advance the offset. -/
def stdWriteInt (s : StdState) (v : Nat) : StdState :=
  { s with store := s.store ++ [v], current_offset := s.current_offset + 1 }

/-- `IndexBuilder.process_record`. -/
def processRecord (s : StdState) (r : StdRecord) : StdState :=
  let term_freq := r.positions.length
  let terms0 := if (alookup s.terms r.term).isSome then s.terms
    else s.terms ++ [(r.term, ⟨0, 0, s.current_offset⟩)]
  let terms1 := aupdate terms0 r.term
    (fun e => { e with doc_freq := e.doc_freq + 1, collection_freq := e.collection_freq + term_freq })
  let s1 : StdState := { s with terms := terms1 }
  let s2 := stdWriteInt s1 r.doc_id
  let s3 := stdWriteInt s2 term_freq
  r.positions.foldl stdWriteInt s3

def stdInit : StdState := ⟨[], [], 0⟩

/-- `IndexBuilder.build` for the standard variant: one fold over the record lines. -/
def buildStd (records : List StdRecord) : StdState :=
  records.foldl processRecord stdInit

/-! ## Biword index builder (`IndexBuilder.process_nextword_record`) -/

/-- The one-slot pair buffer `self.prev_next_term`. -/
structure Buffer where
  term : String
  doc_ids : List (Nat × List Nat)
deriving DecidableEq, Repr

structure NWState where
  terms : List (String × NWEntry)
  term_ids : List (Nat × String)
  term_ids_inv : List (String × Nat)
  store : List Nat
  current_offset : Nat
  prev_next_term : Option Buffer
  current_first_term : Option String
deriving DecidableEq, Repr

def nwWriteInt (s : NWState) (v : Nat) : NWState :=
  { s with store := s.store ++ [v], current_offset := s.current_offset + 1 }

/-- `IndexBuilder.write_prev_next_term`. Missing buffer, missing current term or a
missing term-id are Python `KeyError`/`TypeError` crashes, modelled as `none`. -/
def writePrevNextTerm (s : NWState) : Option NWState := do
  let cft ← s.current_first_term
  let _ ← alookup s.terms cft
  let buf ← s.prev_next_term
  let ntid ← alookup s.term_ids_inv buf.term
  let s1 : NWState :=
    { s with terms := aupdate s.terms cft (fun e => { e with num_next_terms := e.num_next_terms + 1 }) }
  let s2 := nwWriteInt s1 ntid
  let s3 := nwWriteInt s2 buf.doc_ids.length
  some (buf.doc_ids.foldl
    (fun st pr => pr.2.foldl nwWriteInt (nwWriteInt (nwWriteInt st pr.1) pr.2.length)) s3)

/-- The `for term in [first_term, next_term]` id-assignment loop; the check in the
source is `is None`, i.e. key presence. -/
def assignTermIds (s : NWState) (ts : List String) : NWState :=
  ts.foldl (fun st t =>
    match alookup st.term_ids_inv t with
    | some _ => st
    | none =>
      let tid := st.term_ids.length
      { st with term_ids := st.term_ids ++ [(tid, t)], term_ids_inv := st.term_ids_inv ++ [(t, tid)] }) s

/-- `IndexBuilder.process_nextword_record`.  In the new-first-term branch the
source initialises the buffer from the loop variable `term`, which after the
id-assignment loop always equals `next_term`. -/
def processNextwordRecord (s : NWState) (r : NWRecord) : Option NWState := do
  let term_freq := r.positions.length
  let s0 := assignTermIds s [r.first_term, r.next_term]
  let s1 ←
    if (alookup s0.terms r.first_term).isSome then some s0
    else do
      let sf ← if s0.prev_next_term.isSome then writePrevNextTerm s0 else some s0
      some { sf with
        prev_next_term := some ⟨r.next_term, []⟩,
        current_first_term := some r.first_term,
        terms := sf.terms ++ [(r.first_term, ⟨0, 0, 0, sf.current_offset⟩)] }
  let terms2 := aupdate s1.terms r.first_term
    (fun e => { e with doc_freq := e.doc_freq + 1, collection_freq := e.collection_freq + term_freq })
  let s2 : NWState := { s1 with terms := terms2 }
  let buf ← s2.prev_next_term
  if r.next_term = buf.term then
    some { s2 with prev_next_term := some ⟨buf.term, ainsert buf.doc_ids r.doc_id r.positions⟩ }
  else do
    let s3 ← writePrevNextTerm s2
    some { s3 with prev_next_term := some ⟨r.next_term, [(r.doc_id, r.positions)]⟩ }

def nwInit : NWState := ⟨[], [], [], [], 0, none, none⟩

/-- `IndexBuilder.build` for the nextword variant: fold over the record lines,
then the unconditional final `write_prev_next_term`. -/
def buildNW (records : List NWRecord) : Option NWState := do
  let s ← records.foldlM processNextwordRecord nwInit
  writePrevNextTerm s

/-! ## Postings-store reader (`QueryProcessor.read_int` / `skip_int`)

Reading past the end of the file yields `int.from_bytes(b'') = 0`, modelled by
`List.getD _ _ 0`.  The cursor is a unit offset into the store. -/

/-- Read `n` consecutive integers starting at `pos`; return them with the final cursor. -/
def readInts (store : List Nat) (pos : Nat) : Nat → List Nat × Nat
  | 0 => ([], pos)
  | n + 1 =>
    let v := store.getD pos 0
    let (vs, p') := readInts store (pos + 1) n
    (v :: vs, p')

/-- The `doc_freq`-group loop of `StandardQueryProcessor.get_corpus_term_pos_list`:
per group read `doc_id`, `doc_tf`, then `doc_tf` positions, each seeding a
single-element chain. -/
def readStdDocs (store : List Nat) (pos : Nat) (acc : List (Nat × List (List Nat))) :
    Nat → List (Nat × List (List Nat)) × Nat
  | 0 => (acc, pos)
  | n + 1 =>
    let did := store.getD pos 0
    let tf := store.getD (pos + 1) 0
    let r := readInts store (pos + 2) tf
    readStdDocs store r.2 (ainsert acc did (r.1.map (fun x => [x]))) n

/-- `StandardQueryProcessor.get_corpus_term_pos_list`: an absent term yields
the empty dict without touching the store. -/
def getCorpusTermPosList (lex : List (String × Entry)) (store : List Nat) (term : String) :
    List (Nat × List (List Nat)) :=
  match alookup lex term with
  | none => []
  | some e => (readStdDocs store e.offset [] e.doc_freq).1

/-! ## Standard query resolver (`StandardQueryProcessor.get_doc_matches`) -/

/-- `pos_list[-1]`; chains are never empty in the resolver. -/
def lastD (l : List Nat) : Nat := l.getLastD 0

/-- The inner extension: `last_pos` is captured before any append, and every
qualifying next position is appended to the same chain. -/
def extendChain (nls : List (List Nat)) (chain : List Nat) : List Nat :=
  chain ++ nls.flatten.filter (fun q => q = lastD chain + 1)

/-- Per-document step: `if next_term_pos_dict.get(doc_id):` is falsy both for a
missing key and for an empty chain list. -/
def extendDoc (nextDict : List (Nat × List (List Nat))) (doc : Nat)
    (chains : List (List Nat)) : List (List Nat) :=
  match alookup nextDict doc with
  | none => chains
  | some nls => if nls = [] then chains else chains.map (extendChain nls)

def stdStep (posDict : List (Nat × List (List Nat))) (nextDict : List (Nat × List (List Nat))) :
    List (Nat × List (List Nat)) :=
  posDict.map (fun pr => (pr.1, extendDoc nextDict pr.1 pr.2))

/-- `StandardQueryProcessor.get_doc_matches`: the returned set of documents is
modelled as the (duplicate-free) list of matching doc ids in dict order. -/
def stdGetDocMatches (lex : List (String × Entry)) (store : List Nat)
    (terms : List String) : List Nat :=
  match terms with
  | [] => []
  | t0 :: rest =>
    let posDict := rest.foldl (fun pd term => stdStep pd (getCorpusTermPosList lex store term))
      (getCorpusTermPosList lex store t0)
    (posDict.filter (fun pr => pr.2.any (fun c => c.length = terms.length))).map Prod.fst

/-! ## Biword postings fetch (`NextwordQueryProcessor.find_postings`) -/

/-- The matching-group branch: fully decode `pair_doc_freq` documents into the
accumulated postings dict (`postings_dict[doc_id] = []` then appends). -/
def readPairDocs (store : List Nat) (pos : Nat) (acc : List (Nat × List Nat)) :
    Nat → List (Nat × List Nat) × Nat
  | 0 => (acc, pos)
  | n + 1 =>
    let did := store.getD pos 0
    let len := store.getD (pos + 1) 0
    let r := readInts store (pos + 2) len
    readPairDocs store r.2 (ainsert acc did r.1) n

/-- The skip branch: per document, `skip_int()` over the doc id, read the
position-count, then a relative seek over the undecoded positions. -/
def skipPairDocs (store : List Nat) (pos : Nat) : Nat → Nat
  | 0 => pos
  | n + 1 =>
    let len := store.getD (pos + 1) 0
    skipPairDocs store (pos + 2 + len) n

/-- The `num_next_terms`-group loop of `find_postings`; the term-id lookup
`self.lexicon['term_ids'][next_term_id]` is a `KeyError` crash when absent,
modelled as `none`. `target = none` is the Python `None` sentinel. -/
def findPostingsLoop (ids : List (Nat × String)) (store : List Nat) (target : Option String) :
    Nat → Nat → List (Nat × List Nat) → Option (List (Nat × List Nat) × Nat)
  | 0, pos, acc => some (acc, pos)
  | n + 1, pos, acc =>
    let ntid := store.getD pos 0
    match alookup ids ntid with
    | none => none
    | some thisNext =>
      let pdf := store.getD (pos + 1) 0
      let hit := match target with
        | none => true
        | some u => decide (thisNext = u)
      if hit then
        let r := readPairDocs store (pos + 2) acc pdf
        findPostingsLoop ids store target n r.2 r.1
      else
        findPostingsLoop ids store target n (skipPairDocs store (pos + 2) pdf) acc

/-- `NextwordQueryProcessor.find_postings`: an absent first term yields the
empty dict without touching the store. -/
def findPostings (lex : List (String × NWEntry)) (ids : List (Nat × String))
    (store : List Nat) (first_term : String) (target : Option String) :
    Option (List (Nat × List Nat)) :=
  match alookup lex first_term with
  | none => some []
  | some e => (findPostingsLoop ids store target e.num_next_terms e.offset []).map Prod.fst

/-! ## Biword query resolver (`NextwordQueryProcessor`) -/

/-- Stable insertion for a descending sort on the `Nat` value: an element is
placed after every earlier element whose value is at least as large. -/
def insertDescBy {α : Type} (key : α → Nat) (x : α) : List α → List α
  | [] => [x]
  | y :: ys => if key y < key x then x :: y :: ys else y :: insertDescBy key x ys

/-- `sort_dict_by_value(d, reverse=True)`: Python's `sorted` is stable, and
`reverse=True` gives descending values with ties kept in insertion order. -/
def sortDescBy {α : Type} (key : α → Nat) (l : List α) : List α :=
  l.foldl (fun acc x => insertDescBy key x acc) []

/-- The pair-collection loop of `setup_term_pairs` over
`enumerate(terms[:-1])`; a term absent from the lexicon returns `False`
(modelled `none`). -/
def setupPairsLoop (lex : List (String × NWEntry)) :
    List (String × String) → List ((String × String) × Nat) → List (String × String) →
    Option (List ((String × String) × Nat) × List (String × String))
  | [], uniq, qtps => some (uniq, qtps)
  | (ft, nt) :: rest, uniq, qtps =>
    match alookup lex ft, alookup lex nt with
    | some e, some _ =>
      setupPairsLoop lex rest (ainsert uniq (ft, nt) e.collection_freq) (qtps ++ [(ft, nt)])
    | _, _ => none

/-- `NextwordQueryProcessor.setup_term_pairs`. -/
def setupTermPairs (lex : List (String × NWEntry)) (terms : List String) :
    Option (List ((String × String) × Nat) × List (String × String) × List Bool) :=
  (setupPairsLoop lex (terms.zip terms.tail) [] []).map
    (fun pr => (sortDescBy (fun x => x.2) pr.1, pr.2, List.replicate terms.length false))

/-- Mark both adjacent query positions of every occurrence of `tp` covered. -/
def updateCovered (covered : List Bool) (qtps : List (String × String))
    (tp : String × String) : List Bool :=
  (List.range qtps.length).foldl
    (fun cov idx => if qtps.getD idx ("", "") = tp then (cov.set idx true).set (idx + 1) true else cov)
    covered

inductive FetchResult where
  | crash : FetchResult
  | unmatchable : FetchResult
  | done : List ((String × String) × List (Nat × List Nat)) → List (String × String) → FetchResult
deriving DecidableEq, Repr

/-- The fetch loop of the multi-term branch of
`NextwordQueryProcessor.get_doc_matches`: fetch pairs in the sorted order,
return `unmatchable` on an empty postings dict, and break once every query
position is covered.  `done` also reports the pairs left unprocessed. -/
def fetchPairs (lex : List (String × NWEntry)) (ids : List (Nat × String)) (store : List Nat)
    (qtps : List (String × String)) :
    List (String × String) → List Bool → List ((String × String) × List (Nat × List Nat)) →
    FetchResult
  | [], _, acc => .done acc []
  | tp :: rest, covered, acc =>
    match findPostings lex ids store tp.1 (some tp.2) with
    | none => .crash
    | some pd =>
      if pd = [] then .unmatchable
      else
        let acc' := ainsert acc tp pd
        let covered' := updateCovered covered qtps tp
        if covered'.all (fun b => b = true) then .done acc' rest
        else fetchPairs lex ids store qtps rest covered' acc'

/-- `term_results[doc_id].add(pos + idx)` over one pair component. -/
def addPosToSet (s : List Nat) (p : Nat) : List Nat :=
  if p ∈ s then s else s ++ [p]

def addPairComponent (str : List (String × List (Nat × List Nat))) (term : String) (idx : Nat)
    (did : Nat) (ps : List Nat) : List (String × List (Nat × List Nat)) :=
  let tr := (alookup str term).getD []
  let cur := (alookup tr did).getD []
  let updated := ps.foldl (fun s p => addPosToSet s (p + idx)) cur
  ainsert str term (ainsert tr did updated)

/-- The `single_term_results` accumulation in `merge_query_results`: each pair
posting at `(doc, pos)` contributes `pos` for the first term and `pos + 1` for
the second. -/
def buildSingleTermResults (qr : List ((String × String) × List (Nat × List Nat))) :
    List (String × List (Nat × List Nat)) :=
  qr.foldl (fun str pr =>
    pr.2.foldl (fun str' dp =>
      addPairComponent (addPairComponent str' pr.1.1 0 dp.1 dp.2) pr.1.2 1 dp.1 dp.2) str) []

/-- One chain-extension pass of `merge_query_results`: each chain appends
`last + 1` when that position is in the new term's position set. -/
def extendMergeChains (chains : List (List Nat)) (npos : List Nat) : List (List Nat) :=
  chains.map (fun c => let nt := lastD c + 1; if nt ∈ npos then c ++ [nt] else c)

def mergeStep (results : List (Nat × List (List Nat))) (nr : List (Nat × List Nat)) :
    List (Nat × List (List Nat)) :=
  nr.foldl (fun res dp =>
    match alookup res dp.1 with
    | none => res
    | some chains => ainsert res dp.1 (extendMergeChains chains dp.2)) results

/-- `NextwordQueryProcessor.merge_query_results`; the unguarded
`single_term_results[...]` subscripts are `KeyError` crashes, modelled `none`. -/
def mergeQueryResults (qr : List ((String × String) × List (Nat × List Nat)))
    (qterms : List String) : Option (List Nat) :=
  let str := buildSingleTermResults qr
  match qterms with
  | [] => none
  | t0 :: rest => do
    let ftr ← alookup str t0
    let results0 := ftr.map (fun dp => (dp.1, dp.2.map (fun p => [p])))
    let results ← rest.foldlM (fun res term => (alookup str term).map (mergeStep res)) results0
    some ((results.filter (fun pr => pr.2.any (fun c => c.length = qterms.length))).map Prod.fst)

/-- `NextwordQueryProcessor.get_doc_matches`. -/
def nwGetDocMatches (lex : List (String × NWEntry)) (ids : List (Nat × String))
    (store : List Nat) (terms : List String) : Option (List Nat) :=
  match terms with
  | [] => some []
  | [t] => (findPostings lex ids store t none).map (List.map Prod.fst)
  | _ =>
    match setupTermPairs lex terms with
    | none => some []
    | some (ordered, qtps, covered) =>
      match fetchPairs lex ids store qtps (ordered.map Prod.fst) covered [] with
      | .crash => none
      | .unmatchable => some []
      | .done qr _ => mergeQueryResults qr terms

/-! ## Well-formed sorted record streams

The external sorter (out of scope) hands the builder a line stream in which
all records sharing a primary key are contiguous; such a stream is a flat
list of per-key groups. -/

/-- One document's postings inside a group: `(doc_id, position_list)`. -/
structure DocPost where
  doc_id : Nat
  positions : List Nat
deriving DecidableEq, Repr

/-- All contiguous records of one term of a standard stream. -/
structure StdGroup where
  term : String
  docs : List DocPost
deriving DecidableEq, Repr

/-- All contiguous records of one `(first_term, next_term)` pair. -/
structure PairGroup where
  next_term : String
  docs : List DocPost
deriving DecidableEq, Repr

/-- All contiguous pair groups of one first term of a nextword stream. -/
structure NWTermGroup where
  first_term : String
  groups : List PairGroup
deriving DecidableEq, Repr

def stdGroupRecords (g : StdGroup) : List StdRecord :=
  g.docs.map (fun d => ⟨g.term, d.doc_id, d.positions⟩)

def stdStreamRecords (gs : List StdGroup) : List StdRecord :=
  (gs.map stdGroupRecords).flatten

def nwGroupRecords (ft : String) (g : PairGroup) : List NWRecord :=
  g.docs.map (fun d => ⟨ft, g.next_term, d.doc_id, d.positions⟩)

def nwTermRecords (tg : NWTermGroup) : List NWRecord :=
  (tg.groups.map (nwGroupRecords tg.first_term)).flatten

def nwStreamRecords (tgs : List NWTermGroup) : List NWRecord :=
  (tgs.map nwTermRecords).flatten

/-- Well-formedness of a sorted standard record stream: term groups are
contiguous (distinct across groups), one record per document of the term,
and every record carries at least one position. -/
def StdWF (gs : List StdGroup) : Prop :=
  (gs.map (fun g => g.term)).Nodup ∧
  ∀ g ∈ gs, g.docs ≠ [] ∧ (g.docs.map (fun d => d.doc_id)).Nodup ∧
    ∀ d ∈ g.docs, d.positions ≠ []

instance : DecidablePred StdWF := fun gs => by unfold StdWF; infer_instance

/-- Well-formedness of a sorted nextword record stream. -/
def NWWF (tgs : List NWTermGroup) : Prop :=
  tgs ≠ [] ∧
  (tgs.map (fun tg => tg.first_term)).Nodup ∧
  ∀ tg ∈ tgs, tg.groups ≠ [] ∧ (tg.groups.map (fun g => g.next_term)).Nodup ∧
    ∀ g ∈ tg.groups, g.docs ≠ [] ∧ (g.docs.map (fun d => d.doc_id)).Nodup ∧
      ∀ d ∈ g.docs, d.positions ≠ []

instance : DecidablePred NWWF := fun tgs => by unfold NWWF; infer_instance

/-! ## Canonical encodings and lexicons -/

/-- The on-store footprint of one document's postings: `doc_id`, `term_freq`,
then the positions (`process_record` lines 93-96). -/
def encodeDoc (d : DocPost) : List Nat :=
  [d.doc_id, d.positions.length] ++ d.positions

def encodeDocs (ds : List DocPost) : List Nat :=
  (ds.map encodeDoc).flatten

def encodeStdGroup (g : StdGroup) : List Nat :=
  encodeDocs g.docs

def posTotal (ds : List DocPost) : Nat :=
  (ds.map (fun d => d.positions.length)).sum

/-- The canonical standard lexicon of a stream, offsets accumulated left to right. -/
def stdLexiconAux (off : Nat) : List StdGroup → List (String × Entry)
  | [] => []
  | g :: rest =>
    (g.term, ⟨g.docs.length, posTotal g.docs, off⟩) ::
      stdLexiconAux (off + (encodeStdGroup g).length) rest

/-- The on-store footprint of one flushed pair group (`write_prev_next_term`):
`next_term_id`, `pair_doc_freq`, then each document's `doc_id`,
position-count and positions. -/
def encodePairGroup (idOf : String → Nat) (g : PairGroup) : List Nat :=
  [idOf g.next_term, g.docs.length] ++ encodeDocs g.docs

def encodeTermGroup (idOf : String → Nat) (tg : NWTermGroup) : List Nat :=
  (tg.groups.map (encodePairGroup idOf)).flatten

def encodeNWStream (idOf : String → Nat) (tgs : List NWTermGroup) : List Nat :=
  (tgs.map (encodeTermGroup idOf)).flatten

def pairDocTotal (tg : NWTermGroup) : Nat :=
  (tg.groups.map (fun g => g.docs.length)).sum

def nwPosTotal (tg : NWTermGroup) : Nat :=
  (tg.groups.map (fun g => posTotal g.docs)).sum

/-- The canonical nextword lexicon of a stream.  `doc_freq` counts records
(one per `(next_term, document)` pair), exactly as the builder increments it. -/
def nwLexiconAux (idOf : String → Nat) (off : Nat) : List NWTermGroup → List (String × NWEntry)
  | [] => []
  | tg :: rest =>
    (tg.first_term, ⟨pairDocTotal tg, tg.groups.length, nwPosTotal tg, off⟩) ::
      nwLexiconAux idOf (off + (encodeTermGroup idOf tg).length) rest

/-! ## Association-list lemmas -/

theorem alookup_nil {κ β : Type} [DecidableEq κ] (k : κ) :
    alookup ([] : List (κ × β)) k = none := rfl

theorem alookup_cons {κ β : Type} [DecidableEq κ] (k' : κ) (v : β) (l : List (κ × β)) (k : κ) :
    alookup ((k', v) :: l) k = if k' = k then some v else alookup l k := by
  by_cases h : k' = k <;> simp [alookup, List.find?, h]

theorem alookup_append_of_some {κ β : Type} [DecidableEq κ] {l₁ : List (κ × β)} {k : κ} {v : β}
    (l₂ : List (κ × β)) (h : alookup l₁ k = some v) : alookup (l₁ ++ l₂) k = some v := by
  induction l₁ with
  | nil => simp [alookup] at h
  | cons p l ih =>
    cases p with
    | mk k' v' =>
      rw [List.cons_append, alookup_cons] at *
      by_cases hk : k' = k
      · simpa [hk] using h
      · rw [if_neg hk] at h ⊢
        exact ih h

theorem alookup_append_of_none {κ β : Type} [DecidableEq κ] {l₁ : List (κ × β)} {k : κ}
    (l₂ : List (κ × β)) (h : alookup l₁ k = none) : alookup (l₁ ++ l₂) k = alookup l₂ k := by
  induction l₁ with
  | nil => simp
  | cons p l ih =>
    cases p with
    | mk k' v' =>
      rw [alookup_cons] at h
      by_cases hk : k' = k
      · simp [hk] at h
      · rw [List.cons_append, alookup_cons, if_neg hk]
        exact ih (by simpa [hk] using h)

theorem alookup_eq_none_iff {κ β : Type} [DecidableEq κ] {l : List (κ × β)} {k : κ} :
    alookup l k = none ↔ ∀ p ∈ l, p.1 ≠ k := by
  induction l with
  | nil => simp [alookup]
  | cons p l ih =>
    cases p with
    | mk k' v' =>
      rw [alookup_cons]
      by_cases hk : k' = k
      · simp [hk]
      · simp [hk, ih]

theorem alookup_isSome_iff {κ β : Type} [DecidableEq κ] {l : List (κ × β)} {k : κ} :
    (alookup l k).isSome ↔ k ∈ l.map Prod.fst := by
  induction l with
  | nil => simp [alookup]
  | cons p l ih =>
    cases p with
    | mk k' v' =>
      by_cases hk : k' = k
      · simp [alookup_cons, hk]
      · have hk' : ¬ k = k' := fun h => hk h.symm
        simp [alookup_cons, hk, hk', ih]

theorem alookup_aupdate_self {κ β : Type} [DecidableEq κ] (l : List (κ × β)) (k : κ) (f : β → β) :
    alookup (aupdate l k f) k = (alookup l k).map f := by
  induction l with
  | nil => simp [alookup, aupdate]
  | cons p l ih =>
    cases p with
    | mk k' v' =>
      by_cases hk : k' = k
      · simp [aupdate, alookup_cons, hk]
      · simpa [aupdate, alookup_cons, hk] using ih

theorem alookup_aupdate_ne {κ β : Type} [DecidableEq κ] (l : List (κ × β)) (k k' : κ) (f : β → β)
    (h : k' ≠ k) : alookup (aupdate l k f) k' = alookup l k' := by
  induction l with
  | nil => simp [alookup, aupdate]
  | cons p l ih =>
    cases p with
    | mk k₀ v₀ =>
      by_cases hk : k₀ = k
      · have hne : k₀ ≠ k' := by rw [hk]; exact fun hkk => h hkk.symm
        simp only [aupdate, List.map_cons, if_pos hk]
        rw [alookup_cons, alookup_cons, if_neg hne, if_neg hne]
        exact ih
      · simp only [aupdate, List.map_cons, if_neg hk]
        rw [alookup_cons, alookup_cons]
        by_cases hk' : k₀ = k'
        · simp [hk']
        · rw [if_neg hk', if_neg hk']
          exact ih

theorem aupdate_append {κ β : Type} [DecidableEq κ] (l₁ l₂ : List (κ × β)) (k : κ) (f : β → β) :
    aupdate (l₁ ++ l₂) k f = aupdate l₁ k f ++ aupdate l₂ k f := by
  simp [aupdate]

theorem aupdate_of_none {κ β : Type} [DecidableEq κ] {l : List (κ × β)} {k : κ} (f : β → β)
    (h : alookup l k = none) : aupdate l k f = l := by
  rw [alookup_eq_none_iff] at h
  induction l with
  | nil => rfl
  | cons p l ih =>
    have hp := h p (by simp)
    simp only [aupdate, List.map_cons, if_neg hp]
    have := ih (fun q hq => h q (by simp [hq]))
    simpa [aupdate] using this

theorem ainsert_of_none {κ β : Type} [DecidableEq κ] {l : List (κ × β)} {k : κ} (v : β)
    (h : alookup l k = none) : ainsert l k v = l ++ [(k, v)] := by
  simp [ainsert, h]

theorem alookup_ainsert_self {κ β : Type} [DecidableEq κ] (l : List (κ × β)) (k : κ) (v : β) :
    alookup (ainsert l k v) k = some v := by
  unfold ainsert
  by_cases h : (alookup l k).isSome
  · rw [if_pos h]
    induction l with
    | nil => simp [alookup] at h
    | cons p l ih =>
      cases p with
      | mk k' v' =>
        by_cases hk : k' = k
        · simp [alookup_cons, hk]
        · rw [alookup_cons, if_neg hk] at h
          simpa [alookup_cons, hk] using ih h
  · rw [if_neg h]
    rw [Option.not_isSome_iff_eq_none] at h
    rw [alookup_append_of_none _ h, alookup_cons]
    simp

theorem alookup_setmap_ne {κ β : Type} [DecidableEq κ] (l : List (κ × β)) (k k' : κ) (v : β)
    (h : k' ≠ k) :
    alookup (l.map (fun p => if p.1 = k then (k, v) else p)) k' = alookup l k' := by
  induction l with
  | nil => simp [alookup]
  | cons p l ih =>
    cases p with
    | mk k₀ v₀ =>
      by_cases hk : k₀ = k
      · have hne : k ≠ k' := fun hkk => h hkk.symm
        simpa [alookup_cons, hk, hne] using ih
      · by_cases hk' : k₀ = k'
        · simp [alookup_cons, hk, hk', h]
        · simpa [alookup_cons, hk, hk'] using ih

theorem alookup_ainsert_ne {κ β : Type} [DecidableEq κ] (l : List (κ × β)) (k k' : κ) (v : β)
    (h : k' ≠ k) : alookup (ainsert l k v) k' = alookup l k' := by
  unfold ainsert
  by_cases hs : (alookup l k).isSome
  · rw [if_pos hs]
    exact alookup_setmap_ne l k k' v h
  · rw [if_neg hs]
    rw [Option.not_isSome_iff_eq_none] at hs
    by_cases h1 : alookup l k' = none
    · rw [alookup_append_of_none _ h1, alookup_cons, if_neg (fun hkk : k = k' => h hkk.symm)]
      rw [h1]
      rfl
    · obtain ⟨v', hv'⟩ := Option.ne_none_iff_exists'.mp h1
      rw [alookup_append_of_some _ hv', hv']

/-! ## Standard builder characterization -/

theorem docPost_eta (d : DocPost) : (⟨d.doc_id, d.positions⟩ : DocPost) = d := rfl

theorem foldl_stdWriteInt (ps : List Nat) (s : StdState) :
    ps.foldl stdWriteInt s =
      { s with store := s.store ++ ps, current_offset := s.current_offset + ps.length } := by
  induction ps generalizing s with
  | nil => simp
  | cons p ps ih =>
    rw [List.foldl_cons, ih]
    simp [stdWriteInt]
    omega

theorem processRecord_present {s : StdState} {t : String} {e : Entry} (did : Nat) (ps : List Nat)
    (h : alookup s.terms t = some e) :
    processRecord s ⟨t, did, ps⟩ =
      { s with
        terms := aupdate s.terms t
          (fun e => ⟨e.doc_freq + 1, e.collection_freq + ps.length, e.offset⟩),
        store := s.store ++ encodeDoc ⟨did, ps⟩,
        current_offset := s.current_offset + (encodeDoc ⟨did, ps⟩).length } := by
  unfold processRecord
  simp only [h, Option.isSome_some, if_true, foldl_stdWriteInt, stdWriteInt]
  simp [encodeDoc, aupdate]
  omega

theorem processRecord_fresh {s : StdState} {t : String} (did : Nat) (ps : List Nat)
    (h : alookup s.terms t = none) :
    processRecord s ⟨t, did, ps⟩ =
      { s with
        terms := s.terms ++ [(t, ⟨1, ps.length, s.current_offset⟩)],
        store := s.store ++ encodeDoc ⟨did, ps⟩,
        current_offset := s.current_offset + (encodeDoc ⟨did, ps⟩).length } := by
  unfold processRecord
  simp only [h, Option.isSome_none, Bool.false_eq_true, if_false, foldl_stdWriteInt, stdWriteInt]
  rw [aupdate_append, aupdate_of_none _ h]
  simp [encodeDoc, aupdate]
  omega

theorem foldl_docs (t : String) (ds : List DocPost) :
    ∀ (s : StdState) (A : List (String × Entry)) (e : Entry),
      s.terms = A ++ [(t, e)] → alookup A t = none →
      (ds.map (fun d => StdRecord.mk t d.doc_id d.positions)).foldl processRecord s =
        { s with
          terms := A ++ [(t, ⟨e.doc_freq + ds.length, e.collection_freq + posTotal ds, e.offset⟩)],
          store := s.store ++ encodeDocs ds,
          current_offset := s.current_offset + (encodeDocs ds).length } := by
  induction ds with
  | nil =>
    intro s A e hterms hA
    simp [encodeDocs, posTotal, ← hterms]
  | cons d ds ih =>
    intro s A e hterms hA
    have hlk : alookup s.terms t = some e := by
      rw [hterms, alookup_append_of_none _ hA, alookup_cons]
      simp
    rw [List.map_cons, List.foldl_cons, processRecord_present d.doc_id d.positions hlk]
    rw [ih _ A ⟨e.doc_freq + 1, e.collection_freq + d.positions.length, e.offset⟩ ?_ hA]
    · simp only [StdState.mk.injEq]
      refine ⟨?_, ?_, ?_⟩
      · simp only [List.append_right_inj, List.cons.injEq, Prod.mk.injEq, Entry.mk.injEq,
          and_true, true_and, posTotal, List.map_cons, List.sum_cons, List.length_cons]
        omega
      · simp [encodeDocs, docPost_eta, List.append_assoc]
      · simp [encodeDocs, docPost_eta]
        omega
    · simp only [hterms, aupdate_append, aupdate_of_none _ hA]
      simp [aupdate]

theorem foldl_group (g : StdGroup) (s : StdState) (hfresh : alookup s.terms g.term = none)
    (hne : g.docs ≠ []) :
    (stdGroupRecords g).foldl processRecord s =
      { s with
        terms := s.terms ++ [(g.term, ⟨g.docs.length, posTotal g.docs, s.current_offset⟩)],
        store := s.store ++ encodeStdGroup g,
        current_offset := s.current_offset + (encodeStdGroup g).length } := by
  obtain ⟨t, docs⟩ := g
  cases docs with
  | nil => exact absurd rfl hne
  | cons d ds =>
    unfold stdGroupRecords
    simp only [List.map_cons, List.foldl_cons]
    rw [processRecord_fresh d.doc_id d.positions hfresh]
    rw [foldl_docs t ds _ s.terms ⟨1, d.positions.length, s.current_offset⟩ (by simp) hfresh]
    simp only [StdState.mk.injEq]
    refine ⟨?_, ?_, ?_⟩
    · simp only [List.append_right_inj, List.cons.injEq, Prod.mk.injEq, Entry.mk.injEq,
        and_true, true_and, posTotal, List.map_cons, List.sum_cons, List.length_cons]
      omega
    · simp [encodeStdGroup, encodeDocs, docPost_eta, List.append_assoc]
    · simp [encodeStdGroup, encodeDocs, docPost_eta]
      omega

theorem foldl_stream (gs : List StdGroup) :
    ∀ (s : StdState), (∀ g ∈ gs, alookup s.terms g.term = none) →
      (gs.map (fun g => g.term)).Nodup → (∀ g ∈ gs, g.docs ≠ []) →
      (stdStreamRecords gs).foldl processRecord s =
        { s with
          terms := s.terms ++ stdLexiconAux s.current_offset gs,
          store := s.store ++ (gs.map encodeStdGroup).flatten,
          current_offset := s.current_offset + ((gs.map encodeStdGroup).flatten).length } := by
  induction gs with
  | nil =>
    intro s _ _ _
    simp [stdStreamRecords, stdLexiconAux]
  | cons g gs ih =>
    intro s hfresh hnodup hne
    unfold stdStreamRecords
    simp only [List.map_cons, List.flatten_cons]
    rw [List.foldl_append]
    rw [foldl_group g s (hfresh g (by simp)) (hne g (by simp))]
    rw [show ((gs.map stdGroupRecords).flatten) = stdStreamRecords gs from rfl]
    rw [ih _ ?_ (by simpa using hnodup.of_cons) (fun g' hg' => hne g' (by simp [hg']))]
    · simp only [stdLexiconAux]
      congr 1
      · simp
      · simp
      · simp
        omega
    · intro g' hg'
      have h1 : alookup s.terms g'.term = none := hfresh g' (by simp [hg'])
      have h2 : g.term ≠ g'.term := by
        simp only [List.map_cons, List.nodup_cons] at hnodup
        intro hcontr
        exact hnodup.1 (hcontr ▸ List.mem_map_of_mem (fun x => x.term) hg')
      rw [alookup_append_of_none _ h1, alookup_cons, if_neg h2]
      rfl

/-- The standard builder on a well-formed stream produces exactly the
canonical lexicon and the concatenation of the per-term blocks. -/
theorem buildStd_spec (gs : List StdGroup) (h : StdWF gs) :
    buildStd (stdStreamRecords gs) =
      ⟨stdLexiconAux 0 gs, (gs.map encodeStdGroup).flatten,
        ((gs.map encodeStdGroup).flatten).length⟩ := by
  obtain ⟨hnodup, hrest⟩ := h
  unfold buildStd
  rw [foldl_stream gs stdInit (fun g _ => rfl) hnodup (fun g hg => (hrest g hg).1)]
  simp [stdInit]

theorem processRecord_store_extend (s : StdState) (r : StdRecord) :
    ∃ w, (processRecord s r).store = s.store ++ w := by
  obtain ⟨t, did, ps⟩ := r
  cases hl : alookup s.terms t with
  | none => exact ⟨_, by rw [processRecord_fresh did ps hl]⟩
  | some e => exact ⟨_, by rw [processRecord_present did ps hl]⟩

/-- The store is append-only: every write extends it on the right. -/
theorem foldl_store_extend (rs : List StdRecord) (s : StdState) :
    ∃ w, (rs.foldl processRecord s).store = s.store ++ w := by
  induction rs generalizing s with
  | nil => exact ⟨[], by simp⟩
  | cons r rs ih =>
    obtain ⟨w₁, hw₁⟩ := processRecord_store_extend s r
    obtain ⟨w₂, hw₂⟩ := ih (processRecord s r)
    exact ⟨w₁ ++ w₂, by rw [List.foldl_cons, hw₂, hw₁, List.append_assoc]⟩

/-! ## Reading the store back -/

theorem getD_append_len_add (A l' : List Nat) (k : Nat) :
    (A ++ l').getD (A.length + k) 0 = l'.getD k 0 := by
  rw [List.getD_append_right]
  · congr 1
    omega
  · omega

theorem readInts_spec (ps : List Nat) : ∀ (A B : List Nat),
    readInts (A ++ ps ++ B) A.length ps.length = (ps, A.length + ps.length) := by
  induction ps with
  | nil => intro A B; simp [readInts]
  | cons p ps ih =>
    intro A B
    show readInts (A ++ (p :: ps) ++ B) A.length (ps.length + 1) = _
    rw [readInts]
    have hv : (A ++ (p :: ps) ++ B).getD A.length 0 = p := by
      rw [List.append_assoc, show A.length = A.length + 0 from rfl, getD_append_len_add]
      rfl
    have harr : A ++ (p :: ps) ++ B = (A ++ [p]) ++ ps ++ B := by simp
    have hlen : A.length + 1 = (A ++ [p]).length := by simp
    rw [hv, harr, hlen, ih (A ++ [p]) B]
    simp only [Prod.mk.injEq, List.length_append, List.length_cons, List.length_nil, true_and]
    omega

theorem encodeDocs_length (ds : List DocPost) :
    (encodeDocs ds).length = 2 * ds.length + posTotal ds := by
  induction ds with
  | nil => simp [encodeDocs, posTotal]
  | cons d ds ih =>
    simp only [encodeDocs, List.map_cons, List.flatten_cons, List.length_append,
      List.length_cons, List.length_nil, posTotal, List.sum_cons, encodeDoc] at *
    omega

theorem readStdDocs_spec (ds : List DocPost) : ∀ (A B : List Nat)
    (acc : List (Nat × List (List Nat))),
    (∀ d ∈ ds, alookup acc d.doc_id = none) →
    (ds.map (fun d => d.doc_id)).Nodup →
    readStdDocs (A ++ encodeDocs ds ++ B) A.length acc ds.length =
      (acc ++ ds.map (fun d => (d.doc_id, d.positions.map (fun p => [p]))),
        A.length + (encodeDocs ds).length) := by
  induction ds with
  | nil => intro A B acc _ _; simp [readStdDocs, encodeDocs]
  | cons d ds ih =>
    intro A B acc hfresh hnodup
    show readStdDocs _ _ _ (ds.length + 1) = _
    rw [readStdDocs]
    have hstore : A ++ encodeDocs (d :: ds) ++ B
        = A ++ (d.doc_id :: d.positions.length :: (d.positions ++ (encodeDocs ds ++ B))) := by
      simp [encodeDocs, encodeDoc]
    have hdid : (A ++ encodeDocs (d :: ds) ++ B).getD A.length 0 = d.doc_id := by
      rw [hstore, show A.length = A.length + 0 from rfl, getD_append_len_add]
      rfl
    have htf : (A ++ encodeDocs (d :: ds) ++ B).getD (A.length + 1) 0 = d.positions.length := by
      rw [hstore, getD_append_len_add]
      rfl
    have hread : readInts (A ++ encodeDocs (d :: ds) ++ B) (A.length + 2) d.positions.length
        = (d.positions, A.length + 2 + d.positions.length) := by
      have harr : A ++ encodeDocs (d :: ds) ++ B
          = (A ++ [d.doc_id, d.positions.length]) ++ d.positions ++ (encodeDocs ds ++ B) := by
        simp [encodeDocs, encodeDoc]
      have hlen : A.length + 2 = (A ++ [d.doc_id, d.positions.length]).length := by simp
      rw [harr, hlen, readInts_spec]
    rw [hdid, htf, hread]
    dsimp only
    have hacc : ainsert acc d.doc_id (d.positions.map (fun x => [x]))
        = acc ++ [(d.doc_id, d.positions.map (fun x => [x]))] :=
      ainsert_of_none _ (hfresh d (by simp))
    have harr2 : A ++ encodeDocs (d :: ds) ++ B = (A ++ encodeDoc d) ++ encodeDocs ds ++ B := by
      simp [encodeDocs]
    have hlen2 : A.length + 2 + d.positions.length = (A ++ encodeDoc d).length := by
      simp [encodeDoc]
      omega
    rw [hacc, harr2, hlen2, ih (A ++ encodeDoc d) B _ ?_ (by simpa using hnodup.of_cons)]
    · simp only [List.map_cons, List.append_assoc, List.cons_append, List.nil_append,
        Prod.mk.injEq, List.length_append]
      refine ⟨by simp, ?_⟩
      rw [encodeDocs_length, encodeDocs_length]
      simp only [List.length_cons, posTotal, List.map_cons, List.sum_cons]
      simp [encodeDoc]
      omega
    · intro d' hd'
      rw [alookup_append_of_none _ (hfresh d' (by simp [hd'])), alookup_cons]
      have : d.doc_id ≠ d'.doc_id := by
        simp only [List.map_cons, List.nodup_cons] at hnodup
        intro hcontr
        exact hnodup.1 (hcontr ▸ List.mem_map_of_mem (fun x => x.doc_id) hd')
      rw [if_neg this]
      rfl

theorem stdLexiconAux_append (gs₁ gs₂ : List StdGroup) (off : Nat) :
    stdLexiconAux off (gs₁ ++ gs₂)
      = stdLexiconAux off gs₁
        ++ stdLexiconAux (off + ((gs₁.map encodeStdGroup).flatten).length) gs₂ := by
  induction gs₁ generalizing off with
  | nil => simp [stdLexiconAux]
  | cons g gs ih =>
    simp only [List.cons_append, stdLexiconAux, List.map_cons, List.flatten_cons, List.append_eq]
    rw [ih]
    simp only [List.cons.injEq, true_and, List.append_right_inj]
    congr 1
    simp only [List.length_append]
    omega

theorem stdLexiconAux_keys (gs : List StdGroup) (off : Nat) :
    (stdLexiconAux off gs).map Prod.fst = gs.map (fun g => g.term) := by
  induction gs generalizing off with
  | nil => rfl
  | cons g gs ih => simp [stdLexiconAux, ih]

theorem stdLexicon_lookup_of_notMem (gs : List StdGroup) (off : Nat) (t : String)
    (h : t ∉ gs.map (fun g => g.term)) : alookup (stdLexiconAux off gs) t = none := by
  rw [alookup_eq_none_iff]
  intro p hp
  intro hcontr
  apply h
  rw [← stdLexiconAux_keys gs off]
  exact hcontr ▸ List.mem_map_of_mem Prod.fst hp

/-- Looking up a term of a well-formed stream in the canonical lexicon yields
its counters and the offset where its block starts. -/
theorem stdLexicon_lookup (gs₁ : List StdGroup) (g : StdGroup) (gs₂ : List StdGroup)
    (hnodup : ((gs₁ ++ g :: gs₂).map (fun x => x.term)).Nodup) :
    alookup (stdLexiconAux 0 (gs₁ ++ g :: gs₂)) g.term
      = some ⟨g.docs.length, posTotal g.docs, ((gs₁.map encodeStdGroup).flatten).length⟩ := by
  rw [stdLexiconAux_append]
  have hnot : g.term ∉ gs₁.map (fun x => x.term) := by
    simp only [List.map_append, List.map_cons] at hnodup
    have := (List.nodup_append.mp hnodup).2.2
    intro hcontr
    exact this hcontr (by simp)
  rw [alookup_append_of_none _ (stdLexicon_lookup_of_notMem gs₁ 0 g.term hnot)]
  simp [stdLexiconAux, alookup_cons]

/-! ## Collections and stream semantics

A collection is the normalized document list handed to the (out-of-scope)
record builder; `build_record_file.py` writes, per document, one record per
term (standard) or per adjacent term pair (nextword), with zero-based token
positions, using `_` as the end-of-document next term. -/

/-- Token positions of `t` in a document, in increasing order
(`write_record`'s enumerate). -/
def occPositions (t : String) (tokens : List String) : List Nat :=
  (List.range tokens.length).filter (fun i => tokens.getD i "" = t)

/-- The next term of position `i`: the following token, or the sentinel `_`
for the last position (`write_nextword_record`). -/
def nextTok (tokens : List String) (i : Nat) : String :=
  tokens.getD (i + 1) "_"

/-- Positions of `t` immediately followed by `u` (with `u = "_"` meaning
end of document). -/
def pairPositions (t u : String) (tokens : List String) : List Nat :=
  (List.range tokens.length).filter (fun i => tokens.getD i "" = t ∧ nextTok tokens i = u)

theorem occPositions_nodup (t : String) (tokens : List String) :
    (occPositions t tokens).Nodup :=
  (List.nodup_range _).filter _

theorem pairPositions_nodup (t u : String) (tokens : List String) :
    (pairPositions t u tokens).Nodup :=
  (List.nodup_range _).filter _

theorem mem_occPositions {t : String} {tokens : List String} {i : Nat} :
    i ∈ occPositions t tokens ↔ i < tokens.length ∧ tokens.getD i "" = t := by
  simp [occPositions, List.mem_filter, List.mem_range, and_comm]

theorem mem_pairPositions {t u : String} {tokens : List String} {i : Nat} :
    i ∈ pairPositions t u tokens
      ↔ i < tokens.length ∧ tokens.getD i "" = t ∧ nextTok tokens i = u := by
  simp [pairPositions, List.mem_filter, List.mem_range]

/-- Collection well-formedness: distinct document ids; tokens are normalized
(nonempty, not the reserved sentinel). -/
def CollWF (C : List (Nat × List String)) : Prop :=
  (C.map Prod.fst).Nodup ∧ ∀ dp ∈ C, "" ∉ dp.2 ∧ "_" ∉ dp.2

instance : DecidablePred CollWF := fun C => by unfold CollWF; infer_instance

/-- The record data of one standard-stream document entry is exactly what the
record builder would emit for that document and term. -/
def StdDocRec (C : List (Nat × List String)) (t : String) (d : DocPost) : Prop :=
  match alookup C d.doc_id with
  | some tokens => d.positions = occPositions t tokens ∧ d.positions ≠ []
  | none => False

instance (C : List (Nat × List String)) (t : String) (d : DocPost) :
    Decidable (StdDocRec C t d) := by
  unfold StdDocRec
  cases alookup C d.doc_id <;> infer_instance

/-- `gs` is a well-formed sorted standard record stream of collection `C`:
every record is sound for its term, and every (term, document) occurrence of
the collection is represented. -/
def StdStreamOf (C : List (Nat × List String)) (gs : List StdGroup) : Prop :=
  StdWF gs ∧
  (∀ g ∈ gs, ∀ d ∈ g.docs, StdDocRec C g.term d) ∧
  (∀ dp ∈ C, ∀ t ∈ dp.2, ∃ g ∈ gs, g.term = t ∧ ∃ d ∈ g.docs, d.doc_id = dp.1)

instance (C : List (Nat × List String)) : DecidablePred (StdStreamOf C) := fun gs => by
  unfold StdStreamOf
  infer_instance

/-- The record data of one nextword-stream document entry. -/
def NWDocRec (C : List (Nat × List String)) (t u : String) (d : DocPost) : Prop :=
  match alookup C d.doc_id with
  | some tokens => d.positions = pairPositions t u tokens ∧ d.positions ≠ []
  | none => False

instance (C : List (Nat × List String)) (t u : String) (d : DocPost) :
    Decidable (NWDocRec C t u d) := by
  unfold NWDocRec
  cases alookup C d.doc_id <;> infer_instance

/-- `tgs` is a well-formed sorted nextword record stream of collection `C`. -/
def NWStreamOf (C : List (Nat × List String)) (tgs : List NWTermGroup) : Prop :=
  NWWF tgs ∧
  (∀ tg ∈ tgs, ∀ g ∈ tg.groups, ∀ d ∈ g.docs, NWDocRec C tg.first_term g.next_term d) ∧
  (∀ dp ∈ C, ∀ i < dp.2.length,
    ∃ tg ∈ tgs, tg.first_term = dp.2.getD i "" ∧
      ∃ g ∈ tg.groups, g.next_term = nextTok dp.2 i ∧ ∃ d ∈ g.docs, d.doc_id = dp.1)

instance (C : List (Nat × List String)) : DecidablePred (NWStreamOf C) := fun tgs => by
  unfold NWStreamOf
  infer_instance

/-! ## More association-list helpers -/

theorem alookup_map_values {κ β γ : Type} [DecidableEq κ] (l : List (κ × β))
    (f : κ → β → γ) (k : κ) :
    alookup (l.map (fun pr => (pr.1, f pr.1 pr.2))) k = (alookup l k).map (f k) := by
  induction l with
  | nil => simp [alookup]
  | cons p l ih =>
    cases p with
    | mk k₀ v₀ =>
      by_cases hk : k₀ = k
      · subst hk
        simp [alookup_cons]
      · simpa [alookup_cons, hk] using ih

theorem alookup_map_docs {β : Type} (docs : List DocPost) (f : DocPost → β) (did : Nat) (v : β)
    (h : alookup (docs.map (fun d => (d.doc_id, f d))) did = some v) :
    ∃ d ∈ docs, d.doc_id = did ∧ v = f d := by
  induction docs with
  | nil => simp [alookup] at h
  | cons d ds ih =>
    rw [List.map_cons, alookup_cons] at h
    by_cases hd : d.doc_id = did
    · rw [if_pos hd] at h
      exact ⟨d, by simp, hd, (Option.some_injective _ h).symm⟩
    · rw [if_neg hd] at h
      obtain ⟨d', hmem, hid, hv⟩ := ih h
      exact ⟨d', by simp [hmem], hid, hv⟩

theorem alookup_map_docs_isSome {β : Type} (docs : List DocPost) (f : DocPost → β) (did : Nat)
    (h : ∃ d ∈ docs, d.doc_id = did) :
    (alookup (docs.map (fun d => (d.doc_id, f d))) did).isSome := by
  rw [alookup_isSome_iff]
  obtain ⟨d, hmem, hid⟩ := h
  simp only [List.map_map]
  exact hid ▸ List.mem_map_of_mem _ hmem

theorem filter_eq_of_nodup (l : List Nat) (hnd : l.Nodup) (v : Nat) :
    l.filter (fun q => q = v) = if v ∈ l then [v] else [] := by
  induction l with
  | nil => simp
  | cons x l ih =>
    rw [List.nodup_cons] at hnd
    by_cases hx : x = v
    · subst hx
      simp only [List.filter_cons, decide_True, if_pos rfl, List.mem_cons, true_or, if_true]
      rw [ih hnd.2, if_neg hnd.1]
    · simp only [List.filter_cons]
      have : ¬ (x = v) := hx
      simp only [decide_eq_true_eq, this, if_false]
      rw [ih hnd.2]
      have hxv : ¬ v = x := fun h => hx h.symm
      simp [List.mem_cons, hxv]

theorem mem_filterMap_keys {β : Type} (l : List (Nat × β)) (P : Nat × β → Bool) (did : Nat)
    (hnd : (l.map Prod.fst).Nodup) :
    did ∈ (l.filter P).map Prod.fst ↔ ∃ v, alookup l did = some v ∧ P (did, v) := by
  induction l with
  | nil => simp [alookup]
  | cons p l ih =>
    cases p with
    | mk k₀ v₀ =>
      rw [List.map_cons, List.nodup_cons] at hnd
      by_cases hk : k₀ = did
      · subst hk
        rw [alookup_cons, if_pos rfl]
        constructor
        · intro hmem
          by_cases hP : P (k₀, v₀)
          · exact ⟨v₀, rfl, hP⟩
          · rw [List.filter_cons, if_neg (by simpa using hP)] at hmem
            obtain ⟨v, hv, hPv⟩ := (ih hnd.2).mp hmem
            exfalso
            have : (alookup l k₀).isSome := by rw [hv]; rfl
            exact hnd.1 (alookup_isSome_iff.mp this)
        · rintro ⟨v, hv, hPv⟩
          cases hv
          rw [List.filter_cons, if_pos (by simpa using hPv)]
          simp
      · rw [alookup_cons, if_neg hk]
        rw [List.filter_cons]
        by_cases hP : P (k₀, v₀)
        · rw [if_pos (by simpa using hP)]
          simp only [List.map_cons, List.mem_cons]
          rw [ih hnd.2]
          constructor
          · rintro (h | h)
            · exact absurd h.symm hk
            · exact h
          · intro h
            exact Or.inr h
        · rw [if_neg (by simpa using hP)]
          exact ih hnd.2

theorem getD_mem_of_lt {α : Type} (l : List α) (d : α) {n : Nat} (h : n < l.length) :
    l.getD n d ∈ l := by
  rw [List.getD_eq_getElem l d h]
  exact List.getElem_mem h

theorem alookup_mem {κ β : Type} [DecidableEq κ] {l : List (κ × β)} {k : κ} {v : β}
    (h : alookup l k = some v) : (k, v) ∈ l := by
  induction l with
  | nil => simp [alookup] at h
  | cons p l ih =>
    cases p with
    | mk k₀ v₀ =>
      rw [alookup_cons] at h
      by_cases hk : k₀ = k
      · rw [if_pos hk] at h
        have hv : v₀ = v := by injection h
        subst hk
        subst hv
        simp
      · rw [if_neg hk] at h
        exact List.mem_cons_of_mem _ (ih h)

/-! ## Standard fetch: seek + sequential decode equals the stream group -/

/-- What fetching a term's postings should produce, stated on the stream:
the term's group decoded into per-document single-position chains. -/
def fetchStd (gs : List StdGroup) (t : String) : List (Nat × List (List Nat)) :=
  match gs.find? (fun g => g.term = t) with
  | some g => g.docs.map (fun d => (d.doc_id, d.positions.map (fun p => [p])))
  | none => []

/-- Looking up a term of the built index and decoding `doc_freq` groups from
its offset returns exactly its stream group and stops exactly at the end of
its block. -/
theorem std_block_read (gs₁ : List StdGroup) (g : StdGroup) (gs₂ : List StdGroup)
    (hWF : StdWF (gs₁ ++ g :: gs₂)) :
    alookup (buildStd (stdStreamRecords (gs₁ ++ g :: gs₂))).terms g.term
      = some ⟨g.docs.length, posTotal g.docs, ((gs₁.map encodeStdGroup).flatten).length⟩ ∧
    readStdDocs (buildStd (stdStreamRecords (gs₁ ++ g :: gs₂))).store
        ((gs₁.map encodeStdGroup).flatten).length [] g.docs.length
      = (g.docs.map (fun d => (d.doc_id, d.positions.map (fun p => [p]))),
        ((gs₁.map encodeStdGroup).flatten).length + (encodeStdGroup g).length) := by
  rw [buildStd_spec _ hWF]
  constructor
  · exact stdLexicon_lookup gs₁ g gs₂ hWF.1
  · have hstore : ((gs₁ ++ g :: gs₂).map encodeStdGroup).flatten
        = (gs₁.map encodeStdGroup).flatten ++ encodeStdGroup g
            ++ (gs₂.map encodeStdGroup).flatten := by
      simp [List.flatten_append]
    show readStdDocs ((gs₁ ++ g :: gs₂).map encodeStdGroup).flatten _ _ _ = _
    rw [hstore]
    have hnd : (g.docs.map (fun d => d.doc_id)).Nodup :=
      (hWF.2 g (by simp)).2.1
    have := readStdDocs_spec g.docs ((gs₁.map encodeStdGroup).flatten)
      ((gs₂.map encodeStdGroup).flatten) [] (fun d _ => rfl) hnd
    simpa [encodeStdGroup] using this

/-- Fetching any term from the built index equals the canonical stream fetch. -/
theorem getCorpus_eq_fetchStd (gs : List StdGroup) (hWF : StdWF gs) (t : String) :
    getCorpusTermPosList (buildStd (stdStreamRecords gs)).terms
      (buildStd (stdStreamRecords gs)).store t = fetchStd gs t := by
  unfold fetchStd
  cases hfind : gs.find? (fun g => g.term = t) with
  | none =>
    rw [List.find?_eq_none] at hfind
    have hnone : alookup (buildStd (stdStreamRecords gs)).terms t = none := by
      rw [buildStd_spec _ hWF]
      apply stdLexicon_lookup_of_notMem
      intro hmem
      obtain ⟨g, hg, hgt⟩ := List.mem_map.mp hmem
      exact hfind g hg (by simpa using hgt)
    simp [getCorpusTermPosList, hnone]
  | some g =>
    have hgt : g.term = t := by simpa using List.find?_some hfind
    obtain ⟨gs₁, gs₂, hsplit⟩ := List.append_of_mem (List.mem_of_find?_eq_some hfind)
    subst hsplit
    subst hgt
    obtain ⟨hlk, hread⟩ := std_block_read gs₁ g gs₂ hWF
    unfold getCorpusTermPosList
    rw [hlk]
    simp only [hread]

/-- Semantic characterization of the standard fetch over a collection stream. -/
theorem fetchStd_sem (C : List (Nat × List String)) (gs : List StdGroup)
    (hSO : StdStreamOf C gs) (t : String) (did : Nat) :
    alookup (fetchStd gs t) did
      = match alookup C did with
        | some tokens =>
          if occPositions t tokens = [] then none
          else some ((occPositions t tokens).map (fun p => [p]))
        | none => none := by
  obtain ⟨hWF, hsound, hcomplete⟩ := hSO
  cases hfind : gs.find? (fun g => g.term = t) with
  | none =>
    have hfs : fetchStd gs t = [] := by
      unfold fetchStd
      rw [hfind]
    rw [List.find?_eq_none] at hfind
    rw [hfs]
    cases hC : alookup C did with
    | none => rfl
    | some tokens =>
      show (none : Option (List (List Nat)))
        = if occPositions t tokens = [] then none
          else some ((occPositions t tokens).map (fun p => [p]))
      cases hocc : occPositions t tokens with
      | nil => rfl
      | cons p ps =>
        exfalso
        have hp : p ∈ occPositions t tokens := by rw [hocc]; simp
        rw [mem_occPositions] at hp
        have htmem : t ∈ tokens := hp.2 ▸ getD_mem_of_lt tokens "" hp.1
        obtain ⟨g, hg, hgt, _⟩ := hcomplete (did, tokens) (alookup_mem hC) t htmem
        exact hfind g hg (by simpa using hgt)
  | some g =>
    have hgt : g.term = t := by simpa using List.find?_some hfind
    have hgmem : g ∈ gs := List.mem_of_find?_eq_some hfind
    have hfs : fetchStd gs t
        = g.docs.map (fun d => (d.doc_id, d.positions.map (fun p => [p]))) := by
      unfold fetchStd
      rw [hfind]
    rw [hfs]
    cases hC : alookup C did with
    | none =>
      show alookup _ did = none
      rw [alookup_eq_none_iff]
      intro pr hpr hkey
      obtain ⟨d, hd, heq⟩ := List.mem_map.mp hpr
      have hdid : d.doc_id = did := by rw [← heq] at hkey; exact hkey
      have hrec := hsound g hgmem d hd
      unfold StdDocRec at hrec
      rw [hdid, hC] at hrec
      exact hrec
    | some tokens =>
      show alookup _ did
        = if occPositions t tokens = [] then none
          else some ((occPositions t tokens).map (fun p => [p]))
      by_cases hocc : occPositions t tokens = []
      · rw [if_pos hocc]
        rw [alookup_eq_none_iff]
        intro pr hpr hkey
        obtain ⟨d, hd, heq⟩ := List.mem_map.mp hpr
        have hdid : d.doc_id = did := by rw [← heq] at hkey; exact hkey
        have hrec := hsound g hgmem d hd
        unfold StdDocRec at hrec
        rw [hdid, hC] at hrec
        rw [hgt] at hrec
        rw [hrec.1, hocc] at hrec
        exact hrec.2 rfl
      · rw [if_neg hocc]
        have htmem : t ∈ tokens := by
          cases hme : occPositions t tokens with
          | nil => exact absurd hme hocc
          | cons p ps =>
            have hp : p ∈ occPositions t tokens := by rw [hme]; simp
            rw [mem_occPositions] at hp
            exact hp.2 ▸ getD_mem_of_lt tokens "" hp.1
        obtain ⟨g', hg', hg't, d, hd, hdid⟩ := hcomplete (did, tokens) (alookup_mem hC) t htmem
        have hgg : g' = g :=
          List.inj_on_of_nodup_map hWF.1 hg' hgmem (by rw [hg't, hgt])
        subst hgg
        have hsome := alookup_map_docs_isSome g'.docs
          (fun d => d.positions.map (fun p => [p])) did ⟨d, hd, hdid⟩
        obtain ⟨v, hv⟩ := Option.isSome_iff_exists.mp hsome
        rw [hv]
        obtain ⟨d', hd', hdid', hveq⟩ := alookup_map_docs _ _ _ _ hv
        have hrec := hsound g' hgmem d' hd'
        unfold StdDocRec at hrec
        rw [hdid', hC] at hrec
        rw [hg't] at hrec
        rw [hveq, hrec.1]

/-! ## Chain evolution of the standard resolver -/

theorem flatten_map_singleton {α : Type} (l : List α) :
    (l.map (fun x => [x])).flatten = l := by
  induction l with
  | nil => rfl
  | cons x l ih => simp [ih]

/-- The per-chain effect of one extension pass over one document. -/
def chainStep (tokens : List String) (t : String) (c : List Nat) : List Nat :=
  c ++ (occPositions t tokens).filter (fun q => q = lastD c + 1)

/-- The per-chain effect of extending through the whole remaining query. -/
def evolveChain (tokens : List String) (ts : List String) (c : List Nat) : List Nat :=
  ts.foldl (fun c t => chainStep tokens t c) c

/-- Every extension step of the remaining query succeeds from seed `p`. -/
def stepOkAll (tokens : List String) (p : Nat) (ts : List String) : Prop :=
  ∀ k < ts.length, (p + 1 + k) ∈ occPositions (ts.getD k "") tokens

theorem fetchStd_sem_some (C : List (Nat × List String)) (gs : List StdGroup)
    (hSO : StdStreamOf C gs) (t : String) (did : Nat) (tokens : List String)
    (hC : alookup C did = some tokens) :
    alookup (fetchStd gs t) did
      = if occPositions t tokens = [] then none
        else some ((occPositions t tokens).map (fun p => [p])) := by
  have h := fetchStd_sem C gs hSO t did
  rw [hC] at h
  exact h

theorem fetchStd_sem_none (C : List (Nat × List String)) (gs : List StdGroup)
    (hSO : StdStreamOf C gs) (t : String) (did : Nat)
    (hC : alookup C did = none) :
    alookup (fetchStd gs t) did = none := by
  have h := fetchStd_sem C gs hSO t did
  rw [hC] at h
  exact h

theorem extendDoc_sem (C : List (Nat × List String)) (gs : List StdGroup)
    (hSO : StdStreamOf C gs) (t : String) (did : Nat) (tokens : List String)
    (hC : alookup C did = some tokens) (chains : List (List Nat)) :
    extendDoc (fetchStd gs t) did chains = chains.map (chainStep tokens t) := by
  unfold extendDoc
  have hsem := fetchStd_sem_some C gs hSO t did tokens hC
  by_cases hocc : occPositions t tokens = []
  · rw [if_pos hocc] at hsem
    rw [hsem]
    show chains = _
    have : chains.map (chainStep tokens t) = chains.map id := by
      apply List.map_congr_left
      intro c _
      simp [chainStep, hocc]
    rw [this, List.map_id]
  · rw [if_neg hocc] at hsem
    rw [hsem]
    have hne : (occPositions t tokens).map (fun p => [p]) ≠ [] := by
      simpa using hocc
    show (if (occPositions t tokens).map (fun p => [p]) = [] then chains
      else chains.map (extendChain ((occPositions t tokens).map (fun p => [p])))) = _
    rw [if_neg hne]
    apply List.map_congr_left
    intro c _
    unfold extendChain chainStep
    rw [flatten_map_singleton]

theorem chainStep_length_le (tokens : List String) (t : String) (c : List Nat) :
    (chainStep tokens t c).length ≤ c.length + 1 := by
  unfold chainStep
  rw [List.length_append]
  have := filter_eq_of_nodup (occPositions t tokens) (occPositions_nodup t tokens)
    (lastD c + 1)
  rw [this]
  by_cases h : (lastD c + 1) ∈ occPositions t tokens
  · rw [if_pos h]; simp
  · rw [if_neg h]; simp

theorem evolveChain_length_le (tokens : List String) (ts : List String) (c : List Nat) :
    (evolveChain tokens ts c).length ≤ c.length + ts.length := by
  induction ts generalizing c with
  | nil => simp [evolveChain]
  | cons t ts ih =>
    show (evolveChain tokens ts (chainStep tokens t c)).length ≤ _
    calc (evolveChain tokens ts (chainStep tokens t c)).length
        ≤ (chainStep tokens t c).length + ts.length := ih _
      _ ≤ (c.length + 1) + ts.length := by
          have := chainStep_length_le tokens t c
          omega
      _ = c.length + (t :: ts).length := by simp; omega

theorem lastD_range' (p m : Nat) (hm : 1 ≤ m) :
    lastD (List.range' p m 1) = p + (m - 1) := by
  cases m with
  | zero => omega
  | succ m =>
    unfold lastD
    rw [List.range'_concat]
    simp

theorem chainStep_range'_ok (tokens : List String) (t : String) (p m : Nat) (hm : 1 ≤ m)
    (hmem : (p + m) ∈ occPositions t tokens) :
    chainStep tokens t (List.range' p m 1) = List.range' p (m + 1) 1 := by
  unfold chainStep
  rw [lastD_range' p m hm]
  have harg : p + (m - 1) + 1 = p + m := by omega
  rw [harg]
  rw [filter_eq_of_nodup _ (occPositions_nodup t tokens), if_pos hmem]
  rw [List.range'_concat]
  simp

theorem chainStep_range'_fail (tokens : List String) (t : String) (p m : Nat) (hm : 1 ≤ m)
    (hmem : (p + m) ∉ occPositions t tokens) :
    chainStep tokens t (List.range' p m 1) = List.range' p m 1 := by
  unfold chainStep
  rw [lastD_range' p m hm]
  have harg : p + (m - 1) + 1 = p + m := by omega
  rw [harg]
  rw [filter_eq_of_nodup _ (occPositions_nodup t tokens), if_neg hmem]
  simp

theorem evolve_good (tokens : List String) (ts : List String) :
    ∀ (p m : Nat), 1 ≤ m →
      (∀ k < ts.length, (p + m + k) ∈ occPositions (ts.getD k "") tokens) →
      evolveChain tokens ts (List.range' p m 1) = List.range' p (m + ts.length) 1 := by
  induction ts with
  | nil => intro p m _ _; simp [evolveChain]
  | cons t ts ih =>
    intro p m hm hok
    show evolveChain tokens ts (chainStep tokens t (List.range' p m 1)) = _
    rw [chainStep_range'_ok tokens t p m hm (by simpa using hok 0 (by simp))]
    rw [ih p (m + 1) (by omega) ?_]
    · congr 1
      simp
      omega
    · intro k hk
      have := hok (k + 1) (by simp; omega)
      simp only [List.getD_cons_succ] at this
      have harg : p + m + (k + 1) = p + (m + 1) + k := by omega
      rw [harg] at this
      exact this

theorem evolve_bad (tokens : List String) (ts : List String) :
    ∀ (p m : Nat), 1 ≤ m →
      ¬ (∀ k < ts.length, (p + m + k) ∈ occPositions (ts.getD k "") tokens) →
      (evolveChain tokens ts (List.range' p m 1)).length < m + ts.length := by
  induction ts with
  | nil =>
    intro p m hm hbad
    exact absurd (fun k hk => absurd hk (by simp)) hbad
  | cons t ts ih =>
    intro p m hm hbad
    show (evolveChain tokens ts (chainStep tokens t (List.range' p m 1))).length < _
    by_cases hfirst : (p + m) ∈ occPositions t tokens
    · rw [chainStep_range'_ok tokens t p m hm hfirst]
      have hbad' : ¬ (∀ k < ts.length, (p + (m + 1) + k) ∈ occPositions (ts.getD k "") tokens) := by
        intro hok
        apply hbad
        intro k hk
        cases k with
        | zero => simpa using hfirst
        | succ k =>
          have := hok k (by simp at hk; omega)
          simp only [List.getD_cons_succ]
          have harg : p + m + (k + 1) = p + (m + 1) + k := by omega
          rw [harg]
          exact this
      have := ih p (m + 1) (by omega) hbad'
      simp only [List.length_cons]
      omega
    · rw [chainStep_range'_fail tokens t p m hm hfirst]
      have hlen : (List.range' p m 1).length = m := by simp
      have := evolveChain_length_le tokens ts (List.range' p m 1)
      rw [hlen] at this
      simp only [List.length_cons]
      omega

theorem range'_one (p : Nat) : List.range' p 1 1 = [p] := rfl

/-- The seeded chain reaches full query length exactly when every extension
step succeeds. -/
theorem evolve_length_iff (tokens : List String) (ts : List String) (p : Nat) :
    (evolveChain tokens ts [p]).length = ts.length + 1 ↔ stepOkAll tokens p ts := by
  constructor
  · intro hlen
    by_contra hbad
    have hbad' : ¬ (∀ k < ts.length, (p + 1 + k) ∈ occPositions (ts.getD k "") tokens) := hbad
    have := evolve_bad tokens ts p 1 le_rfl hbad'
    rw [range'_one] at this
    omega
  · intro hok
    have := evolve_good tokens ts p 1 le_rfl (fun k hk => hok k hk)
    rw [range'_one] at this
    rw [this]
    simp
    omega

/-! ## The standard resolver computes phrase occurrence -/

/-- `(q0 :: rest)` occurs contiguously in `tokens` starting at `p`. -/
def phraseAt (qterms tokens : List String) (p : Nat) : Prop :=
  ∀ i < qterms.length, p + i < tokens.length ∧ tokens.getD (p + i) "" = qterms.getD i ""

theorem phrase_iff_chain (q0 : String) (rest : List String) (tokens : List String) (p : Nat) :
    phraseAt (q0 :: rest) tokens p
      ↔ p ∈ occPositions q0 tokens ∧ stepOkAll tokens p rest := by
  constructor
  · intro h
    constructor
    · have h0 := h 0 (by simp)
      rw [mem_occPositions]
      simpa using h0
    · intro k hk
      have hk1 := h (k + 1) (by simp; omega)
      rw [mem_occPositions]
      simp only [List.getD_cons_succ] at hk1
      have harg : p + (k + 1) = p + 1 + k := by omega
      rw [harg] at hk1
      exact hk1
  · rintro ⟨hseed, hsteps⟩
    intro i hi
    cases i with
    | zero =>
      rw [mem_occPositions] at hseed
      simpa using hseed
    | succ k =>
      have := hsteps k (by simp at hi; omega)
      rw [mem_occPositions] at this
      simp only [List.getD_cons_succ]
      have harg : p + (k + 1) = p + 1 + k := by omega
      rw [harg]
      exact this

theorem stdFold_sem (C : List (Nat × List String)) (gs : List StdGroup)
    (hSO : StdStreamOf C gs) (ts : List String) :
    ∀ (pd : List (Nat × List (List Nat))), (∀ pr ∈ pd, (alookup C pr.1).isSome) →
      ts.foldl (fun pd t => stdStep pd (fetchStd gs t)) pd
        = pd.map (fun pr => (pr.1, pr.2.map (evolveChain ((alookup C pr.1).getD []) ts))) := by
  induction ts with
  | nil =>
    intro pd _
    show pd = _
    have : pd.map (fun pr => (pr.1, pr.2.map (evolveChain ((alookup C pr.1).getD []) [])))
        = pd.map id := by
      apply List.map_congr_left
      intro pr _
      show (pr.1, pr.2.map (fun c => c)) = pr
      simp
    rw [this, List.map_id]
  | cons t ts ih =>
    intro pd hkeys
    show ts.foldl _ (stdStep pd (fetchStd gs t)) = _
    have hkeys' : ∀ pr ∈ stdStep pd (fetchStd gs t), (alookup C pr.1).isSome := by
      intro pr hpr
      obtain ⟨pr₀, hpr₀, heq⟩ := List.mem_map.mp hpr
      have := hkeys pr₀ hpr₀
      rw [← heq]
      exact this
    rw [ih _ hkeys']
    unfold stdStep
    rw [List.map_map]
    apply List.map_congr_left
    intro pr hpr
    obtain ⟨tokens, hC⟩ := Option.isSome_iff_exists.mp (hkeys pr hpr)
    simp only [Function.comp]
    rw [extendDoc_sem C gs hSO t pr.1 tokens hC]
    rw [hC]
    simp only [Option.getD_some, List.map_map]
    congr 1

/-- The standard resolver's match set is exactly the set of documents with a
contiguous occurrence of the query phrase. -/
theorem stdMaster (C : List (Nat × List String)) (gs : List StdGroup)
    (hSO : StdStreamOf C gs) (q0 : String) (rest : List String) (did : Nat) :
    did ∈ stdGetDocMatches (buildStd (stdStreamRecords gs)).terms
        (buildStd (stdStreamRecords gs)).store (q0 :: rest)
      ↔ ∃ tokens, alookup C did = some tokens ∧ ∃ p, phraseAt (q0 :: rest) tokens p := by
  have hWF := hSO.1
  unfold stdGetDocMatches
  simp only [getCorpus_eq_fetchStd gs hWF]
  have hkeys : ∀ pr ∈ fetchStd gs q0, (alookup C pr.1).isSome := by
    intro pr hpr
    unfold fetchStd at hpr
    cases hfind : gs.find? (fun g => g.term = q0) with
    | none => rw [hfind] at hpr; simp at hpr
    | some g =>
      rw [hfind] at hpr
      obtain ⟨d, hd, heq⟩ := List.mem_map.mp hpr
      have hrec := hSO.2.1 g (List.mem_of_find?_eq_some hfind) d hd
      unfold StdDocRec at hrec
      rw [← heq]
      cases hC : alookup C d.doc_id with
      | none => rw [hC] at hrec; exact absurd hrec id
      | some tokens => simp
  rw [stdFold_sem C gs hSO rest _ hkeys]
  have hnodup : (((fetchStd gs q0).map
      (fun pr => (pr.1, pr.2.map (evolveChain ((alookup C pr.1).getD []) rest)))).map
        Prod.fst).Nodup := by
    rw [List.map_map]
    have hkeq : ((fetchStd gs q0).map
        (Prod.fst ∘ fun pr => (pr.1, pr.2.map (evolveChain ((alookup C pr.1).getD []) rest))))
        = (fetchStd gs q0).map Prod.fst := by
      apply List.map_congr_left
      intro pr _
      rfl
    rw [hkeq]
    unfold fetchStd
    cases hfind : gs.find? (fun g => g.term = q0) with
    | none => simp
    | some g =>
      rw [List.map_map]
      have : ((fun d : DocPost => (d.doc_id, d.positions.map (fun p => [p]))) · |>.fst)
          = fun d : DocPost => d.doc_id := rfl
      simpa using (hWF.2 g (List.mem_of_find?_eq_some hfind)).2.1
  rw [mem_filterMap_keys _ _ did hnodup]
  rw [alookup_map_values (fetchStd gs q0)
    (fun k chains => chains.map (evolveChain ((alookup C k).getD []) rest)) did]
  cases hC : alookup C did with
  | none =>
    rw [fetchStd_sem_none C gs hSO q0 did hC]
    simp
  | some tokens =>
    rw [fetchStd_sem_some C gs hSO q0 did tokens hC]
    by_cases hocc : occPositions q0 tokens = []
    · rw [if_pos hocc]
      constructor
      · rintro ⟨v, hv, _⟩
        exact absurd hv (by simp)
      · rintro ⟨tokens', htk, p, hph⟩
        injection htk with heq
        subst heq
        have hchain := (phrase_iff_chain q0 rest tokens p).mp hph
        rw [hocc] at hchain
        exact absurd hchain.1 (by simp)
    · rw [if_neg hocc]
      simp only [Option.map_some', Option.getD_some]
      constructor
      · rintro ⟨v, hv, hP⟩
        have hveq : v = ((occPositions q0 tokens).map (fun p => [p])).map
            (evolveChain tokens rest) := by
          injection hv with h4
          exact h4.symm
        subst hveq
        simp only [List.map_map] at hP
        rw [List.any_eq_true] at hP
        obtain ⟨c, hc, hclen⟩ := hP
        obtain ⟨p, hp, hceq⟩ := List.mem_map.mp hc
        refine ⟨tokens, rfl, p, ?_⟩
        rw [phrase_iff_chain]
        refine ⟨hp, ?_⟩
        rw [← evolve_length_iff tokens rest p]
        simp only [Function.comp] at hceq
        rw [← hceq] at hclen
        simp only [decide_eq_true_eq] at hclen
        simpa using hclen
      · rintro ⟨tokens', htk, p, hph⟩
        injection htk with heq
        subst heq
        rw [phrase_iff_chain] at hph
        refine ⟨((occPositions q0 tokens).map (fun p => [p])).map
          (evolveChain tokens rest), rfl, ?_⟩
        simp only [List.map_map]
        rw [List.any_eq_true]
        refine ⟨evolveChain tokens rest [p], List.mem_map.mpr ⟨p, hph.1, rfl⟩, ?_⟩
        simp only [decide_eq_true_eq]
        have := (evolve_length_iff tokens rest p).mpr hph.2
        simpa using this

/-! ## Sortedness of the pair ordering -/

theorem mem_insertDescBy {α : Type} (key : α → Nat) (x a : α) (l : List α) :
    a ∈ insertDescBy key x l ↔ a = x ∨ a ∈ l := by
  induction l with
  | nil => simp [insertDescBy]
  | cons y ys ih =>
    unfold insertDescBy
    by_cases h : key y < key x
    · simp [h]
    · rw [if_neg h]
      simp only [List.mem_cons, ih]
      tauto

theorem insertDescBy_sorted {α : Type} (key : α → Nat) (x : α) (l : List α)
    (hs : List.Sorted (fun a b => key b ≤ key a) l) :
    List.Sorted (fun a b => key b ≤ key a) (insertDescBy key x l) := by
  induction l with
  | nil => simp [insertDescBy]
  | cons y ys ih =>
    unfold insertDescBy
    rw [List.sorted_cons] at hs
    by_cases h : key y < key x
    · rw [if_pos h]
      rw [List.sorted_cons]
      constructor
      · intro b hb
        rcases List.mem_cons.mp hb with hb | hb
        · subst hb
          omega
        · have := hs.1 b hb
          omega
      · rw [List.sorted_cons]
        exact hs
    · rw [if_neg h]
      rw [List.sorted_cons]
      constructor
      · intro b hb
        rcases (mem_insertDescBy key x b ys).mp hb with hb | hb
        · subst hb
          omega
        · exact hs.1 b hb
      · exact ih hs.2

theorem sortDescBy_sorted {α : Type} (key : α → Nat) (l : List α) :
    List.Sorted (fun a b => key b ≤ key a) (sortDescBy key l) := by
  unfold sortDescBy
  have haux : ∀ (xs : List α) (acc : List α),
      List.Sorted (fun a b => key b ≤ key a) acc →
      List.Sorted (fun a b => key b ≤ key a)
        (xs.foldl (fun acc x => insertDescBy key x acc) acc) := by
    intro xs
    induction xs with
    | nil => intro acc h; exact h
    | cons x xs ih =>
      intro acc h
      exact ih _ (insertDescBy_sorted key x acc h)
  exact haux l [] (by simp)

/-! ## Claim C1: pair processing order -/

/-- A small biword lexicon: `a` rare (collection_freq 1), `b` frequent (5), `c` middle (3). -/
def c1lex : List (String × NWEntry) :=
  [("a", ⟨1, 1, 1, 0⟩), ("b", ⟨1, 1, 5, 0⟩), ("c", ⟨1, 1, 3, 0⟩)]

/-- C1 (counterexample): for the query `a b c` over `c1lex`, `setup_term_pairs`
orders the unique pairs `[(b,c) ↦ 5, (a,b) ↦ 1]`, i.e. by *descending* first-term
`collection_freq`; the pair with the rarest first term is fetched last, so the
claimed ascending order is false at this input. -/
theorem c1_counterexample :
    (setupTermPairs c1lex ["a", "b", "c"]).map (fun x => x.1)
      = some [(("b", "c"), 5), (("a", "b"), 1)] ∧
    ¬ List.Sorted (fun a b : (String × String) × Nat => a.2 ≤ b.2)
        [(("b", "c"), 5), (("a", "b"), 1)] := by
  constructor
  · rfl
  · decide

/-- C1 (amended): `setup_term_pairs` orders the unique adjacent term pairs in
*descending* order of the first term's `collection_freq` (`sort_dict_by_value`
is called with `reverse=True`); ties keep first-occurrence order. -/
theorem c1_pairs_sorted_descending (lex : List (String × NWEntry)) (terms : List String)
    (ordered : List ((String × String) × Nat)) (qtps : List (String × String))
    (cov : List Bool) (h : setupTermPairs lex terms = some (ordered, qtps, cov)) :
    List.Sorted (fun a b : (String × String) × Nat => b.2 ≤ a.2) ordered := by
  unfold setupTermPairs at h
  cases hl : setupPairsLoop lex (terms.zip terms.tail) [] [] with
  | none => rw [hl] at h; simp at h
  | some pr =>
    rw [hl] at h
    simp only [Option.map_some'] at h
    injection h with h2
    have hord : sortDescBy (fun x => x.2) pr.1 = ordered := congrArg Prod.fst h2
    rw [← hord]
    exact sortDescBy_sorted _ _

/-- Witness for C1: the amended theorem applied at the concrete `c1lex` query. -/
theorem c1_witness :
    setupTermPairs c1lex ["a", "b", "c"]
      = some ([(("b", "c"), 5), (("a", "b"), 1)], [("a", "b"), ("b", "c")],
          [false, false, false]) ∧
    List.Sorted (fun a b : (String × String) × Nat => b.2 ≤ a.2)
        [(("b", "c"), 5), (("a", "b"), 1)] :=
  ⟨by decide, c1_pairs_sorted_descending c1lex ["a", "b", "c"]
    [(("b", "c"), 5), (("a", "b"), 1)] [("a", "b"), ("b", "c")] [false, false, false]
    (by decide)⟩

/-! ## Claim C8: chain extension of the standard resolver -/

/-- The position dict after seeding from the first term and extending through
the remaining query terms (the loop body of
`StandardQueryProcessor.get_doc_matches`). -/
def stdFinalPosDict (lex : List (String × Entry)) (store : List Nat) (t0 : String)
    (rest : List String) : List (Nat × List (List Nat)) :=
  rest.foldl (fun pd term => stdStep pd (getCorpusTermPosList lex store term))
    (getCorpusTermPosList lex store t0)

theorem stdGetDocMatches_eq (lex : List (String × Entry)) (store : List Nat) (t0 : String)
    (rest : List String) :
    stdGetDocMatches lex store (t0 :: rest)
      = ((stdFinalPosDict lex store t0 rest).filter
          (fun pr => pr.2.any (fun c => c.length = (t0 :: rest).length))).map Prod.fst := rfl

/-- One extension pass rewrites every chain in place, appending exactly the
next-term positions equal to its captured last position plus one. -/
theorem extendDoc_inPlace (nd : List (Nat × List (List Nat))) (doc : Nat)
    (chains : List (List Nat)) :
    extendDoc nd doc chains
      = chains.map (fun c =>
          c ++ ((alookup nd doc).getD []).flatten.filter (fun q => q = lastD c + 1)) := by
  unfold extendDoc
  cases h : alookup nd doc with
  | none =>
    show chains = _
    simp only [Option.getD_none, List.flatten_nil, List.filter_nil, List.append_nil]
    rw [List.map_id']
  | some nls =>
    show (if nls = [] then chains else chains.map (extendChain nls)) = _
    by_cases hnls : nls = []
    · rw [if_pos hnls]
      subst hnls
      simp only [Option.getD_some, List.flatten_nil, List.filter_nil, List.append_nil]
      rw [List.map_id']
    · rw [if_neg hnls]
      rfl

theorem mem_stdMatches_iff (lex : List (String × Entry)) (store : List Nat) (t0 : String)
    (rest : List String) (did : Nat) :
    did ∈ stdGetDocMatches lex store (t0 :: rest)
      ↔ ∃ chains, (did, chains) ∈ stdFinalPosDict lex store t0 rest ∧
          ∃ c ∈ chains, c.length = (t0 :: rest).length := by
  rw [stdGetDocMatches_eq]
  rw [List.mem_map]
  constructor
  · rintro ⟨⟨k, chains⟩, hpr, hfst⟩
    rw [List.mem_filter] at hpr
    simp only at hfst
    subst hfst
    refine ⟨chains, hpr.1, ?_⟩
    have hany := hpr.2
    rw [List.any_eq_true] at hany
    obtain ⟨c, hc, hlen⟩ := hany
    exact ⟨c, hc, by simpa using hlen⟩
  · rintro ⟨chains, hmem, c, hc, hlen⟩
    refine ⟨(did, chains), ?_, rfl⟩
    rw [List.mem_filter]
    refine ⟨hmem, ?_⟩
    rw [List.any_eq_true]
    exact ⟨c, hc, by simpa using hlen⟩

/-- C8: in the standard resolver's chain-extension step every qualifying next
position is appended to the same chain (chains never fork: their count is
preserved and each is rewritten in place); a document matches exactly when one
of its chains has length equal to the query length, so a chain whose length
exceeds the query length never produces a match. -/
theorem c8_chain_extension_no_fork :
    (∀ (nd : List (Nat × List (List Nat))) (doc : Nat) (chains : List (List Nat)),
      (extendDoc nd doc chains).length = chains.length ∧
      extendDoc nd doc chains
        = chains.map (fun c =>
            c ++ ((alookup nd doc).getD []).flatten.filter (fun q => q = lastD c + 1))) ∧
    (∀ (lex : List (String × Entry)) (store : List Nat) (t0 : String) (rest : List String)
      (did : Nat),
      (did ∈ stdGetDocMatches lex store (t0 :: rest)
        ↔ ∃ chains, (did, chains) ∈ stdFinalPosDict lex store t0 rest ∧
            ∃ c ∈ chains, c.length = (t0 :: rest).length) ∧
      ((∀ chains, (did, chains) ∈ stdFinalPosDict lex store t0 rest →
          ∀ c ∈ chains, (t0 :: rest).length < c.length) →
        did ∉ stdGetDocMatches lex store (t0 :: rest))) := by
  constructor
  · intro nd doc chains
    constructor
    · rw [extendDoc_inPlace]
      simp
    · exact extendDoc_inPlace nd doc chains
  · intro lex store t0 rest did
    constructor
    · exact mem_stdMatches_iff lex store t0 rest did
    · intro hlong hmem
      rw [mem_stdMatches_iff] at hmem
      obtain ⟨chains, hchains, c, hc, hlen⟩ := hmem
      have := hlong chains hchains c hc
      omega

/-- Witness for C8 at a concrete empty index and query. -/
theorem c8_witness :
    (extendDoc ([] : List (Nat × List (List Nat))) 0 [[1]]).length = [[1]].length ∧
    (0 : Nat) ∉ stdGetDocMatches [] [] ["a"] := by
  constructor
  · exact (c8_chain_extension_no_fork.1 [] 0 [[1]]).1
  · apply (c8_chain_extension_no_fork.2 [] [] "a" [] 0).2
    intro chains hchains
    exfalso
    simp [stdFinalPosDict, getCorpusTermPosList, alookup] at hchains

/-! ## Biword builder characterization: write-level lemmas -/

/-- The buffer accumulated for a fully processed pair group. -/
def bufOf (g : PairGroup) : Buffer :=
  ⟨g.next_term, g.docs.map (fun d => (d.doc_id, d.positions))⟩

/-- The store footprint of flushing a buffer with next-term id `ntid`. -/
def encodeBuffer (ntid : Nat) (dl : List (Nat × List Nat)) : List Nat :=
  [ntid, dl.length] ++ (dl.map (fun pr => [pr.1, pr.2.length] ++ pr.2)).flatten

theorem encodeBuffer_bufOf (idOf : String → Nat) (g : PairGroup) :
    encodeBuffer (idOf g.next_term) (bufOf g).doc_ids = encodePairGroup idOf g := by
  unfold encodeBuffer bufOf encodePairGroup encodeDocs
  simp only [List.length_map, List.map_map]
  rfl

theorem aupdate_ext {κ β : Type} [DecidableEq κ] (l : List (κ × β)) (k : κ) (f g : β → β)
    (h : ∀ v, f v = g v) : aupdate l k f = aupdate l k g := by
  unfold aupdate
  apply List.map_congr_left
  intro p _
  by_cases hp : p.1 = k
  · simp [hp, h]
  · simp [hp]

theorem aupdate_aupdate {κ β : Type} [DecidableEq κ] (l : List (κ × β)) (k : κ) (f g : β → β) :
    aupdate (aupdate l k f) k g = aupdate l k (fun v => g (f v)) := by
  unfold aupdate
  rw [List.map_map]
  apply List.map_congr_left
  intro p _
  by_cases hp : p.1 = k
  · simp [Function.comp, hp]
  · simp [Function.comp, hp]

theorem aupdate_id {κ β : Type} [DecidableEq κ] (l : List (κ × β)) (k : κ) (f : β → β)
    (h : ∀ v, f v = v) : aupdate l k f = l := by
  unfold aupdate
  have hpt : ∀ p ∈ l, (if p.1 = k then (p.1, f p.2) else p) = p := by
    intro p _
    by_cases hp : p.1 = k
    · rw [if_pos hp, h p.2]
    · rw [if_neg hp]
  rw [List.map_congr_left hpt, List.map_id']

theorem foldl_nwWriteInt (ps : List Nat) (s : NWState) :
    ps.foldl nwWriteInt s =
      { s with store := s.store ++ ps, current_offset := s.current_offset + ps.length } := by
  induction ps generalizing s with
  | nil => simp
  | cons p ps ih =>
    rw [List.foldl_cons, ih]
    simp [nwWriteInt]
    omega

theorem foldl_writeDocIds (dl : List (Nat × List Nat)) (s : NWState) :
    dl.foldl (fun st pr => pr.2.foldl nwWriteInt (nwWriteInt (nwWriteInt st pr.1) pr.2.length)) s
      = { s with
          store := s.store ++ (dl.map (fun pr => [pr.1, pr.2.length] ++ pr.2)).flatten,
          current_offset :=
            s.current_offset + ((dl.map (fun pr => [pr.1, pr.2.length] ++ pr.2)).flatten).length } := by
  induction dl generalizing s with
  | nil => simp
  | cons pr dl ih =>
    rw [List.foldl_cons, ih]
    simp only [nwWriteInt, foldl_nwWriteInt, List.map_cons, List.flatten_cons]
    simp only [NWState.mk.injEq]
    cases s
    simp
    omega

/-- Closed form for `write_prev_next_term` when its lookups succeed. -/
theorem writePrevNextTerm_eq (s : NWState) (t nt : String) (e : NWEntry)
    (dl : List (Nat × List Nat)) (ntid : Nat)
    (hcft : s.current_first_term = some t)
    (hterm : alookup s.terms t = some e)
    (hbuf : s.prev_next_term = some ⟨nt, dl⟩)
    (hid : alookup s.term_ids_inv nt = some ntid) :
    writePrevNextTerm s = some
      { s with
        terms := aupdate s.terms t (fun e => { e with num_next_terms := e.num_next_terms + 1 }),
        store := s.store ++ encodeBuffer ntid dl,
        current_offset := s.current_offset + (encodeBuffer ntid dl).length } := by
  unfold writePrevNextTerm
  rw [hcft]
  simp only [Option.bind_eq_bind, Option.some_bind]
  rw [hterm]
  simp only [Option.some_bind]
  rw [hbuf]
  simp only [Option.some_bind]
  rw [hid]
  simp only [Option.some_bind]
  rw [foldl_writeDocIds]
  simp only [nwWriteInt, encodeBuffer]
  simp only [NWState.mk.injEq, Option.some.injEq]
  cases s
  simp
  omega

/-! ## Term-id table invariants -/

/-- `term_ids` and `term_ids_inv` are in lockstep: mutual inverses, ids
assigned densely in first-seen order. -/
def IdsOk (s : NWState) : Prop :=
  s.term_ids = s.term_ids_inv.map (fun pr => (pr.2, pr.1)) ∧
  s.term_ids_inv.map Prod.snd = List.range s.term_ids_inv.length ∧
  (s.term_ids_inv.map Prod.fst).Nodup

theorem assignTermIds_of_present (s : NWState) (ts : List String)
    (h : ∀ u ∈ ts, (alookup s.term_ids_inv u).isSome) : assignTermIds s ts = s := by
  induction ts with
  | nil => rfl
  | cons t ts ih =>
    unfold assignTermIds
    rw [List.foldl_cons]
    obtain ⟨v, hv⟩ := Option.isSome_iff_exists.mp (h t (by simp))
    rw [hv]
    exact ih (fun u hu => h u (by simp [hu]))

theorem assignTermIds_fields (s : NWState) (ts : List String) :
    (assignTermIds s ts).terms = s.terms ∧ (assignTermIds s ts).store = s.store ∧
    (assignTermIds s ts).current_offset = s.current_offset ∧
    (assignTermIds s ts).prev_next_term = s.prev_next_term ∧
    (assignTermIds s ts).current_first_term = s.current_first_term := by
  induction ts generalizing s with
  | nil => exact ⟨rfl, rfl, rfl, rfl, rfl⟩
  | cons t ts ih =>
    unfold assignTermIds
    rw [List.foldl_cons]
    cases alookup s.term_ids_inv t with
    | some v => exact ih s
    | none => exact ih _

theorem assignTermIds_inv_extends (s : NWState) (ts : List String) :
    ∃ w, (assignTermIds s ts).term_ids_inv = s.term_ids_inv ++ w := by
  induction ts generalizing s with
  | nil => exact ⟨[], by simp [assignTermIds]⟩
  | cons t ts ih =>
    unfold assignTermIds
    rw [List.foldl_cons]
    cases alookup s.term_ids_inv t with
    | some v => exact ih s
    | none =>
      obtain ⟨w, hw⟩ := ih (NWState.mk s.terms (s.term_ids ++ [(s.term_ids.length, t)])
        (s.term_ids_inv ++ [(t, s.term_ids.length)]) s.store s.current_offset
        s.prev_next_term s.current_first_term)
      refine ⟨(t, s.term_ids.length) :: w, ?_⟩
      show (assignTermIds (NWState.mk s.terms (s.term_ids ++ [(s.term_ids.length, t)])
        (s.term_ids_inv ++ [(t, s.term_ids.length)]) s.store s.current_offset
        s.prev_next_term s.current_first_term) ts).term_ids_inv = _
      rw [hw]
      simp

theorem alookup_mono {κ β : Type} [DecidableEq κ] {l l' : List (κ × β)} {k : κ} {v : β}
    (hext : ∃ w, l' = l ++ w) (h : alookup l k = some v) : alookup l' k = some v := by
  obtain ⟨w, hw⟩ := hext
  rw [hw]
  exact alookup_append_of_some w h

theorem assignTermIds_idsOk (s : NWState) (ts : List String) (h : IdsOk s) :
    IdsOk (assignTermIds s ts) := by
  induction ts generalizing s with
  | nil => exact h
  | cons t ts ih =>
    unfold assignTermIds
    rw [List.foldl_cons]
    cases hl : alookup s.term_ids_inv t with
    | some v => exact ih s h
    | none =>
      apply ih
      obtain ⟨h1, h2, h3⟩ := h
      have hlen : s.term_ids.length = s.term_ids_inv.length := by
        rw [h1, List.length_map]
      refine ⟨?_, ?_, ?_⟩
      · show s.term_ids ++ [(s.term_ids.length, t)]
          = (s.term_ids_inv ++ [(t, s.term_ids.length)]).map (fun pr => (pr.2, pr.1))
        rw [List.map_append, ← h1]
        simp
      · show (s.term_ids_inv ++ [(t, s.term_ids.length)]).map Prod.snd = _
        rw [List.map_append, h2, hlen]
        simp [List.range_succ]
      · show ((s.term_ids_inv ++ [(t, s.term_ids.length)]).map Prod.fst).Nodup
        rw [List.map_append]
        rw [List.nodup_append]
        refine ⟨h3, by simp, ?_⟩
        intro a ha hb
        simp only [List.map_cons, List.map_nil, List.mem_cons, List.not_mem_nil, or_false] at hb
        subst hb
        have : (alookup s.term_ids_inv a).isSome := alookup_isSome_iff.mpr ha
        rw [hl] at this
        exact absurd this (by simp)

theorem assignTermIds_assigns (s : NWState) (ts : List String) :
    ∀ u ∈ ts, (alookup (assignTermIds s ts).term_ids_inv u).isSome := by
  induction ts generalizing s with
  | nil => simp
  | cons t ts ih =>
    intro u hu
    unfold assignTermIds
    rw [List.foldl_cons]
    rcases List.mem_cons.mp hu with hu | hu
    · subst hu
      cases hl : alookup s.term_ids_inv u with
      | some v =>
        show (alookup (assignTermIds s ts).term_ids_inv u).isSome
        obtain ⟨w, hw⟩ := assignTermIds_inv_extends s ts
        exact Option.isSome_iff_exists.mpr ⟨v, alookup_mono ⟨w, hw⟩ hl⟩
      | none =>
        show (alookup (assignTermIds (NWState.mk s.terms
          (s.term_ids ++ [(s.term_ids.length, u)])
          (s.term_ids_inv ++ [(u, s.term_ids.length)]) s.store s.current_offset
          s.prev_next_term s.current_first_term) ts).term_ids_inv u).isSome
        have hl' : alookup (s.term_ids_inv ++ [(u, s.term_ids.length)]) u
            = some s.term_ids.length := by
          rw [alookup_append_of_none _ hl, alookup_cons, if_pos rfl]
        obtain ⟨w, hw⟩ := assignTermIds_inv_extends (NWState.mk s.terms
          (s.term_ids ++ [(s.term_ids.length, u)])
          (s.term_ids_inv ++ [(u, s.term_ids.length)]) s.store s.current_offset
          s.prev_next_term s.current_first_term) ts
        exact Option.isSome_iff_exists.mpr ⟨_, alookup_mono ⟨w, hw⟩ hl'⟩
    · cases hl : alookup s.term_ids_inv t with
      | some v => exact ih s u hu
      | none => exact ih _ u hu

theorem snd_nodup_swap_lookup {l : List (String × Nat)} (hnd : (l.map Prod.snd).Nodup)
    {t : String} {i : Nat} (hmem : (t, i) ∈ l) :
    alookup (l.map (fun pr => (pr.2, pr.1))) i = some t := by
  induction l with
  | nil => simp at hmem
  | cons p l ih =>
    cases p with
    | mk t₀ i₀ =>
      rw [List.map_cons, List.nodup_cons] at hnd
      rcases List.mem_cons.mp hmem with hm | hm
      · injection hm with h1 h2
        subst h1
        subst h2
        simp [alookup_cons]
      · rw [List.map_cons, alookup_cons]
        by_cases hi : i₀ = i
        · exfalso
          subst hi
          exact hnd.1 (List.mem_map.mpr ⟨(t, i₀), hm, rfl⟩)
        · rw [if_neg hi]
          exact ih hnd.2 hm

theorem idsOk_lookup {s : NWState} (h : IdsOk s) {t : String} {i : Nat}
    (ht : alookup s.term_ids_inv t = some i) : alookup s.term_ids i = some t := by
  rw [h.1]
  apply snd_nodup_swap_lookup
  · rw [h.2.1]
    exact List.nodup_range _
  · exact alookup_mem ht

/-! ## Closed forms for one nextword record -/

/-- A record of the current pair group: same first term, same next term. -/
theorem processNW_sameGroup (s : NWState) (t nt : String) (did : Nat) (ps : List Nat)
    (dl : List (Nat × List Nat))
    (hterm : (alookup s.terms t).isSome)
    (hidt : (alookup s.term_ids_inv t).isSome)
    (hidn : (alookup s.term_ids_inv nt).isSome)
    (hbuf : s.prev_next_term = some ⟨nt, dl⟩) :
    processNextwordRecord s ⟨t, nt, did, ps⟩
      = some { s with
          terms := aupdate s.terms t (fun e =>
            ⟨e.doc_freq + 1, e.num_next_terms, e.collection_freq + ps.length, e.offset⟩),
          prev_next_term := some ⟨nt, ainsert dl did ps⟩ } := by
  unfold processNextwordRecord
  rw [assignTermIds_of_present s [t, nt]
    (by intro u hu; rcases List.mem_cons.mp hu with h | h
        · subst h; exact hidt
        · simp only [List.mem_cons, List.not_mem_nil, or_false] at h; subst h; exact hidn)]
  simp only [Option.bind_eq_bind]
  rw [if_pos hterm]
  simp only [Option.some_bind]
  rw [show ({ s with terms := aupdate s.terms t (fun e =>
    (⟨e.doc_freq + 1, e.num_next_terms, e.collection_freq + ps.length, e.offset⟩ : NWEntry)) } : NWState).prev_next_term = s.prev_next_term from rfl, hbuf]
  simp only [Option.some_bind]
  rw [if_true]

/-- The very first record of the stream: fresh term, no pending buffer. -/
theorem processNW_first (s : NWState) (t' nt' : String) (did : Nat) (ps : List Nat)
    (hterm' : alookup s.terms t' = none)
    (hbuf : s.prev_next_term = none) :
    processNextwordRecord s ⟨t', nt', did, ps⟩
      = some { assignTermIds s [t', nt'] with
          terms := s.terms ++ [(t', ⟨1, 0, ps.length, s.current_offset⟩)],
          prev_next_term := some ⟨nt', [(did, ps)]⟩,
          current_first_term := some t' } := by
  unfold processNextwordRecord
  obtain ⟨hf1, hf2, hf3, hf4, hf5⟩ := assignTermIds_fields s [t', nt']
  simp only [Option.bind_eq_bind]
  rw [if_neg (by rw [hf1, hterm']; simp)]
  rw [hf4, hbuf]
  simp only [Option.isSome_none, Bool.false_eq_true, if_false, Option.some_bind]
  have hup : aupdate ((assignTermIds s [t', nt']).terms
      ++ [(t', ⟨0, 0, 0, (assignTermIds s [t', nt']).current_offset⟩)]) t'
      (fun e => (⟨e.doc_freq + 1, e.num_next_terms, e.collection_freq + ps.length, e.offset⟩ : NWEntry))
      = s.terms ++ [(t', ⟨1, 0, ps.length, s.current_offset⟩)] := by
    rw [hf1, hf3, aupdate_append, aupdate_of_none _ hterm']
    simp [aupdate]
  rw [hup]
  rw [if_true]
  rfl

/-- The first record of a new pair group of the current first term: the
pending buffer is flushed, then a fresh buffer is keyed by the new next term. -/
theorem processNW_newGroup (s : NWState) (t nt nt' : String) (did : Nat) (ps : List Nat)
    (e : NWEntry) (dl : List (Nat × List Nat)) (ntid : Nat)
    (hterm : alookup s.terms t = some e)
    (hcft : s.current_first_term = some t)
    (hbuf : s.prev_next_term = some ⟨nt, dl⟩)
    (hne : nt' ≠ nt)
    (hidn : alookup s.term_ids_inv nt = some ntid) :
    processNextwordRecord s ⟨t, nt', did, ps⟩
      = some { assignTermIds s [t, nt'] with
          terms := aupdate s.terms t (fun e =>
            ⟨e.doc_freq + 1, e.num_next_terms + 1, e.collection_freq + ps.length, e.offset⟩),
          store := s.store ++ encodeBuffer ntid dl,
          current_offset := s.current_offset + (encodeBuffer ntid dl).length,
          prev_next_term := some ⟨nt', [(did, ps)]⟩ } := by
  unfold processNextwordRecord
  simp only [Option.bind_eq_bind]
  obtain ⟨hf1, hf2, hf3, hf4, hf5⟩ := assignTermIds_fields s [t, nt']
  have hwext := assignTermIds_inv_extends s [t, nt']
  generalize hA : assignTermIds s [t, nt'] = A at hf1 hf2 hf3 hf4 hf5 hwext ⊢
  obtain ⟨At, Aids, Ainv, Ast, Aoff, Aprev, Acft⟩ := A
  simp only at hf1 hf2 hf3 hf4 hf5 hwext
  subst hf1
  subst hf2
  subst hf3
  subst hf4
  subst hf5
  rw [if_pos (by show (alookup s.terms t).isSome = true; rw [hterm]; rfl)]
  simp only [Option.some_bind]
  rw [hbuf]
  simp only [Option.some_bind]
  rw [if_neg hne]
  have hw := writePrevNextTerm_eq
    (NWState.mk (aupdate s.terms t (fun e =>
      (⟨e.doc_freq + 1, e.num_next_terms, e.collection_freq + ps.length, e.offset⟩ : NWEntry)))
      Aids Ainv s.store s.current_offset (some ⟨nt, dl⟩) s.current_first_term)
    t nt ⟨e.doc_freq + 1, e.num_next_terms, e.collection_freq + ps.length, e.offset⟩ dl ntid
    hcft
    (by show alookup (aupdate s.terms t (fun e =>
          (⟨e.doc_freq + 1, e.num_next_terms, e.collection_freq + ps.length, e.offset⟩
            : NWEntry))) t
        = some ⟨e.doc_freq + 1, e.num_next_terms, e.collection_freq + ps.length, e.offset⟩
        rw [alookup_aupdate_self, hterm]
        rfl)
    rfl
    (alookup_mono hwext hidn)
  rw [hw]
  simp only [Option.some_bind]
  simp only [NWState.mk.injEq, Option.some.injEq, and_true, true_and]
  rw [aupdate_aupdate]

/-- The first record of a new first term while a pair group of the previous
term is still buffered: the buffer is flushed (closing the previous term's
block), then the new term's lexicon entry is created at the post-flush offset. -/
theorem processNW_newTerm (s : NWState) (tprev nt t' nt' : String) (did : Nat) (ps : List Nat)
    (e : NWEntry) (dl : List (Nat × List Nat)) (ntid : Nat)
    (hfresh : alookup s.terms t' = none)
    (hcft : s.current_first_term = some tprev)
    (hterm : alookup s.terms tprev = some e)
    (hbuf : s.prev_next_term = some ⟨nt, dl⟩)
    (hidn : alookup s.term_ids_inv nt = some ntid) :
    processNextwordRecord s ⟨t', nt', did, ps⟩
      = some { assignTermIds s [t', nt'] with
          terms := aupdate s.terms tprev (fun e =>
              ⟨e.doc_freq, e.num_next_terms + 1, e.collection_freq, e.offset⟩)
            ++ [(t', ⟨1, 0, ps.length,
                s.current_offset + (encodeBuffer ntid dl).length⟩)],
          store := s.store ++ encodeBuffer ntid dl,
          current_offset := s.current_offset + (encodeBuffer ntid dl).length,
          prev_next_term := some ⟨nt', [(did, ps)]⟩,
          current_first_term := some t' } := by
  unfold processNextwordRecord
  simp only [Option.bind_eq_bind]
  obtain ⟨hf1, hf2, hf3, hf4, hf5⟩ := assignTermIds_fields s [t', nt']
  have hwext := assignTermIds_inv_extends s [t', nt']
  generalize hA : assignTermIds s [t', nt'] = A at hf1 hf2 hf3 hf4 hf5 hwext ⊢
  obtain ⟨At, Aids, Ainv, Ast, Aoff, Aprev, Acft⟩ := A
  simp only at hf1 hf2 hf3 hf4 hf5 hwext
  subst hf1
  subst hf2
  subst hf3
  subst hf4
  subst hf5
  rw [if_neg (by show ¬ (alookup s.terms t').isSome = true; rw [hfresh]; simp)]
  rw [hbuf]
  simp only [Option.isSome_some, if_true]
  have hw := writePrevNextTerm_eq
    (NWState.mk s.terms Aids Ainv s.store s.current_offset (some ⟨nt, dl⟩) s.current_first_term)
    tprev nt e dl ntid hcft hterm rfl (alookup_mono hwext hidn)
  rw [hw]
  simp only [Option.some_bind]
  have htfresh : alookup (aupdate s.terms tprev (fun e =>
      (⟨e.doc_freq, e.num_next_terms + 1, e.collection_freq, e.offset⟩ : NWEntry))) t' = none := by
    by_cases hqt : t' = tprev
    · exfalso
      rw [hqt, hterm] at hfresh
      exact Option.noConfusion hfresh
    · rw [alookup_aupdate_ne _ _ _ _ hqt]
      exact hfresh
  have hup : aupdate ((aupdate s.terms tprev (fun e =>
      (⟨e.doc_freq, e.num_next_terms + 1, e.collection_freq, e.offset⟩ : NWEntry)))
      ++ [(t', ⟨0, 0, 0, s.current_offset + (encodeBuffer ntid dl).length⟩)]) t'
      (fun e => (⟨e.doc_freq + 1, e.num_next_terms, e.collection_freq + ps.length, e.offset⟩
        : NWEntry))
      = aupdate s.terms tprev (fun e =>
          (⟨e.doc_freq, e.num_next_terms + 1, e.collection_freq, e.offset⟩ : NWEntry))
        ++ [(t', ⟨1, 0, ps.length, s.current_offset + (encodeBuffer ntid dl).length⟩)] := by
    rw [aupdate_append, aupdate_of_none _ htfresh]
    simp [aupdate]
  rw [hup]
  rw [if_true]
  rfl

/-- Processing the remaining documents of the current pair group: each merges
into the buffer; the store is untouched. -/
theorem nw_docs_fold (t nt : String) (ds : List DocPost) :
    ∀ (s : NWState) (dl : List (Nat × List Nat)),
      (alookup s.terms t).isSome →
      (alookup s.term_ids_inv t).isSome →
      (alookup s.term_ids_inv nt).isSome →
      s.prev_next_term = some ⟨nt, dl⟩ →
      (∀ d ∈ ds, alookup dl d.doc_id = none) →
      (ds.map (fun d => d.doc_id)).Nodup →
      (ds.map (fun d => NWRecord.mk t nt d.doc_id d.positions)).foldlM
        processNextwordRecord s
        = some { s with
            terms := aupdate s.terms t (fun e =>
              ⟨e.doc_freq + ds.length, e.num_next_terms,
                e.collection_freq + posTotal ds, e.offset⟩),
            prev_next_term := some ⟨nt, dl ++ ds.map (fun d => (d.doc_id, d.positions))⟩ } := by
  induction ds with
  | nil =>
    intro s dl hterm hidt hidn hbuf _ _
    rw [List.map_nil, List.foldlM_nil]
    have h1 : aupdate s.terms t (fun e =>
        (⟨e.doc_freq + ([] : List DocPost).length, e.num_next_terms,
          e.collection_freq + posTotal [], e.offset⟩ : NWEntry)) = s.terms := by
      apply aupdate_id
      intro v
      cases v
      simp [posTotal]
    rw [h1]
    rw [List.map_nil, List.append_nil, ← hbuf]
    rfl
  | cons d ds ih =>
    intro s dl hterm hidt hidn hbuf hfresh hnodup
    rw [List.map_cons, List.foldlM_cons]
    rw [processNW_sameGroup s t nt d.doc_id d.positions dl hterm hidt hidn hbuf]
    simp only [Option.bind_eq_bind, Option.some_bind]
    have hins : ainsert dl d.doc_id d.positions = dl ++ [(d.doc_id, d.positions)] :=
      ainsert_of_none _ (hfresh d (by simp))
    rw [hins]
    have hih := ih (NWState.mk (aupdate s.terms t (fun e =>
        (⟨e.doc_freq + 1, e.num_next_terms, e.collection_freq + d.positions.length, e.offset⟩
          : NWEntry)))
      s.term_ids s.term_ids_inv s.store s.current_offset
      (some ⟨nt, dl ++ [(d.doc_id, d.positions)]⟩) s.current_first_term)
      (dl ++ [(d.doc_id, d.positions)])
      (by show (alookup (aupdate s.terms t (fun e =>
            (⟨e.doc_freq + 1, e.num_next_terms, e.collection_freq + d.positions.length,
              e.offset⟩ : NWEntry))) t).isSome = true
          rw [alookup_aupdate_self]
          obtain ⟨v, hv⟩ := Option.isSome_iff_exists.mp hterm
          rw [hv]
          rfl)
      hidt hidn rfl
      (by intro d' hd'
          rw [alookup_append_of_none _ (hfresh d' (by simp [hd'])), alookup_cons]
          have hne : d.doc_id ≠ d'.doc_id := by
            simp only [List.map_cons, List.nodup_cons] at hnodup
            intro hcontr
            exact hnodup.1 (hcontr ▸ List.mem_map_of_mem (fun x => x.doc_id) hd')
          rw [if_neg hne]
          rfl)
      (by simpa using hnodup.of_cons)
    rw [hih]
    simp only [NWState.mk.injEq, Option.some.injEq, and_true, true_and]
    constructor
    · rw [aupdate_aupdate]
      apply aupdate_ext
      intro v
      simp only [NWEntry.mk.injEq, List.length_cons, posTotal, List.map_cons, List.sum_cons,
        and_true, true_and]
      omega
    · simp

/-- The id a state assigns to a term (used to state store encodings). -/
def idOfS (s : NWState) (u : String) : Nat := (alookup s.term_ids_inv u).getD 0

theorem encodePairGroup_congr {f g : String → Nat} (pg : PairGroup)
    (h : f pg.next_term = g pg.next_term) : encodePairGroup f pg = encodePairGroup g pg := by
  unfold encodePairGroup
  rw [h]

theorem idOfS_eq_of_lookup {s : NWState} {u : String} {i : Nat}
    (h : alookup s.term_ids_inv u = some i) : idOfS s u = i := by
  unfold idOfS
  rw [h]
  rfl

theorem idOfS_mono {s₁ s₂ : NWState} (hext : ∃ w, s₂.term_ids_inv = s₁.term_ids_inv ++ w)
    {u : String} (hu : (alookup s₁.term_ids_inv u).isSome) : idOfS s₂ u = idOfS s₁ u := by
  obtain ⟨v, hv⟩ := Option.isSome_iff_exists.mp hu
  rw [idOfS_eq_of_lookup hv, idOfS_eq_of_lookup (alookup_mono hext hv)]

/-- The store footprint of a pair group has a length independent of the id map. -/
theorem encodePairGroup_length (f g : String → Nat) (pg : PairGroup) :
    (encodePairGroup f pg).length = (encodePairGroup g pg).length := rfl

theorem encodePairGroup_flatten_length (f g : String → Nat) (L : List PairGroup) :
    ((L.map (encodePairGroup f)).flatten).length
      = ((L.map (encodePairGroup g)).flatten).length := by
  induction L with
  | nil => rfl
  | cons p L ih =>
    simp only [List.map_cons, List.flatten_cons, List.length_append, ih,
      encodePairGroup_length f g p]

theorem encodeBuffer_length (ntid : Nat) (f : String → Nat) (g : PairGroup) :
    (encodeBuffer ntid (bufOf g).doc_ids).length = (encodePairGroup f g).length := by
  rw [show encodeBuffer ntid (bufOf g).doc_ids = encodePairGroup (fun _ => ntid) g from
    encodeBuffer_bufOf (fun _ => ntid) g]
  exact encodePairGroup_length _ f g

/-- The canonical lexicon does not depend on the id map (only block lengths enter). -/
theorem nwLexiconAux_congr (f g : String → Nat) (off : Nat) (tgs : List NWTermGroup) :
    nwLexiconAux f off tgs = nwLexiconAux g off tgs := by
  induction tgs generalizing off with
  | nil => rfl
  | cons tg rest ih =>
    rw [nwLexiconAux, nwLexiconAux]
    rw [show (encodeTermGroup f tg).length = (encodeTermGroup g tg).length from
      encodePairGroup_flatten_length f g tg.groups]
    rw [ih]

theorem enc_map_congr (s₁ s₂ : NWState) (hext : ∃ w, s₂.term_ids_inv = s₁.term_ids_inv ++ w)
    (L : List PairGroup) (h : ∀ g ∈ L, (alookup s₁.term_ids_inv g.next_term).isSome) :
    L.map (encodePairGroup (idOfS s₂)) = L.map (encodePairGroup (idOfS s₁)) :=
  List.map_congr_left (fun g hg => encodePairGroup_congr g (idOfS_mono hext (h g hg)))

theorem flatten_map_dropLast_getLast {α β : Type} (f : α → List β) (l : List α) (h : l ≠ []) :
    (l.map f).flatten = ((l.dropLast.map f).flatten) ++ f (l.getLast h) := by
  conv_lhs => rw [← List.dropLast_append_getLast h]
  rw [List.map_append, List.flatten_append]
  simp

theorem aupdate_singleton_self {κ β : Type} [DecidableEq κ] (k : κ) (v : β) (f : β → β) :
    aupdate [(k, v)] k f = [(k, f v)] := by
  simp [aupdate]

/-- Processing the remaining pair groups of the current first term, with the
previous group pending in the buffer: each new group flushes its predecessor;
the last one stays buffered. -/
theorem nw_groups_fold (t : String) (gl : List PairGroup) :
    ∀ (s : NWState) (gprev : PairGroup),
      IdsOk s →
      (alookup s.terms t).isSome →
      (alookup s.term_ids_inv t).isSome →
      (alookup s.term_ids_inv gprev.next_term).isSome →
      s.prev_next_term = some (bufOf gprev) →
      s.current_first_term = some t →
      ((gprev :: gl).map (fun g => g.next_term)).Nodup →
      (∀ g ∈ gl, g.docs ≠ [] ∧ (g.docs.map (fun d => d.doc_id)).Nodup) →
      ∃ s', ((gl.map (nwGroupRecords t)).flatten).foldlM processNextwordRecord s = some s' ∧
        IdsOk s' ∧
        (∃ w, s'.term_ids_inv = s.term_ids_inv ++ w) ∧
        s'.terms = aupdate s.terms t (fun e =>
          ⟨e.doc_freq + (gl.map (fun g => g.docs.length)).sum, e.num_next_terms + gl.length,
            e.collection_freq + (gl.map (fun g => posTotal g.docs)).sum, e.offset⟩) ∧
        s'.store = s.store
          ++ (((gprev :: gl).dropLast).map (encodePairGroup (idOfS s'))).flatten ∧
        s'.current_offset = s.current_offset
          + ((((gprev :: gl).dropLast).map (encodePairGroup (idOfS s'))).flatten).length ∧
        s'.prev_next_term = some (bufOf ((gprev :: gl).getLast (by simp))) ∧
        s'.current_first_term = some t ∧
        (∀ g ∈ gprev :: gl, (alookup s'.term_ids_inv g.next_term).isSome) := by
  induction gl with
  | nil =>
    intro s gprev hIds hterm hidt hidp hbuf hcft hnodup hdocs
    refine ⟨s, by simp, hIds, ⟨[], by simp⟩, ?_, by simp, by simp, by simpa using hbuf,
      hcft, ?_⟩
    · rw [aupdate_id]
      intro v
      cases v
      simp
    · intro g hg
      simp only [List.mem_cons, List.not_mem_nil, or_false] at hg
      subst hg
      exact hidp
  | cons g gl' ih =>
    intro s gprev hIds hterm hidt hidp hbuf hcft hnodup hdocs
    obtain ⟨hgne, hgnodup⟩ := hdocs g (by simp)
    obtain ⟨ntid, hntid⟩ := Option.isSome_iff_exists.mp hidp
    cases hgd : g.docs with
    | nil => exact absurd hgd hgne
    | cons d₀ drest =>
    obtain ⟨e, he⟩ := Option.isSome_iff_exists.mp hterm
    have hnextne : g.next_term ≠ gprev.next_term := by
      have h1 : gprev.next_term ∉ ((g :: gl').map (fun g => g.next_term)) :=
        (List.nodup_cons.mp hnodup).1
      intro hcontr
      refine h1 ?_
      rw [List.map_cons, ← hcontr]
      exact List.mem_cons_self _ _
    have hstep := processNW_newGroup s t gprev.next_term g.next_term d₀.doc_id d₀.positions e
      (bufOf gprev).doc_ids ntid he hcft hbuf hnextne hntid
    obtain ⟨hf1, hf2, hf3, hf4, hf5⟩ := assignTermIds_fields s [t, g.next_term]
    have hIdsA := assignTermIds_idsOk s [t, g.next_term] hIds
    have hextA := assignTermIds_inv_extends s [t, g.next_term]
    have hassA := assignTermIds_assigns s [t, g.next_term]
    generalize hA : assignTermIds s [t, g.next_term] = A
      at hf1 hf2 hf3 hf4 hf5 hIdsA hextA hassA hstep
    obtain ⟨At, Aids, Ainv, Ast, Aoff, Aprev, Acft⟩ := A
    simp only at hf1 hf2 hf3 hf4 hf5 hstep
    subst hf1
    subst hf2
    subst hf3
    subst hf4
    subst hf5
    -- fold the remaining documents of this group into the fresh buffer
    have hrest := nw_docs_fold t g.next_term drest
      (NWState.mk (aupdate s.terms t (fun e =>
          (⟨e.doc_freq + 1, e.num_next_terms + 1, e.collection_freq + d₀.positions.length,
            e.offset⟩ : NWEntry)))
        Aids Ainv (s.store ++ encodeBuffer ntid (bufOf gprev).doc_ids)
        (s.current_offset + (encodeBuffer ntid (bufOf gprev).doc_ids).length)
        (some ⟨g.next_term, [(d₀.doc_id, d₀.positions)]⟩) s.current_first_term)
      [(d₀.doc_id, d₀.positions)]
      (by show (alookup (aupdate s.terms t (fun e =>
            (⟨e.doc_freq + 1, e.num_next_terms + 1, e.collection_freq + d₀.positions.length,
              e.offset⟩ : NWEntry))) t).isSome = true
          rw [alookup_aupdate_self, he]
          rfl)
      (by show (alookup Ainv t).isSome = true
          exact hassA t (by simp))
      (by show (alookup Ainv g.next_term).isSome = true
          exact hassA g.next_term (by simp))
      rfl
      (by intro d' hd'
          have hne : d₀.doc_id ≠ d'.doc_id := by
            rw [hgd] at hgnodup
            simp only [List.map_cons, List.nodup_cons] at hgnodup
            intro hcontr
            exact hgnodup.1 (hcontr ▸ List.mem_map_of_mem (fun x => x.doc_id) hd')
          rw [alookup_cons, if_neg hne]
          rfl)
      (by rw [hgd] at hgnodup
          simpa using hgnodup.of_cons)
    -- closed form of the whole fold over this group's records
    have hgroup : (nwGroupRecords t g).foldlM processNextwordRecord s
        = some (NWState.mk
            (aupdate (aupdate s.terms t (fun e =>
              (⟨e.doc_freq + 1, e.num_next_terms + 1, e.collection_freq + d₀.positions.length,
                e.offset⟩ : NWEntry))) t (fun e =>
              (⟨e.doc_freq + drest.length, e.num_next_terms,
                e.collection_freq + posTotal drest, e.offset⟩ : NWEntry)))
            Aids Ainv (s.store ++ encodeBuffer ntid (bufOf gprev).doc_ids)
            (s.current_offset + (encodeBuffer ntid (bufOf gprev).doc_ids).length)
            (some ⟨g.next_term,
              (d₀.doc_id, d₀.positions) :: drest.map (fun d => (d.doc_id, d.positions))⟩)
            s.current_first_term) := by
      unfold nwGroupRecords
      rw [hgd]
      simp only [List.map_cons, List.foldlM_cons]
      rw [hstep]
      simp only [Option.bind_eq_bind, Option.some_bind]
      exact hrest
    obtain ⟨s', hfold, hIds', hext', hterms', hstore', hoff', hprev', hcft', hmem'⟩ :=
      ih (NWState.mk
            (aupdate (aupdate s.terms t (fun e =>
              (⟨e.doc_freq + 1, e.num_next_terms + 1, e.collection_freq + d₀.positions.length,
                e.offset⟩ : NWEntry))) t (fun e =>
              (⟨e.doc_freq + drest.length, e.num_next_terms,
                e.collection_freq + posTotal drest, e.offset⟩ : NWEntry)))
            Aids Ainv (s.store ++ encodeBuffer ntid (bufOf gprev).doc_ids)
            (s.current_offset + (encodeBuffer ntid (bufOf gprev).doc_ids).length)
            (some ⟨g.next_term,
              (d₀.doc_id, d₀.positions) :: drest.map (fun d => (d.doc_id, d.positions))⟩)
            s.current_first_term) g
        hIdsA
        (by show (alookup (aupdate (aupdate s.terms t (fun e =>
              (⟨e.doc_freq + 1, e.num_next_terms + 1, e.collection_freq + d₀.positions.length,
                e.offset⟩ : NWEntry))) t (fun e =>
              (⟨e.doc_freq + drest.length, e.num_next_terms,
                e.collection_freq + posTotal drest, e.offset⟩ : NWEntry))) t).isSome = true
            rw [alookup_aupdate_self, alookup_aupdate_self, he]
            rfl)
        (by show (alookup Ainv t).isSome = true
            exact hassA t (by simp))
        (by show (alookup Ainv g.next_term).isSome = true
            exact hassA g.next_term (by simp))
        (by simp [bufOf, hgd])
        hcft
        (by rw [List.map_cons] at hnodup
            exact hnodup.of_cons)
        (fun g' hg' => hdocs g' (List.mem_cons_of_mem _ hg'))
    obtain ⟨w1, hw1⟩ := hextA
    have hw1' : Ainv = s.term_ids_inv ++ w1 := hw1
    obtain ⟨w2, hw2⟩ := hext'
    have hw2' : s'.term_ids_inv = Ainv ++ w2 := hw2
    have hextfull : ∃ w, s'.term_ids_inv = s.term_ids_inv ++ w :=
      ⟨w1 ++ w2, by rw [hw2', hw1', List.append_assoc]⟩
    have hid' : alookup s'.term_ids_inv gprev.next_term = some ntid :=
      alookup_mono hextfull hntid
    have henc : encodePairGroup (idOfS s') gprev = encodeBuffer ntid (bufOf gprev).doc_ids := by
      rw [← encodeBuffer_bufOf (idOfS s') gprev, idOfS_eq_of_lookup hid']
    refine ⟨s', ?_, hIds', hextfull, ?_, ?_, ?_, ?_, hcft', ?_⟩
    · simp only [List.map_cons, List.flatten_cons]
      rw [List.foldlM_append, hgroup]
      simp only [Option.bind_eq_bind, Option.some_bind]
      exact hfold
    · rw [hterms']
      show aupdate (aupdate (aupdate s.terms t (fun e =>
          (⟨e.doc_freq + 1, e.num_next_terms + 1, e.collection_freq + d₀.positions.length,
            e.offset⟩ : NWEntry))) t (fun e =>
          (⟨e.doc_freq + drest.length, e.num_next_terms,
            e.collection_freq + posTotal drest, e.offset⟩ : NWEntry))) t (fun e =>
          (⟨e.doc_freq + (gl'.map (fun g => g.docs.length)).sum,
            e.num_next_terms + gl'.length,
            e.collection_freq + (gl'.map (fun g => posTotal g.docs)).sum, e.offset⟩ : NWEntry))
        = aupdate s.terms t (fun e =>
          (⟨e.doc_freq + ((g :: gl').map (fun g => g.docs.length)).sum,
            e.num_next_terms + (g :: gl').length,
            e.collection_freq + ((g :: gl').map (fun g => posTotal g.docs)).sum, e.offset⟩
            : NWEntry))
      rw [aupdate_aupdate, aupdate_aupdate]
      apply aupdate_ext
      intro v
      simp only [NWEntry.mk.injEq, List.map_cons, List.sum_cons, List.length_cons, hgd,
        posTotal, and_true, true_and]
      omega
    · rw [hstore', List.dropLast_cons₂, List.map_cons, List.flatten_cons, henc,
        ← List.append_assoc]
    · rw [hoff', List.dropLast_cons₂, List.map_cons, List.flatten_cons, henc]
      show s.current_offset + (encodeBuffer ntid (bufOf gprev).doc_ids).length
          + (((g :: gl').dropLast.map (encodePairGroup (idOfS s'))).flatten).length
        = s.current_offset
          + (encodeBuffer ntid (bufOf gprev).doc_ids
              ++ ((g :: gl').dropLast.map (encodePairGroup (idOfS s'))).flatten).length
      rw [List.length_append]
      omega
    · exact hprev'
    · intro g' hg'
      rcases List.mem_cons.mp hg' with hg' | hg'
      · subst hg'
        rw [hid']
        rfl
      · exact hmem' g' hg'

/-- Processing a list of whole term groups from a boundary state (previous first
term pending, its last pair group buffered), followed by the unconditional final
flush: yields the canonical lexicon entries and store encodings of those groups. -/
theorem nw_stream_fold (tgs : List NWTermGroup) :
    ∀ (s : NWState) (tp : String) (gp : PairGroup),
      IdsOk s →
      s.current_first_term = some tp →
      (alookup s.terms tp).isSome →
      s.prev_next_term = some (bufOf gp) →
      (alookup s.term_ids_inv gp.next_term).isSome →
      s.current_offset = s.store.length →
      (∀ tg ∈ tgs, alookup s.terms tg.first_term = none) →
      (tgs.map (fun tg => tg.first_term)).Nodup →
      (∀ tg ∈ tgs, tg.groups ≠ [] ∧ (tg.groups.map (fun g => g.next_term)).Nodup ∧
        ∀ g ∈ tg.groups, g.docs ≠ [] ∧ (g.docs.map (fun d => d.doc_id)).Nodup) →
      ∃ s', (((tgs.map nwTermRecords).flatten).foldlM processNextwordRecord s
              >>= writePrevNextTerm) = some s' ∧
        IdsOk s' ∧
        (∃ w, s'.term_ids_inv = s.term_ids_inv ++ w) ∧
        s'.terms = aupdate s.terms tp (fun e =>
            ⟨e.doc_freq, e.num_next_terms + 1, e.collection_freq, e.offset⟩)
          ++ nwLexiconAux (idOfS s')
              (s.current_offset + (encodePairGroup (idOfS s') gp).length) tgs ∧
        s'.store = s.store ++ encodePairGroup (idOfS s') gp ++ encodeNWStream (idOfS s') tgs ∧
        s'.current_offset = s'.store.length ∧
        (∀ tg ∈ tgs, ∀ g ∈ tg.groups, (alookup s'.term_ids_inv g.next_term).isSome) := by
  induction tgs with
  | nil =>
    intro s tp gp hIds hcft hterm hbuf hidp hoffinv hfresh hndft hwf
    obtain ⟨e, he⟩ := Option.isSome_iff_exists.mp hterm
    obtain ⟨ntid, hntid⟩ := Option.isSome_iff_exists.mp hidp
    have hw := writePrevNextTerm_eq s tp gp.next_term e (bufOf gp).doc_ids ntid hcft he hbuf hntid
    refine ⟨NWState.mk
        (aupdate s.terms tp (fun e =>
          (⟨e.doc_freq, e.num_next_terms + 1, e.collection_freq, e.offset⟩ : NWEntry)))
        s.term_ids s.term_ids_inv
        (s.store ++ encodeBuffer ntid (bufOf gp).doc_ids)
        (s.current_offset + (encodeBuffer ntid (bufOf gp).doc_ids).length)
        s.prev_next_term s.current_first_term, ?_, ?_, ?_, ?_, ?_, ?_, ?_⟩
    · simp only [List.map_nil, List.flatten_nil, List.foldlM_nil, pure_bind]
      exact hw
    · exact hIds
    · exact ⟨[], by simp⟩
    · rw [nwLexiconAux, List.append_nil]
    · have hgen : ∀ s'' : NWState, alookup s''.term_ids_inv gp.next_term = some ntid →
          s.store ++ encodeBuffer ntid (bufOf gp).doc_ids
            = s.store ++ encodePairGroup (idOfS s'') gp ++ encodeNWStream (idOfS s'') [] := by
        intro s'' h
        rw [← encodeBuffer_bufOf (idOfS s'') gp, idOfS_eq_of_lookup h, encodeNWStream]
        simp
      exact hgen _ hntid
    · show s.current_offset + (encodeBuffer ntid (bufOf gp).doc_ids).length
          = (s.store ++ encodeBuffer ntid (bufOf gp).doc_ids).length
      rw [List.length_append, hoffinv]
    · intro tg htg
      exact absurd htg (List.not_mem_nil tg)
  | cons tg tgs' ih =>
    intro s tp gp hIds hcft hterm hbuf hidp hoffinv hfresh hndft hwf
    obtain ⟨e, he⟩ := Option.isSome_iff_exists.mp hterm
    obtain ⟨ntid, hntid⟩ := Option.isSome_iff_exists.mp hidp
    obtain ⟨hgne, hnodupg, hdwf⟩ := hwf tg (by simp)
    have hfresh₀ : alookup s.terms tg.first_term = none := hfresh tg (by simp)
    have hftne : tg.first_term ≠ tp := by
      intro hcontr
      rw [hcontr, he] at hfresh₀
      exact Option.noConfusion hfresh₀
    cases hgroups : tg.groups with
    | nil => exact absurd hgroups hgne
    | cons g₀ grest =>
    have hconsne : (g₀ :: grest) ≠ ([] : List PairGroup) := by simp
    obtain ⟨hg0ne, hg0nodup⟩ := hdwf g₀ (by rw [hgroups]; simp)
    cases hgd : g₀.docs with
    | nil => exact absurd hgd hg0ne
    | cons d₀ drest =>
    have hstep := processNW_newTerm s tp gp.next_term tg.first_term g₀.next_term
      d₀.doc_id d₀.positions e (bufOf gp).doc_ids ntid hfresh₀ hcft he hbuf hntid
    obtain ⟨hf1, hf2, hf3, hf4, hf5⟩ := assignTermIds_fields s [tg.first_term, g₀.next_term]
    have hIdsA := assignTermIds_idsOk s [tg.first_term, g₀.next_term] hIds
    have hextA := assignTermIds_inv_extends s [tg.first_term, g₀.next_term]
    have hassA := assignTermIds_assigns s [tg.first_term, g₀.next_term]
    generalize hA : assignTermIds s [tg.first_term, g₀.next_term] = A
      at hf1 hf2 hf3 hf4 hf5 hIdsA hextA hassA hstep
    obtain ⟨At, Aids, Ainv, Ast, Aoff, Aprev, Acft⟩ := A
    simp only at hf1 hf2 hf3 hf4 hf5 hstep
    subst hf1
    subst hf2
    subst hf3
    subst hf4
    subst hf5
    have hTBnone : alookup (aupdate s.terms tp (fun e =>
        (⟨e.doc_freq, e.num_next_terms + 1, e.collection_freq, e.offset⟩ : NWEntry)))
        tg.first_term = none := by
      rw [alookup_aupdate_ne _ _ _ _ hftne]
      exact hfresh₀
    have hTB : alookup (aupdate s.terms tp (fun e =>
          (⟨e.doc_freq, e.num_next_terms + 1, e.collection_freq, e.offset⟩ : NWEntry))
        ++ [(tg.first_term, (⟨1, 0, d₀.positions.length,
            s.current_offset + (encodeBuffer ntid (bufOf gp).doc_ids).length⟩ : NWEntry))])
        tg.first_term
        = some (⟨1, 0, d₀.positions.length,
            s.current_offset + (encodeBuffer ntid (bufOf gp).doc_ids).length⟩ : NWEntry) := by
      rw [alookup_append_of_none _ hTBnone, alookup_cons, if_pos rfl]
    -- fold the remaining documents of the first pair group into the fresh buffer
    have hrest := nw_docs_fold tg.first_term g₀.next_term drest
      (NWState.mk (aupdate s.terms tp (fun e =>
          (⟨e.doc_freq, e.num_next_terms + 1, e.collection_freq, e.offset⟩ : NWEntry))
        ++ [(tg.first_term, (⟨1, 0, d₀.positions.length,
            s.current_offset + (encodeBuffer ntid (bufOf gp).doc_ids).length⟩ : NWEntry))])
        Aids Ainv (s.store ++ encodeBuffer ntid (bufOf gp).doc_ids)
        (s.current_offset + (encodeBuffer ntid (bufOf gp).doc_ids).length)
        (some ⟨g₀.next_term, [(d₀.doc_id, d₀.positions)]⟩) (some tg.first_term))
      [(d₀.doc_id, d₀.positions)]
      (Option.isSome_iff_exists.mpr ⟨_, hTB⟩)
      (hassA tg.first_term (by simp))
      (hassA g₀.next_term (by simp))
      rfl
      (by intro d' hd'
          have hne : d₀.doc_id ≠ d'.doc_id := by
            rw [hgd] at hg0nodup
            simp only [List.map_cons, List.nodup_cons] at hg0nodup
            intro hcontr
            exact hg0nodup.1 (hcontr ▸ List.mem_map_of_mem (fun x => x.doc_id) hd')
          rw [alookup_cons, if_neg hne]
          rfl)
      (by rw [hgd] at hg0nodup
          simpa using hg0nodup.of_cons)
    -- closed form of the fold over the first pair group's records
    have hgrp : (nwGroupRecords tg.first_term g₀).foldlM processNextwordRecord s
        = some (NWState.mk
            (aupdate (aupdate s.terms tp (fun e =>
                (⟨e.doc_freq, e.num_next_terms + 1, e.collection_freq, e.offset⟩ : NWEntry))
              ++ [(tg.first_term, (⟨1, 0, d₀.positions.length,
                  s.current_offset + (encodeBuffer ntid (bufOf gp).doc_ids).length⟩ : NWEntry))])
              tg.first_term (fun e =>
                (⟨e.doc_freq + drest.length, e.num_next_terms,
                  e.collection_freq + posTotal drest, e.offset⟩ : NWEntry)))
            Aids Ainv (s.store ++ encodeBuffer ntid (bufOf gp).doc_ids)
            (s.current_offset + (encodeBuffer ntid (bufOf gp).doc_ids).length)
            (some ⟨g₀.next_term,
              (d₀.doc_id, d₀.positions) :: drest.map (fun d => (d.doc_id, d.positions))⟩)
            (some tg.first_term)) := by
      unfold nwGroupRecords
      rw [hgd]
      simp only [List.map_cons, List.foldlM_cons]
      rw [hstep]
      simp only [Option.bind_eq_bind, Option.some_bind]
      exact hrest
    -- fold over the remaining pair groups of this term
    obtain ⟨sG, hfoldG, hIdsG, hextG, htermsG, hstoreG, hoffG, hprevG, hcftG, hmemG⟩ :=
      nw_groups_fold tg.first_term grest
        (NWState.mk
            (aupdate (aupdate s.terms tp (fun e =>
                (⟨e.doc_freq, e.num_next_terms + 1, e.collection_freq, e.offset⟩ : NWEntry))
              ++ [(tg.first_term, (⟨1, 0, d₀.positions.length,
                  s.current_offset + (encodeBuffer ntid (bufOf gp).doc_ids).length⟩ : NWEntry))])
              tg.first_term (fun e =>
                (⟨e.doc_freq + drest.length, e.num_next_terms,
                  e.collection_freq + posTotal drest, e.offset⟩ : NWEntry)))
            Aids Ainv (s.store ++ encodeBuffer ntid (bufOf gp).doc_ids)
            (s.current_offset + (encodeBuffer ntid (bufOf gp).doc_ids).length)
            (some ⟨g₀.next_term,
              (d₀.doc_id, d₀.positions) :: drest.map (fun d => (d.doc_id, d.positions))⟩)
            (some tg.first_term))
        g₀
        hIdsA
        (by show (alookup (aupdate (aupdate s.terms tp (fun e =>
                (⟨e.doc_freq, e.num_next_terms + 1, e.collection_freq, e.offset⟩ : NWEntry))
              ++ [(tg.first_term, (⟨1, 0, d₀.positions.length,
                  s.current_offset + (encodeBuffer ntid (bufOf gp).doc_ids).length⟩ : NWEntry))])
              tg.first_term (fun e =>
                (⟨e.doc_freq + drest.length, e.num_next_terms,
                  e.collection_freq + posTotal drest, e.offset⟩ : NWEntry)))
              tg.first_term).isSome = true
            rw [alookup_aupdate_self, hTB]
            rfl)
        (hassA tg.first_term (by simp))
        (hassA g₀.next_term (by simp))
        (by simp [bufOf, hgd])
        rfl
        (by rw [hgroups] at hnodupg
            exact hnodupg)
        (fun g hg => hdwf g (by rw [hgroups]; exact List.mem_cons_of_mem _ hg))
    simp only at htermsG hstoreG hoffG hextG
    -- the rest of the stream from the boundary state after this term
    obtain ⟨s', hfold', hIds', hext', hterms', hstore', hoff', hmem'⟩ :=
      ih sG tg.first_term ((g₀ :: grest).getLast hconsne)
        hIdsG
        hcftG
        (by rw [htermsG, alookup_aupdate_self, alookup_aupdate_self, hTB]
            rfl)
        hprevG
        (hmemG ((g₀ :: grest).getLast hconsne) (List.getLast_mem hconsne))
        (by rw [hoffG, hstoreG, hoffinv]
            simp only [List.length_append])
        (by intro tg' htg'
            have hne1 : tg'.first_term ≠ tg.first_term := by
              have hnotin : tg.first_term ∉ tgs'.map (fun tg => tg.first_term) :=
                (List.nodup_cons.mp hndft).1
              intro hcontr
              exact hnotin (hcontr ▸ List.mem_map_of_mem _ htg')
            have hne2 : tg'.first_term ≠ tp := by
              intro hcontr
              have hx := hfresh tg' (List.mem_cons_of_mem _ htg')
              rw [hcontr, he] at hx
              exact Option.noConfusion hx
            rw [htermsG, alookup_aupdate_ne _ _ _ _ hne1, alookup_aupdate_ne _ _ _ _ hne1,
              alookup_append_of_none _ (by
                rw [alookup_aupdate_ne _ _ _ _ hne2]
                exact hfresh tg' (List.mem_cons_of_mem _ htg')),
              alookup_cons, if_neg (Ne.symm hne1)]
            rfl)
        ((List.nodup_cons.mp hndft).2)
        (fun tg' htg' => hwf tg' (List.mem_cons_of_mem _ htg'))
    have hextfull : ∃ w, s'.term_ids_inv = s.term_ids_inv ++ w := by
      obtain ⟨w1, hw1⟩ := hextA
      obtain ⟨w2, hw2⟩ := hextG
      obtain ⟨w3, hw3⟩ := hext'
      refine ⟨w1 ++ (w2 ++ w3), ?_⟩
      rw [hw3, hw2]
      rw [show Ainv = s.term_ids_inv ++ w1 from hw1]
      simp [List.append_assoc]
    have hid' : alookup s'.term_ids_inv gp.next_term = some ntid := alookup_mono hextfull hntid
    have henc : encodePairGroup (idOfS s') gp = encodeBuffer ntid (bufOf gp).doc_ids := by
      rw [← encodeBuffer_bufOf (idOfS s') gp, idOfS_eq_of_lookup hid']
    have hchunk : (g₀ :: grest).dropLast.map (encodePairGroup (idOfS s'))
        = (g₀ :: grest).dropLast.map (encodePairGroup (idOfS sG)) :=
      enc_map_congr sG s' hext' _ (fun g hg => hmemG g (List.dropLast_subset _ hg))
    have hTGsplit : encodeTermGroup (idOfS s') tg
        = ((g₀ :: grest).dropLast.map (encodePairGroup (idOfS s'))).flatten
          ++ encodePairGroup (idOfS s') ((g₀ :: grest).getLast hconsne) := by
      rw [show encodeTermGroup (idOfS s') tg
          = ((g₀ :: grest).map (encodePairGroup (idOfS s'))).flatten from by
        rw [encodeTermGroup, hgroups]]
      exact flatten_map_dropLast_getLast _ _ hconsne
    refine ⟨s', ?_, hIds', hextfull, ?_, ?_, hoff', ?_⟩
    · simp only [List.map_cons, List.flatten_cons]
      rw [show nwTermRecords tg
          = nwGroupRecords tg.first_term g₀
            ++ (grest.map (nwGroupRecords tg.first_term)).flatten from by
        rw [nwTermRecords, hgroups]
        simp [List.map_cons, List.flatten_cons]]
      rw [List.append_assoc, List.foldlM_append]
      rw [hgrp]
      simp only [Option.bind_eq_bind, Option.some_bind]
      rw [List.foldlM_append]
      rw [hfoldG]
      simp only [Option.bind_eq_bind, Option.some_bind]
      exact hfold'
    · -- the lexicon entries
      have hofflex : sG.current_offset
            + (encodePairGroup (idOfS s') ((g₀ :: grest).getLast hconsne)).length
          = s.current_offset + (encodePairGroup (idOfS s') gp).length
            + (encodeTermGroup (idOfS s') tg).length := by
        rw [hoffG]
        have hTGlen : (encodeTermGroup (idOfS s') tg).length
            = (((g₀ :: grest).dropLast.map (encodePairGroup (idOfS s'))).flatten).length
              + (encodePairGroup (idOfS s') ((g₀ :: grest).getLast hconsne)).length := by
          rw [hTGsplit, List.length_append]
        have hclen : (((g₀ :: grest).dropLast.map (encodePairGroup (idOfS s'))).flatten).length
            = (((g₀ :: grest).dropLast.map (encodePairGroup (idOfS sG))).flatten).length := by
          rw [hchunk]
        have hEBlen : (encodeBuffer ntid (bufOf gp).doc_ids).length
            = (encodePairGroup (idOfS s') gp).length := encodeBuffer_length ntid (idOfS s') gp
        omega
      rw [hterms', htermsG, aupdate_aupdate, aupdate_aupdate, aupdate_append,
        aupdate_of_none _ hTBnone, aupdate_singleton_self, List.append_assoc,
        List.singleton_append, hofflex, nwLexiconAux]
      refine congrArg (fun v => aupdate s.terms tp (fun e =>
          (⟨e.doc_freq, e.num_next_terms + 1, e.collection_freq, e.offset⟩ : NWEntry))
        ++ ((tg.first_term, v) :: nwLexiconAux (idOfS s')
            (s.current_offset + (encodePairGroup (idOfS s') gp).length
              + (encodeTermGroup (idOfS s') tg).length) tgs')) ?_
      have hEBlen : (encodeBuffer ntid (bufOf gp).doc_ids).length
          = (encodePairGroup (idOfS s') gp).length := encodeBuffer_length ntid (idOfS s') gp
      simp only [NWEntry.mk.injEq, pairDocTotal, nwPosTotal, hgroups, List.map_cons,
        List.sum_cons, List.length_cons, hgd, posTotal, and_true, true_and]
      omega
    · -- the store encoding
      rw [hstore', hstoreG]
      rw [show encodeNWStream (idOfS s') (tg :: tgs')
          = encodeTermGroup (idOfS s') tg ++ encodeNWStream (idOfS s') tgs' from by
        rw [encodeNWStream, encodeNWStream, List.map_cons, List.flatten_cons]]
      rw [hTGsplit, henc, hchunk]
      simp only [List.append_assoc]
    · intro tg' htg' g hg
      rcases List.mem_cons.mp htg' with h | h
      · subst h
        rw [hgroups] at hg
        obtain ⟨v, hv⟩ := Option.isSome_iff_exists.mp (hmemG g hg)
        exact Option.isSome_iff_exists.mpr ⟨v, alookup_mono hext' hv⟩
      · exact hmem' tg' h g hg

/-- `IndexBuilder.build` (nextword variant) on a well-formed sorted record stream:
the lexicon is the canonical one, the store is the canonical encoding, the write
cursor sits at the end of the store, and every next term has an assigned id. -/
theorem buildNW_spec (tgs : List NWTermGroup) (hwf : NWWF tgs) :
    ∃ s', buildNW (nwStreamRecords tgs) = some s' ∧
      IdsOk s' ∧
      s'.terms = nwLexiconAux (idOfS s') 0 tgs ∧
      s'.store = encodeNWStream (idOfS s') tgs ∧
      s'.current_offset = s'.store.length ∧
      (∀ tg ∈ tgs, ∀ g ∈ tg.groups, (alookup s'.term_ids_inv g.next_term).isSome) := by
  obtain ⟨hne, hndft, hwf3⟩ := hwf
  cases tgs with
  | nil => exact absurd rfl hne
  | cons tg₀ tgrest =>
  obtain ⟨hg0ne, hnodupg, hdwf⟩ := hwf3 tg₀ (by simp)
  cases hgroups : tg₀.groups with
  | nil => exact absurd hgroups hg0ne
  | cons g₀ grest =>
  have hconsne : (g₀ :: grest) ≠ ([] : List PairGroup) := by simp
  obtain ⟨hd0ne, hd0nodup, _⟩ := hdwf g₀ (by rw [hgroups]; simp)
  cases hgd : g₀.docs with
  | nil => exact absurd hgd hd0ne
  | cons d₀ drest =>
  have hstep := processNW_first nwInit tg₀.first_term g₀.next_term d₀.doc_id d₀.positions
    rfl rfl
  obtain ⟨hf1, hf2, hf3, hf4, hf5⟩ := assignTermIds_fields nwInit [tg₀.first_term, g₀.next_term]
  have hIdsA := assignTermIds_idsOk nwInit [tg₀.first_term, g₀.next_term]
    ⟨rfl, rfl, List.nodup_nil⟩
  have hextA := assignTermIds_inv_extends nwInit [tg₀.first_term, g₀.next_term]
  have hassA := assignTermIds_assigns nwInit [tg₀.first_term, g₀.next_term]
  generalize hA : assignTermIds nwInit [tg₀.first_term, g₀.next_term] = A
    at hf1 hf2 hf3 hf4 hf5 hIdsA hextA hassA hstep
  obtain ⟨At, Aids, Ainv, Ast, Aoff, Aprev, Acft⟩ := A
  simp only at hf1 hf2 hf3 hf4 hf5 hstep
  subst hf1
  subst hf2
  subst hf3
  subst hf4
  subst hf5
  simp only [nwInit, List.nil_append] at hstep
  rw [show (NWState.mk [] [] [] [] 0 none none) = nwInit from rfl] at hstep
  have hTB : alookup [(tg₀.first_term, (⟨1, 0, d₀.positions.length, 0⟩ : NWEntry))]
      tg₀.first_term = some (⟨1, 0, d₀.positions.length, 0⟩ : NWEntry) := by
    rw [alookup_cons, if_pos rfl]
  -- fold the remaining documents of the first pair group into the fresh buffer
  have hrest := nw_docs_fold tg₀.first_term g₀.next_term drest
    (NWState.mk [(tg₀.first_term, (⟨1, 0, d₀.positions.length, 0⟩ : NWEntry))]
      Aids Ainv [] 0
      (some ⟨g₀.next_term, [(d₀.doc_id, d₀.positions)]⟩) (some tg₀.first_term))
    [(d₀.doc_id, d₀.positions)]
    (Option.isSome_iff_exists.mpr ⟨_, hTB⟩)
    (hassA tg₀.first_term (by simp))
    (hassA g₀.next_term (by simp))
    rfl
    (by intro d' hd'
        have hne' : d₀.doc_id ≠ d'.doc_id := by
          rw [hgd] at hd0nodup
          simp only [List.map_cons, List.nodup_cons] at hd0nodup
          intro hcontr
          exact hd0nodup.1 (hcontr ▸ List.mem_map_of_mem (fun x => x.doc_id) hd')
        rw [alookup_cons, if_neg hne']
        rfl)
    (by rw [hgd] at hd0nodup
        simpa using hd0nodup.of_cons)
  -- closed form of the fold over the first pair group's records
  have hgrp : (nwGroupRecords tg₀.first_term g₀).foldlM processNextwordRecord nwInit
      = some (NWState.mk
          (aupdate [(tg₀.first_term, (⟨1, 0, d₀.positions.length, 0⟩ : NWEntry))]
            tg₀.first_term (fun e =>
              (⟨e.doc_freq + drest.length, e.num_next_terms,
                e.collection_freq + posTotal drest, e.offset⟩ : NWEntry)))
          Aids Ainv [] 0
          (some ⟨g₀.next_term,
            (d₀.doc_id, d₀.positions) :: drest.map (fun d => (d.doc_id, d.positions))⟩)
          (some tg₀.first_term)) := by
    unfold nwGroupRecords
    rw [hgd]
    simp only [List.map_cons, List.foldlM_cons]
    rw [hstep]
    simp only [Option.bind_eq_bind, Option.some_bind]
    exact hrest
  -- fold over the remaining pair groups of the first term
  obtain ⟨sG, hfoldG, hIdsG, hextG, htermsG, hstoreG, hoffG, hprevG, hcftG, hmemG⟩ :=
    nw_groups_fold tg₀.first_term grest
      (NWState.mk
          (aupdate [(tg₀.first_term, (⟨1, 0, d₀.positions.length, 0⟩ : NWEntry))]
            tg₀.first_term (fun e =>
              (⟨e.doc_freq + drest.length, e.num_next_terms,
                e.collection_freq + posTotal drest, e.offset⟩ : NWEntry)))
          Aids Ainv [] 0
          (some ⟨g₀.next_term,
            (d₀.doc_id, d₀.positions) :: drest.map (fun d => (d.doc_id, d.positions))⟩)
          (some tg₀.first_term))
      g₀
      hIdsA
      (by show (alookup (aupdate [(tg₀.first_term, (⟨1, 0, d₀.positions.length, 0⟩ : NWEntry))]
            tg₀.first_term (fun e =>
              (⟨e.doc_freq + drest.length, e.num_next_terms,
                e.collection_freq + posTotal drest, e.offset⟩ : NWEntry)))
            tg₀.first_term).isSome = true
          rw [alookup_aupdate_self, hTB]
          rfl)
      (hassA tg₀.first_term (by simp))
      (hassA g₀.next_term (by simp))
      (by simp [bufOf, hgd])
      rfl
      (by rw [hgroups] at hnodupg
          exact hnodupg)
      (fun g hg => by
        have hx := hdwf g (by rw [hgroups]; exact List.mem_cons_of_mem _ hg)
        exact ⟨hx.1, hx.2.1⟩)
  simp only at htermsG hstoreG hoffG hextG
  -- the rest of the stream from the boundary state after the first term
  obtain ⟨s', hfold', hIds', hext', hterms', hstore', hoff', hmem'⟩ :=
    nw_stream_fold tgrest sG tg₀.first_term ((g₀ :: grest).getLast hconsne)
      hIdsG
      hcftG
      (by rw [htermsG, alookup_aupdate_self, alookup_aupdate_self, hTB]
          rfl)
      hprevG
      (hmemG ((g₀ :: grest).getLast hconsne) (List.getLast_mem hconsne))
      (by rw [hoffG, hstoreG]
          simp [List.length_append])
      (by intro tg' htg'
          have hne1 : tg'.first_term ≠ tg₀.first_term := by
            have hnotin : tg₀.first_term ∉ tgrest.map (fun tg => tg.first_term) :=
              (List.nodup_cons.mp hndft).1
            intro hcontr
            exact hnotin (hcontr ▸ List.mem_map_of_mem _ htg')
          rw [htermsG, alookup_aupdate_ne _ _ _ _ hne1, alookup_aupdate_ne _ _ _ _ hne1,
            alookup_cons, if_neg (Ne.symm hne1)]
          rfl)
      ((List.nodup_cons.mp hndft).2)
      (fun tg' htg' => by
        have hx := hwf3 tg' (List.mem_cons_of_mem _ htg')
        exact ⟨hx.1, hx.2.1, fun g hg => ⟨(hx.2.2 g hg).1, (hx.2.2 g hg).2.1⟩⟩)
  have hchunk : (g₀ :: grest).dropLast.map (encodePairGroup (idOfS s'))
      = (g₀ :: grest).dropLast.map (encodePairGroup (idOfS sG)) :=
    enc_map_congr sG s' hext' _ (fun g hg => hmemG g (List.dropLast_subset _ hg))
  have hTGsplit : encodeTermGroup (idOfS s') tg₀
      = ((g₀ :: grest).dropLast.map (encodePairGroup (idOfS s'))).flatten
        ++ encodePairGroup (idOfS s') ((g₀ :: grest).getLast hconsne) := by
    rw [show encodeTermGroup (idOfS s') tg₀
        = ((g₀ :: grest).map (encodePairGroup (idOfS s'))).flatten from by
      rw [encodeTermGroup, hgroups]]
    exact flatten_map_dropLast_getLast _ _ hconsne
  refine ⟨s', ?_, hIds', ?_, ?_, hoff', ?_⟩
  · unfold buildNW
    rw [show nwStreamRecords (tg₀ :: tgrest)
        = nwGroupRecords tg₀.first_term g₀
          ++ ((grest.map (nwGroupRecords tg₀.first_term)).flatten
            ++ (tgrest.map nwTermRecords).flatten) from by
      rw [nwStreamRecords, List.map_cons, List.flatten_cons, nwTermRecords, hgroups]
      simp [List.map_cons, List.flatten_cons, List.append_assoc]]
    rw [List.foldlM_append]
    rw [hgrp]
    simp only [Option.bind_eq_bind, Option.some_bind]
    rw [List.foldlM_append]
    rw [hfoldG]
    simp only [Option.bind_eq_bind, Option.some_bind]
    exact hfold'
  · -- the lexicon
    have hofflex : sG.current_offset
          + (encodePairGroup (idOfS s') ((g₀ :: grest).getLast hconsne)).length
        = 0 + (encodeTermGroup (idOfS s') tg₀).length := by
      rw [hoffG]
      have hTGlen : (encodeTermGroup (idOfS s') tg₀).length
          = (((g₀ :: grest).dropLast.map (encodePairGroup (idOfS s'))).flatten).length
            + (encodePairGroup (idOfS s') ((g₀ :: grest).getLast hconsne)).length := by
        rw [hTGsplit, List.length_append]
      have hclen : (((g₀ :: grest).dropLast.map (encodePairGroup (idOfS s'))).flatten).length
          = (((g₀ :: grest).dropLast.map (encodePairGroup (idOfS sG))).flatten).length := by
        rw [hchunk]
      omega
    rw [hterms', htermsG, aupdate_aupdate, aupdate_aupdate, aupdate_singleton_self,
      List.singleton_append, hofflex, nwLexiconAux]
    refine congrArg (fun v => (tg₀.first_term, v) :: nwLexiconAux (idOfS s')
        (0 + (encodeTermGroup (idOfS s') tg₀).length) tgrest) ?_
    simp only [NWEntry.mk.injEq, pairDocTotal, nwPosTotal, hgroups, List.map_cons,
      List.sum_cons, List.length_cons, hgd, posTotal, and_true, true_and]
    omega
  · -- the store
    rw [hstore', hstoreG]
    rw [show encodeNWStream (idOfS s') (tg₀ :: tgrest)
        = encodeTermGroup (idOfS s') tg₀ ++ encodeNWStream (idOfS s') tgrest from by
      rw [encodeNWStream, encodeNWStream, List.map_cons, List.flatten_cons]]
    rw [hTGsplit, hchunk]
    simp only [List.append_assoc, List.nil_append]
  · intro tg' htg' g hg
    rcases List.mem_cons.mp htg' with h | h
    · subst h
      rw [hgroups] at hg
      obtain ⟨v, hv⟩ := Option.isSome_iff_exists.mp (hmemG g hg)
      exact Option.isSome_iff_exists.mpr ⟨v, alookup_mono hext' hv⟩
    · exact hmem' tg' h g hg

/-! ## Reading back a biword block (`NextwordQueryProcessor.find_postings`) -/

/-- Decoding a pair group's documents: each `(doc_id, count, positions)` triple
is read exactly and inserted with Python dict assignment semantics. -/
theorem readPairDocs_spec (ds : List DocPost) : ∀ (A B : List Nat)
    (acc : List (Nat × List Nat)),
    readPairDocs (A ++ encodeDocs ds ++ B) A.length acc ds.length
      = (ds.foldl (fun a d => ainsert a d.doc_id d.positions) acc,
          A.length + (encodeDocs ds).length) := by
  induction ds with
  | nil => intro A B acc; simp [readPairDocs, encodeDocs]
  | cons d ds ih =>
    intro A B acc
    show readPairDocs _ _ _ (ds.length + 1) = _
    rw [readPairDocs]
    have hstore : A ++ encodeDocs (d :: ds) ++ B
        = A ++ (d.doc_id :: d.positions.length :: (d.positions ++ (encodeDocs ds ++ B))) := by
      simp [encodeDocs, encodeDoc]
    have hdid : (A ++ encodeDocs (d :: ds) ++ B).getD A.length 0 = d.doc_id := by
      rw [hstore, show A.length = A.length + 0 from rfl, getD_append_len_add]
      rfl
    have htf : (A ++ encodeDocs (d :: ds) ++ B).getD (A.length + 1) 0 = d.positions.length := by
      rw [hstore, getD_append_len_add]
      rfl
    have hread : readInts (A ++ encodeDocs (d :: ds) ++ B) (A.length + 2) d.positions.length
        = (d.positions, A.length + 2 + d.positions.length) := by
      have harr : A ++ encodeDocs (d :: ds) ++ B
          = (A ++ [d.doc_id, d.positions.length]) ++ d.positions ++ (encodeDocs ds ++ B) := by
        simp [encodeDocs, encodeDoc]
      have hlen : A.length + 2 = (A ++ [d.doc_id, d.positions.length]).length := by simp
      rw [harr, hlen, readInts_spec]
    rw [hdid, htf, hread]
    dsimp only
    have harr2 : A ++ encodeDocs (d :: ds) ++ B = (A ++ encodeDoc d) ++ encodeDocs ds ++ B := by
      simp [encodeDocs]
    have hlen2 : A.length + 2 + d.positions.length = (A ++ encodeDoc d).length := by
      simp [encodeDoc]
      omega
    rw [harr2, hlen2, ih (A ++ encodeDoc d) B _]
    simp only [List.foldl_cons, Prod.mk.injEq, true_and, List.length_append]
    rw [encodeDocs_length, encodeDocs_length]
    simp only [List.length_cons, posTotal, List.map_cons, List.sum_cons]
    simp [encodeDoc]
    omega

/-- The skip branch consumes exactly a group's documents region: doc id,
position count, then a relative seek over the positions. -/
theorem skipPairDocs_spec (ds : List DocPost) : ∀ (A B : List Nat),
    skipPairDocs (A ++ encodeDocs ds ++ B) A.length ds.length
      = A.length + (encodeDocs ds).length := by
  induction ds with
  | nil => intro A B; simp [skipPairDocs, encodeDocs]
  | cons d ds ih =>
    intro A B
    show skipPairDocs _ _ (ds.length + 1) = _
    rw [skipPairDocs]
    have hstore : A ++ encodeDocs (d :: ds) ++ B
        = A ++ (d.doc_id :: d.positions.length :: (d.positions ++ (encodeDocs ds ++ B))) := by
      simp [encodeDocs, encodeDoc]
    have htf : (A ++ encodeDocs (d :: ds) ++ B).getD (A.length + 1) 0 = d.positions.length := by
      rw [hstore, getD_append_len_add]
      rfl
    rw [htf]
    have harr2 : A ++ encodeDocs (d :: ds) ++ B = (A ++ encodeDoc d) ++ encodeDocs ds ++ B := by
      simp [encodeDocs]
    have hlen2 : A.length + 2 + d.positions.length = (A ++ encodeDoc d).length := by
      simp [encodeDoc]
      omega
    rw [harr2, hlen2, ih (A ++ encodeDoc d) B]
    simp only [List.length_append]
    rw [encodeDocs_length, encodeDocs_length]
    simp only [List.length_cons, posTotal, List.map_cons, List.sum_cons]
    simp [encodeDoc]
    omega

/-- The group filter of `find_postings`: the sentinel (Python `None`) matches
every group, otherwise the decoded next term must equal the target. -/
def targetHit (target : Option String) (nt : String) : Bool :=
  match target with
  | none => true
  | some u => decide (nt = u)

theorem nwLexiconAux_append (idOf : String → Nat) (tgs₁ tgs₂ : List NWTermGroup) (off : Nat) :
    nwLexiconAux idOf off (tgs₁ ++ tgs₂)
      = nwLexiconAux idOf off tgs₁
        ++ nwLexiconAux idOf (off + ((tgs₁.map (encodeTermGroup idOf)).flatten).length) tgs₂ := by
  induction tgs₁ generalizing off with
  | nil => simp [nwLexiconAux]
  | cons tg tgs ih =>
    simp only [List.cons_append, nwLexiconAux, List.map_cons, List.flatten_cons, List.append_eq]
    rw [ih]
    simp only [List.cons.injEq, true_and, List.append_right_inj]
    congr 1
    simp only [List.length_append]
    omega

theorem nwLexiconAux_keys (idOf : String → Nat) (tgs : List NWTermGroup) (off : Nat) :
    (nwLexiconAux idOf off tgs).map Prod.fst = tgs.map (fun tg => tg.first_term) := by
  induction tgs generalizing off with
  | nil => rfl
  | cons tg tgs ih => simp [nwLexiconAux, ih]

theorem nwLexicon_lookup_of_notMem (idOf : String → Nat) (tgs : List NWTermGroup) (off : Nat)
    (t : String) (h : t ∉ tgs.map (fun tg => tg.first_term)) :
    alookup (nwLexiconAux idOf off tgs) t = none := by
  rw [alookup_eq_none_iff]
  intro p hp
  intro hcontr
  apply h
  rw [← nwLexiconAux_keys idOf tgs off]
  exact hcontr ▸ List.mem_map_of_mem Prod.fst hp

/-- Looking up a first term of a well-formed stream in the canonical nextword
lexicon yields its counters and the offset where its block starts. -/
theorem nwLexicon_lookup (idOf : String → Nat) (tgs₁ : List NWTermGroup) (tg : NWTermGroup)
    (tgs₂ : List NWTermGroup)
    (hnodup : ((tgs₁ ++ tg :: tgs₂).map (fun x => x.first_term)).Nodup) :
    alookup (nwLexiconAux idOf 0 (tgs₁ ++ tg :: tgs₂)) tg.first_term
      = some ⟨pairDocTotal tg, tg.groups.length, nwPosTotal tg,
          ((tgs₁.map (encodeTermGroup idOf)).flatten).length⟩ := by
  rw [nwLexiconAux_append]
  have hnot : tg.first_term ∉ tgs₁.map (fun x => x.first_term) := by
    simp only [List.map_append, List.map_cons] at hnodup
    have h2 := (List.nodup_append.mp hnodup).2.2
    intro hcontr
    exact h2 hcontr (by simp)
  rw [alookup_append_of_none _ (nwLexicon_lookup_of_notMem idOf tgs₁ 0 tg.first_term hnot)]
  simp [nwLexiconAux, alookup_cons]

/-- The group loop of `find_postings` over a canonically encoded block: matching
groups are decoded in full, others skipped; either way each group consumes
exactly its own units, so every header is decoded at the right offset. -/
theorem findPostingsLoop_spec (pgs : List PairGroup) (B : List Nat)
    (ids : List (Nat × String)) (idOf : String → Nat) (target : Option String) :
    ∀ (A : List Nat) (acc : List (Nat × List Nat)),
      (∀ g ∈ pgs, alookup ids (idOf g.next_term) = some g.next_term) →
      findPostingsLoop ids (A ++ (pgs.map (encodePairGroup idOf)).flatten ++ B) target
          pgs.length A.length acc
        = some (pgs.foldl (fun a g =>
              if targetHit target g.next_term = true
                then g.docs.foldl (fun a' d => ainsert a' d.doc_id d.positions) a else a) acc,
            A.length + ((pgs.map (encodePairGroup idOf)).flatten).length) := by
  induction pgs with
  | nil => intro A acc _; simp [findPostingsLoop]
  | cons g rest ih =>
    intro A acc hids
    show findPostingsLoop _ _ _ (rest.length + 1) _ _ = _
    rw [findPostingsLoop]
    have hstore : A ++ ((g :: rest).map (encodePairGroup idOf)).flatten ++ B
        = A ++ (idOf g.next_term :: g.docs.length ::
            (encodeDocs g.docs ++ ((rest.map (encodePairGroup idOf)).flatten ++ B))) := by
      simp [encodePairGroup, List.append_assoc]
    have hntid : (A ++ ((g :: rest).map (encodePairGroup idOf)).flatten ++ B).getD A.length 0
        = idOf g.next_term := by
      rw [hstore, show A.length = A.length + 0 from rfl, getD_append_len_add]
      rfl
    have hpdf : (A ++ ((g :: rest).map (encodePairGroup idOf)).flatten ++ B).getD
        (A.length + 1) 0 = g.docs.length := by
      rw [hstore, getD_append_len_add]
      rfl
    rw [hntid, hpdf, hids g (by simp)]
    have harr : A ++ ((g :: rest).map (encodePairGroup idOf)).flatten ++ B
        = (A ++ [idOf g.next_term, g.docs.length]) ++ encodeDocs g.docs
            ++ ((rest.map (encodePairGroup idOf)).flatten ++ B) := by
      simp [encodePairGroup, List.append_assoc]
    have hlen2 : A.length + 2 = (A ++ [idOf g.next_term, g.docs.length]).length := by simp
    have harr2 : (A ++ [idOf g.next_term, g.docs.length]) ++ encodeDocs g.docs
          ++ ((rest.map (encodePairGroup idOf)).flatten ++ B)
        = (A ++ encodePairGroup idOf g) ++ (rest.map (encodePairGroup idOf)).flatten ++ B := by
      simp [encodePairGroup, List.append_assoc]
    have hlen3 : (A ++ [idOf g.next_term, g.docs.length]).length + (encodeDocs g.docs).length
        = (A ++ encodePairGroup idOf g).length := by
      simp [encodePairGroup]
      omega
    have htail : A.length + (((g :: rest).map (encodePairGroup idOf)).flatten).length
        = (A ++ encodePairGroup idOf g).length
          + ((rest.map (encodePairGroup idOf)).flatten).length := by
      simp [encodePairGroup]
      omega
    have hrec := fun acc' => ih (A ++ encodePairGroup idOf g) acc'
      (fun g' hg' => hids g' (List.mem_cons_of_mem _ hg'))
    cases target with
    | none =>
      dsimp only
      rw [if_pos rfl]
      rw [harr, hlen2, readPairDocs_spec g.docs (A ++ [idOf g.next_term, g.docs.length])
        ((rest.map (encodePairGroup idOf)).flatten ++ B) acc]
      dsimp only
      rw [harr2, hlen3, hrec _]
      rw [List.foldl_cons]
      rw [if_pos (show targetHit none g.next_term = true from rfl), htail]
    | some u =>
      dsimp only
      cases hd : decide (g.next_term = u) with
      | true =>
        rw [if_pos rfl]
        rw [harr, hlen2, readPairDocs_spec g.docs (A ++ [idOf g.next_term, g.docs.length])
          ((rest.map (encodePairGroup idOf)).flatten ++ B) acc]
        dsimp only
        rw [harr2, hlen3, hrec _]
        rw [List.foldl_cons]
        rw [if_pos (show targetHit (some u) g.next_term = true from hd), htail]
      | false =>
        rw [if_neg (show ¬ (false = true) from Bool.false_ne_true)]
        rw [harr, hlen2, skipPairDocs_spec g.docs (A ++ [idOf g.next_term, g.docs.length])
          ((rest.map (encodePairGroup idOf)).flatten ++ B)]
        rw [harr2, hlen3, hrec _]
        rw [List.foldl_cons]
        rw [if_neg (show ¬ targetHit (some u) g.next_term = true from by
          rw [show targetHit (some u) g.next_term = decide (g.next_term = u) from rfl, hd]
          exact Bool.false_ne_true), htail]

/-- `find_postings` on a built biword index, for a first term present in the
lexicon: exactly the documents of the matching groups are decoded. -/
theorem findPostings_spec (s' : NWState) (tgs₁ : List NWTermGroup) (tg : NWTermGroup)
    (tgs₂ : List NWTermGroup) (target : Option String)
    (hIds : IdsOk s')
    (hterms : s'.terms = nwLexiconAux (idOfS s') 0 (tgs₁ ++ tg :: tgs₂))
    (hstore : s'.store = encodeNWStream (idOfS s') (tgs₁ ++ tg :: tgs₂))
    (hmem : ∀ tg' ∈ tgs₁ ++ tg :: tgs₂, ∀ g ∈ tg'.groups,
      (alookup s'.term_ids_inv g.next_term).isSome)
    (hnodup : ((tgs₁ ++ tg :: tgs₂).map (fun x => x.first_term)).Nodup) :
    findPostings s'.terms s'.term_ids s'.store tg.first_term target
      = some (tg.groups.foldl (fun a g =>
          if targetHit target g.next_term = true
            then g.docs.foldl (fun a' d => ainsert a' d.doc_id d.positions) a else a) []) := by
  unfold findPostings
  rw [hterms, nwLexicon_lookup (idOfS s') tgs₁ tg tgs₂ hnodup]
  dsimp only
  have hsplit : s'.store
      = (tgs₁.map (encodeTermGroup (idOfS s'))).flatten
        ++ (tg.groups.map (encodePairGroup (idOfS s'))).flatten
        ++ (tgs₂.map (encodeTermGroup (idOfS s'))).flatten := by
    rw [hstore, encodeNWStream]
    simp [List.map_append, List.flatten_append, encodeTermGroup]
  rw [hsplit]
  rw [findPostingsLoop_spec tg.groups ((tgs₂.map (encodeTermGroup (idOfS s'))).flatten)
    s'.term_ids (idOfS s') target ((tgs₁.map (encodeTermGroup (idOfS s'))).flatten) []
    (fun g hg => by
      obtain ⟨i, hi⟩ := Option.isSome_iff_exists.mp (hmem tg (by simp) g hg)
      rw [idOfS_eq_of_lookup hi]
      exact idsOk_lookup hIds hi)]
  rfl

/-! ## `merge_query_results`: the per-term position sets -/

/-- The position set `single_term_results[t][did]` (empty when absent). -/
def strPos (str : List (String × List (Nat × List Nat))) (t : String) (did : Nat) : List Nat :=
  (alookup ((alookup str t).getD []) did).getD []

theorem alookup_ainsert_isSome {κ β : Type} [DecidableEq κ] (l : List (κ × β)) (k k' : κ)
    (v : β) : (alookup (ainsert l k v) k').isSome ↔ (alookup l k').isSome ∨ k' = k := by
  by_cases h : k' = k
  · subst h
    rw [alookup_ainsert_self]
    simp
  · rw [alookup_ainsert_ne _ _ _ _ h]
    simp [h]

theorem mem_addPosToSet (s : List Nat) (q p : Nat) :
    p ∈ addPosToSet s q ↔ p ∈ s ∨ p = q := by
  unfold addPosToSet
  by_cases h : q ∈ s
  · rw [if_pos h]
    constructor
    · exact Or.inl
    · rintro (h2 | h2)
      · exact h2
      · exact h2 ▸ h
  · rw [if_neg h]
    simp

theorem mem_foldl_addPosToSet (ps : List Nat) (idx : Nat) : ∀ (cur : List Nat) (p : Nat),
    p ∈ ps.foldl (fun s q => addPosToSet s (q + idx)) cur
      ↔ p ∈ cur ∨ ∃ q ∈ ps, p = q + idx := by
  induction ps with
  | nil => intro cur p; simp
  | cons q ps ih =>
    intro cur p
    rw [List.foldl_cons, ih, mem_addPosToSet]
    simp only [List.mem_cons]
    constructor
    · rintro ((h | h) | ⟨r, hr, he⟩)
      · exact Or.inl h
      · exact Or.inr ⟨q, Or.inl rfl, h⟩
      · exact Or.inr ⟨r, Or.inr hr, he⟩
    · rintro (h | ⟨r, (hr | hr), he⟩)
      · exact Or.inl (Or.inl h)
      · exact Or.inl (Or.inr (hr ▸ he))
      · exact Or.inr ⟨r, hr, he⟩

theorem strPos_addPairComponent (str : List (String × List (Nat × List Nat))) (u : String)
    (idx : Nat) (did : Nat) (ps : List Nat) (t : String) (d : Nat) (p : Nat) :
    p ∈ strPos (addPairComponent str u idx did ps) t d
      ↔ p ∈ strPos str t d ∨ (t = u ∧ d = did ∧ ∃ q ∈ ps, p = q + idx) := by
  unfold addPairComponent strPos
  by_cases htu : t = u
  · subst htu
    rw [alookup_ainsert_self]
    simp only [Option.getD_some]
    by_cases hdd : d = did
    · subst hdd
      rw [alookup_ainsert_self]
      simp only [Option.getD_some]
      rw [mem_foldl_addPosToSet]
      simp
    · rw [alookup_ainsert_ne _ _ _ _ hdd]
      simp [hdd]
  · rw [alookup_ainsert_ne _ _ _ _ htu]
    simp [htu]

theorem isSome_addPairComponent (str : List (String × List (Nat × List Nat))) (u : String)
    (idx : Nat) (did : Nat) (ps : List Nat) (t : String) :
    (alookup (addPairComponent str u idx did ps) t).isSome
      ↔ (alookup str t).isSome ∨ t = u := by
  unfold addPairComponent
  rw [alookup_ainsert_isSome]

/-- Position-set membership after decoding one pair's documents. -/
theorem strPos_docsFold (ft nt : String) (pd : List (Nat × List Nat)) :
    ∀ (str : List (String × List (Nat × List Nat))) (t : String) (d p : Nat),
    p ∈ strPos (pd.foldl (fun str' dp =>
        addPairComponent (addPairComponent str' ft 0 dp.1 dp.2) nt 1 dp.1 dp.2) str) t d
      ↔ p ∈ strPos str t d
        ∨ ∃ dp ∈ pd, dp.1 = d
            ∧ ((ft = t ∧ p ∈ dp.2) ∨ (nt = t ∧ ∃ q ∈ dp.2, p = q + 1)) := by
  induction pd with
  | nil => intro str t d p; simp
  | cons dp pd ih =>
    intro str t d p
    rw [List.foldl_cons, ih, strPos_addPairComponent, strPos_addPairComponent]
    simp only [List.mem_cons]
    constructor
    · rintro (((h | ⟨h1, h2, q, hq, he⟩) | ⟨h1, h2, q, hq, he⟩) | ⟨dp', hdp', h2, h3⟩)
      · exact Or.inl h
      · exact Or.inr ⟨dp, Or.inl rfl, h2.symm, Or.inl ⟨h1.symm, by rw [he]; simpa using hq⟩⟩
      · exact Or.inr ⟨dp, Or.inl rfl, h2.symm, Or.inr ⟨h1.symm, q, hq, he⟩⟩
      · exact Or.inr ⟨dp', Or.inr hdp', h2, h3⟩
    · rintro (h | ⟨dp', (hdp' | hdp'), h2, (⟨h3, h4⟩ | ⟨h3, q, hq, he⟩)⟩)
      · exact Or.inl (Or.inl (Or.inl h))
      · subst hdp'
        exact Or.inl (Or.inl (Or.inr ⟨h3.symm, h2.symm, p, h4, by omega⟩))
      · subst hdp'
        exact Or.inl (Or.inr ⟨h3.symm, h2.symm, q, hq, he⟩)
      · exact Or.inr ⟨dp', hdp', h2, Or.inl ⟨h3, h4⟩⟩
      · exact Or.inr ⟨dp', hdp', h2, Or.inr ⟨h3, q, hq, he⟩⟩

/-- Position-set membership in `single_term_results`. -/
theorem strPos_build (qr : List ((String × String) × List (Nat × List Nat))) :
    ∀ (str : List (String × List (Nat × List Nat))) (t : String) (d p : Nat),
    p ∈ strPos (qr.foldl (fun str pr =>
        pr.2.foldl (fun str' dp =>
          addPairComponent (addPairComponent str' pr.1.1 0 dp.1 dp.2) pr.1.2 1 dp.1 dp.2)
          str) str) t d
      ↔ p ∈ strPos str t d
        ∨ ∃ pr ∈ qr, ∃ dp ∈ pr.2, dp.1 = d
            ∧ ((pr.1.1 = t ∧ p ∈ dp.2) ∨ (pr.1.2 = t ∧ ∃ q ∈ dp.2, p = q + 1)) := by
  induction qr with
  | nil => intro str t d p; simp
  | cons pr qr ih =>
    intro str t d p
    rw [List.foldl_cons, ih, strPos_docsFold]
    simp only [List.mem_cons]
    constructor
    · rintro ((h | ⟨dp, hdp, h2, h3⟩) | ⟨pr', hpr', hrest⟩)
      · exact Or.inl h
      · exact Or.inr ⟨pr, Or.inl rfl, dp, hdp, h2, h3⟩
      · exact Or.inr ⟨pr', Or.inr hpr', hrest⟩
    · rintro (h | ⟨pr', (hpr' | hpr'), dp, hdp, h2, h3⟩)
      · exact Or.inl (Or.inl h)
      · subst hpr'
        exact Or.inl (Or.inr ⟨dp, hdp, h2, h3⟩)
      · exact Or.inr ⟨pr', hpr', dp, hdp, h2, h3⟩

theorem strPos_buildSingleTermResults (qr : List ((String × String) × List (Nat × List Nat)))
    (t : String) (d p : Nat) :
    p ∈ strPos (buildSingleTermResults qr) t d
      ↔ ∃ pr ∈ qr, ∃ dp ∈ pr.2, dp.1 = d
          ∧ ((pr.1.1 = t ∧ p ∈ dp.2) ∨ (pr.1.2 = t ∧ ∃ q ∈ dp.2, p = q + 1)) := by
  unfold buildSingleTermResults
  rw [strPos_build]
  simp [strPos, alookup_nil]

/-- Key membership after decoding one pair's documents. -/
theorem isSome_docsFold (ft nt : String) (pd : List (Nat × List Nat)) :
    ∀ (str : List (String × List (Nat × List Nat))) (t : String),
    (alookup (pd.foldl (fun str' dp =>
        addPairComponent (addPairComponent str' ft 0 dp.1 dp.2) nt 1 dp.1 dp.2) str) t).isSome
      ↔ (alookup str t).isSome ∨ (pd ≠ [] ∧ (ft = t ∨ nt = t)) := by
  induction pd with
  | nil => intro str t; simp
  | cons dp pd ih =>
    intro str t
    rw [List.foldl_cons, ih, isSome_addPairComponent, isSome_addPairComponent]
    constructor
    · rintro (((h | h) | h) | h)
      · exact Or.inl h
      · exact Or.inr ⟨by simp, Or.inl h.symm⟩
      · exact Or.inr ⟨by simp, Or.inr h.symm⟩
      · exact Or.inr ⟨by simp, h.2⟩
    · rintro (h | ⟨_, (h | h)⟩)
      · exact Or.inl (Or.inl (Or.inl h))
      · exact Or.inl (Or.inl (Or.inr h.symm))
      · exact Or.inl (Or.inr h.symm)

/-- Term keys of `single_term_results`: components of fetched pairs with
nonempty postings. -/
theorem isSome_buildSingleTermResults (qr : List ((String × String) × List (Nat × List Nat))) :
    ∀ (str : List (String × List (Nat × List Nat))) (t : String),
    (alookup (qr.foldl (fun str pr =>
        pr.2.foldl (fun str' dp =>
          addPairComponent (addPairComponent str' pr.1.1 0 dp.1 dp.2) pr.1.2 1 dp.1 dp.2)
          str) str) t).isSome
      ↔ (alookup str t).isSome ∨ ∃ pr ∈ qr, pr.2 ≠ [] ∧ (pr.1.1 = t ∨ pr.1.2 = t) := by
  induction qr with
  | nil => intro str t; simp
  | cons pr qr ih =>
    intro str t
    rw [List.foldl_cons, ih, isSome_docsFold]
    simp only [List.mem_cons]
    constructor
    · rintro ((h | h) | ⟨pr', hpr', hrest⟩)
      · exact Or.inl h
      · exact Or.inr ⟨pr, Or.inl rfl, h⟩
      · exact Or.inr ⟨pr', Or.inr hpr', hrest⟩
    · rintro (h | ⟨pr', (hpr' | hpr'), hrest⟩)
      · exact Or.inl (Or.inl h)
      · exact Or.inl (Or.inr (hpr' ▸ hrest))
      · exact Or.inr ⟨pr', hpr', hrest⟩

theorem ainsert_keys_of_some {κ β : Type} [DecidableEq κ] {l : List (κ × β)} {k : κ}
    (v : β) (h : (alookup l k).isSome) : (ainsert l k v).map Prod.fst = l.map Prod.fst := by
  unfold ainsert
  rw [if_pos h]
  rw [List.map_map]
  apply List.map_congr_left
  intro p _
  by_cases hp : p.1 = k
  · simp [hp]
  · simp [hp]

theorem ainsert_keys_nodup {κ β : Type} [DecidableEq κ] {l : List (κ × β)} {k : κ} (v : β)
    (h : (l.map Prod.fst).Nodup) : ((ainsert l k v).map Prod.fst).Nodup := by
  by_cases hs : (alookup l k).isSome
  · rw [ainsert_keys_of_some v hs]
    exact h
  · unfold ainsert
    rw [if_neg hs]
    rw [List.map_append]
    simp only [List.map_cons, List.map_nil]
    rw [List.nodup_append]
    refine ⟨h, List.nodup_singleton k, ?_⟩
    intro a ha hb
    simp only [List.mem_singleton] at hb
    subst hb
    rw [← alookup_isSome_iff] at ha
    exact hs ha

theorem mem_ainsert_elim {κ β : Type} [DecidableEq κ] {l : List (κ × β)} {k : κ} {v : β}
    {pr : κ × β} (h : pr ∈ ainsert l k v) : pr ∈ l ∨ pr = (k, v) := by
  unfold ainsert at h
  by_cases hs : (alookup l k).isSome
  · rw [if_pos hs] at h
    obtain ⟨q, hq, he⟩ := List.mem_map.mp h
    by_cases hqk : q.1 = k
    · rw [if_pos hqk] at he
      exact Or.inr he.symm
    · rw [if_neg hqk] at he
      exact Or.inl (he ▸ hq)
  · rw [if_neg hs] at h
    rcases List.mem_append.mp h with h | h
    · exact Or.inl h
    · simp only [List.mem_singleton] at h
      exact Or.inr h

/-- Every per-term document dict of `single_term_results` has duplicate-free
document keys. -/
def StrWF (str : List (String × List (Nat × List Nat))) : Prop :=
  ∀ t, (((alookup str t).getD []).map Prod.fst).Nodup

theorem strWF_addPairComponent {str : List (String × List (Nat × List Nat))} (u : String)
    (idx : Nat) (did : Nat) (ps : List Nat) (h : StrWF str) :
    StrWF (addPairComponent str u idx did ps) := by
  intro t
  unfold addPairComponent
  by_cases htu : t = u
  · subst htu
    rw [alookup_ainsert_self]
    simp only [Option.getD_some]
    exact ainsert_keys_nodup _ (h t)
  · rw [alookup_ainsert_ne _ _ _ _ htu]
    exact h t

theorem strWF_docsFold (ft nt : String) (pd : List (Nat × List Nat)) :
    ∀ str, StrWF str →
      StrWF (pd.foldl (fun str' dp =>
        addPairComponent (addPairComponent str' ft 0 dp.1 dp.2) nt 1 dp.1 dp.2) str) := by
  induction pd with
  | nil => intro str h; exact h
  | cons dp pd ih =>
    intro str h
    rw [List.foldl_cons]
    exact ih _ (strWF_addPairComponent nt 1 dp.1 dp.2 (strWF_addPairComponent ft 0 dp.1 dp.2 h))

theorem strWF_buildSingleTermResults (qr : List ((String × String) × List (Nat × List Nat))) :
    StrWF (buildSingleTermResults qr) := by
  unfold buildSingleTermResults
  have hgen : ∀ (str : List (String × List (Nat × List Nat))), StrWF str →
      StrWF (qr.foldl (fun str pr =>
        pr.2.foldl (fun str' dp =>
          addPairComponent (addPairComponent str' pr.1.1 0 dp.1 dp.2) pr.1.2 1 dp.1 dp.2)
          str) str) := by
    induction qr with
    | nil => intro str h; exact h
    | cons pr qr ih =>
      intro str h
      rw [List.foldl_cons]
      exact ih _ (strWF_docsFold pr.1.1 pr.1.2 pr.2 str h)
  refine hgen [] ?_
  intro t
  simp [alookup_nil]

theorem mergeStep_cons (res : List (Nat × List (List Nat))) (dp : Nat × List Nat)
    (nr : List (Nat × List Nat)) :
    mergeStep res (dp :: nr)
      = mergeStep (match alookup res dp.1 with
          | none => res
          | some chains => ainsert res dp.1 (extendMergeChains chains dp.2)) nr := rfl

theorem extendMergeChains_nil (chains : List (List Nat)) :
    extendMergeChains chains [] = chains := by
  unfold extendMergeChains
  have hmap : ∀ c ∈ chains,
      (let nt := lastD c + 1; if nt ∈ ([] : List Nat) then c ++ [nt] else c) = c := by
    intro c _
    simp
  rw [List.map_congr_left hmap, List.map_id']

/-- `merge_query_results`' per-document update: docs absent from the new term's
dict keep their chains, docs absent from the running results stay absent. -/
theorem alookup_mergeStep_none (nr : List (Nat × List Nat)) :
    ∀ (res : List (Nat × List (List Nat))) (did : Nat),
      alookup res did = none → alookup (mergeStep res nr) did = none := by
  induction nr with
  | nil => intro res did h; exact h
  | cons dp nr ih =>
    intro res did h
    rw [mergeStep_cons]
    cases hres : alookup res dp.1 with
    | none => exact ih res did h
    | some chains =>
      have hne : did ≠ dp.1 := by
        intro hcontr
        rw [hcontr, hres] at h
        exact Option.noConfusion h
      show alookup (mergeStep (ainsert res dp.1 (extendMergeChains chains dp.2)) nr) did = none
      refine ih _ did ?_
      rw [alookup_ainsert_ne _ _ _ _ hne]
      exact h

theorem alookup_mergeStep_some (nr : List (Nat × List Nat))
    (hnd : (nr.map Prod.fst).Nodup) :
    ∀ (res : List (Nat × List (List Nat))) (did : Nat) (chains : List (List Nat)),
      alookup res did = some chains →
      alookup (mergeStep res nr) did
        = some (extendMergeChains chains ((alookup nr did).getD [])) := by
  induction nr with
  | nil =>
    intro res did chains h
    rw [show (mergeStep res [] : List (Nat × List (List Nat))) = res from rfl, h,
      show ((alookup ([] : List (Nat × List Nat)) did).getD [] : List Nat) = [] from rfl,
      extendMergeChains_nil]
  | cons dp nr ih =>
    intro res did chains h
    rw [List.map_cons, List.nodup_cons] at hnd
    rw [mergeStep_cons]
    by_cases hdd : did = dp.1
    · have hres : alookup res dp.1 = some chains := hdd ▸ h
      rw [hres]
      show alookup (mergeStep (ainsert res dp.1 (extendMergeChains chains dp.2)) nr) did = _
      have hlater : alookup nr did = none := by
        rw [alookup_eq_none_iff]
        intro p hp hcontr
        exact hnd.1 ((hcontr.trans hdd) ▸ List.mem_map_of_mem Prod.fst hp)
      rw [ih hnd.2 _ did _ (show alookup (ainsert res dp.1 (extendMergeChains chains dp.2)) did
          = some (extendMergeChains chains dp.2) from by
        rw [hdd]
        exact alookup_ainsert_self _ _ _)]
      rw [hlater, alookup_cons, if_pos hdd.symm]
      rw [show ((none : Option (List Nat)).getD ([] : List Nat)) = [] from rfl,
        extendMergeChains_nil]
      rfl
    · rw [show alookup (dp :: nr) did = alookup nr did from by
        rw [alookup_cons, if_neg (fun hc => hdd hc.symm)]]
      cases hres : alookup res dp.1 with
      | none => exact ih hnd.2 res did chains h
      | some cs =>
        show alookup (mergeStep (ainsert res dp.1 (extendMergeChains cs dp.2)) nr) did = _
        refine ih hnd.2 _ did chains ?_
        rw [alookup_ainsert_ne _ _ _ _ hdd]
        exact h

theorem mergeStep_keys (nr : List (Nat × List Nat)) :
    ∀ (res : List (Nat × List (List Nat))),
      (mergeStep res nr).map Prod.fst = res.map Prod.fst := by
  induction nr with
  | nil => intro res; rfl
  | cons dp nr ih =>
    intro res
    rw [mergeStep_cons]
    cases hres : alookup res dp.1 with
    | none => exact ih res
    | some chains =>
      show (mergeStep (ainsert res dp.1 (extendMergeChains chains dp.2)) nr).map Prod.fst = _
      rw [ih]
      exact ainsert_keys_of_some _ (by rw [hres]; rfl)

/-- The term-merge loop runs to completion when every remaining query term has
a `single_term_results` entry. -/
theorem foldlM_merge (str : List (String × List (Nat × List Nat))) (ts : List String) :
    ∀ (res : List (Nat × List (List Nat))), (∀ t ∈ ts, (alookup str t).isSome) →
      ts.foldlM (fun res term => (alookup str term).map (mergeStep res)) res
        = some (ts.foldl (fun res term => mergeStep res ((alookup str term).getD [])) res) := by
  induction ts with
  | nil => intro res _; rfl
  | cons t ts ih =>
    intro res hsome
    obtain ⟨nr, hnr⟩ := Option.isSome_iff_exists.mp (hsome t (by simp))
    rw [List.foldlM_cons, hnr]
    simp only [Option.map_some', Option.some_bind]
    rw [List.foldl_cons, hnr]
    simp only [Option.getD_some]
    exact ih _ (fun t' ht' => hsome t' (List.mem_cons_of_mem _ ht'))

/-- Per-document chains through the whole term-merge loop. -/
theorem final_chains (str : List (String × List (Nat × List Nat))) (hwf : StrWF str)
    (ts : List String) :
    ∀ (res : List (Nat × List (List Nat))) (did : Nat) (chains : List (List Nat)),
      alookup res did = some chains →
      alookup (ts.foldl (fun res term => mergeStep res ((alookup str term).getD [])) res) did
        = some (ts.foldl (fun chains term => extendMergeChains chains (strPos str term did))
            chains) := by
  induction ts with
  | nil => intro res did chains h; exact h
  | cons t ts ih =>
    intro res did chains h
    rw [List.foldl_cons, List.foldl_cons]
    exact ih _ did _ (alookup_mergeStep_some _ (hwf t) res did chains h)

theorem final_chains_none (str : List (String × List (Nat × List Nat))) (ts : List String) :
    ∀ (res : List (Nat × List (List Nat))) (did : Nat),
      alookup res did = none →
      alookup (ts.foldl (fun res term => mergeStep res ((alookup str term).getD [])) res) did
        = none := by
  induction ts with
  | nil => intro res did h; exact h
  | cons t ts ih =>
    intro res did h
    rw [List.foldl_cons]
    exact ih _ did (alookup_mergeStep_none _ res did h)

/-- Chains evolve independently: folding the per-term extension over a chain
list is the map of the single-chain evolution. -/
theorem foldl_extendMergeChains_map (S : String → List Nat) (ts : List String) :
    ∀ (cs : List (List Nat)),
      ts.foldl (fun cs t => extendMergeChains cs (S t)) cs
        = cs.map (fun c => ts.foldl (fun c t =>
            if lastD c + 1 ∈ S t then c ++ [lastD c + 1] else c) c) := by
  induction ts with
  | nil =>
    intro cs
    show cs = cs.map (fun c => c)
    rw [List.map_id']
  | cons t ts ih =>
    intro cs
    rw [List.foldl_cons, ih]
    rw [show extendMergeChains cs (S t)
        = cs.map (fun c => if lastD c + 1 ∈ S t then c ++ [lastD c + 1] else c) from rfl]
    rw [List.map_map]
    apply List.map_congr_left
    intro c _
    simp only [Function.comp, List.foldl_cons]

/-- Single-chain evolution over the per-term position sets. -/
def evolveSets (S : String → List Nat) (ts : List String) (c : List Nat) : List Nat :=
  ts.foldl (fun c t => if lastD c + 1 ∈ S t then c ++ [lastD c + 1] else c) c

theorem evolveSets_length_le (S : String → List Nat) (ts : List String) :
    ∀ c, (evolveSets S ts c).length ≤ c.length + ts.length := by
  induction ts with
  | nil => intro c; simp [evolveSets]
  | cons t ts ih =>
    intro c
    show (evolveSets S ts (if lastD c + 1 ∈ S t then c ++ [lastD c + 1] else c)).length ≤ _
    by_cases h : lastD c + 1 ∈ S t
    · rw [if_pos h]
      have := ih (c ++ [lastD c + 1])
      simp only [List.length_append, List.length_cons, List.length_nil] at this ⊢
      omega
    · rw [if_neg h]
      have := ih c
      simp only [List.length_cons] at this ⊢
      omega

theorem evolveSets_good (S : String → List Nat) (ts : List String) :
    ∀ (p m : Nat), 1 ≤ m →
      (∀ k < ts.length, (p + m + k) ∈ S (ts.getD k "")) →
      evolveSets S ts (List.range' p m 1) = List.range' p (m + ts.length) 1 := by
  induction ts with
  | nil => intro p m _ _; simp [evolveSets]
  | cons t ts ih =>
    intro p m hm hok
    show evolveSets S ts (if lastD (List.range' p m 1) + 1 ∈ S t then _ else _) = _
    rw [lastD_range' p m hm]
    have harg : p + (m - 1) + 1 = p + m := by omega
    rw [harg, if_pos (by simpa using hok 0 (by simp))]
    rw [show List.range' p m 1 ++ [p + m] = List.range' p (m + 1) 1 from by
      rw [List.range'_concat]
      simp]
    rw [ih p (m + 1) (by omega) ?_]
    · congr 1
      simp only [List.length_cons]
      omega
    · intro k hk
      have := hok (k + 1) (by simp only [List.length_cons]; omega)
      simp only [List.getD_cons_succ] at this
      have harg2 : p + m + (k + 1) = p + (m + 1) + k := by omega
      rw [harg2] at this
      exact this

theorem evolveSets_bad (S : String → List Nat) (ts : List String) :
    ∀ (p m : Nat), 1 ≤ m →
      ¬ (∀ k < ts.length, (p + m + k) ∈ S (ts.getD k "")) →
      (evolveSets S ts (List.range' p m 1)).length < m + ts.length := by
  induction ts with
  | nil =>
    intro p m hm hbad
    exact absurd (fun k hk => absurd hk (by simp)) hbad
  | cons t ts ih =>
    intro p m hm hbad
    show (evolveSets S ts (if lastD (List.range' p m 1) + 1 ∈ S t then _ else _)).length < _
    rw [lastD_range' p m hm]
    have harg : p + (m - 1) + 1 = p + m := by omega
    rw [harg]
    by_cases hfirst : (p + m) ∈ S t
    · rw [if_pos hfirst]
      rw [show List.range' p m 1 ++ [p + m] = List.range' p (m + 1) 1 from by
        rw [List.range'_concat]
        simp]
      have hbad' : ¬ (∀ k < ts.length, (p + (m + 1) + k) ∈ S (ts.getD k "")) := by
        intro hok
        apply hbad
        intro k hk
        cases k with
        | zero => simpa using hfirst
        | succ k =>
          have := hok k (by simp at hk; omega)
          simp only [List.getD_cons_succ]
          have harg2 : p + m + (k + 1) = p + (m + 1) + k := by omega
          rw [harg2]
          exact this
      have := ih p (m + 1) (by omega) hbad'
      simp only [List.length_cons]
      omega
    · rw [if_neg hfirst]
      have hlen : (List.range' p m 1).length = m := by simp
      have := evolveSets_length_le S ts (List.range' p m 1)
      rw [hlen] at this
      simp only [List.length_cons]
      omega

/-- The seeded merge chain reaches full query length exactly when every
position set extension succeeds. -/
theorem evolveSets_length_iff (S : String → List Nat) (ts : List String) (p : Nat) :
    (evolveSets S ts [p]).length = ts.length + 1
      ↔ ∀ k < ts.length, (p + 1 + k) ∈ S (ts.getD k "") := by
  constructor
  · intro hlen
    by_contra hbad
    have := evolveSets_bad S ts p 1 le_rfl hbad
    rw [range'_one] at this
    omega
  · intro hok
    have := evolveSets_good S ts p 1 le_rfl hok
    rw [range'_one] at this
    rw [this]
    simp only [List.length_range']
    omega

theorem merge_fold_keys (str : List (String × List (Nat × List Nat))) (ts : List String) :
    ∀ (res : List (Nat × List (List Nat))),
      ((ts.foldl (fun res term => mergeStep res ((alookup str term).getD [])) res).map
        Prod.fst) = res.map Prod.fst := by
  induction ts with
  | nil => intro res; rfl
  | cons t ts ih =>
    intro res
    rw [List.foldl_cons, ih, mergeStep_keys]

/-- `merge_query_results`, characterized: a document matches exactly when some
seed position in the first term's set extends through every later term's set. -/
theorem mergeQueryResults_spec (qr : List ((String × String) × List (Nat × List Nat)))
    (t₀ : String) (ts : List String) (did : Nat)
    (h0 : (alookup (buildSingleTermResults qr) t₀).isSome)
    (hrest : ∀ t ∈ ts, (alookup (buildSingleTermResults qr) t).isSome) :
    ∃ out, mergeQueryResults qr (t₀ :: ts) = some out ∧
      (did ∈ out ↔ ∃ p ∈ strPos (buildSingleTermResults qr) t₀ did,
        ∀ k < ts.length,
          (p + 1 + k) ∈ strPos (buildSingleTermResults qr) (ts.getD k "") did) := by
  obtain ⟨ftr, hftr⟩ := Option.isSome_iff_exists.mp h0
  unfold mergeQueryResults
  dsimp only
  rw [hftr]
  simp only [Option.bind_eq_bind, Option.some_bind]
  rw [foldlM_merge _ ts _ hrest]
  simp only [Option.some_bind]
  refine ⟨_, rfl, ?_⟩
  have hnodup : (((ts.foldl (fun res term =>
      mergeStep res ((alookup (buildSingleTermResults qr) term).getD []))
      (ftr.map (fun dp => (dp.1, dp.2.map (fun p => [p]))))).map Prod.fst)).Nodup := by
    rw [merge_fold_keys, List.map_map]
    have hkeq : (ftr.map (Prod.fst ∘ fun dp => (dp.1, dp.2.map (fun p => [p]))))
        = ftr.map Prod.fst := by
      apply List.map_congr_left
      intro pr _
      rfl
    rw [hkeq]
    have := strWF_buildSingleTermResults qr t₀
    rw [hftr] at this
    exact this
  rw [mem_filterMap_keys _ _ did hnodup]
  have hlk0 : alookup (ftr.map (fun dp => (dp.1, dp.2.map (fun p => [p])))) did
      = (alookup ftr did).map (fun ps => ps.map (fun p => [p])) :=
    alookup_map_values ftr (fun k ps => ps.map (fun p => [p])) did
  have hstr0 : strPos (buildSingleTermResults qr) t₀ did = (alookup ftr did).getD [] := by
    unfold strPos
    rw [hftr]
    rfl
  cases hpos : alookup ftr did with
  | none =>
    rw [hpos] at hlk0
    rw [final_chains_none _ ts _ did (by rw [hlk0]; rfl)]
    rw [hpos] at hstr0
    rw [hstr0]
    simp
  | some ps0 =>
    rw [hpos] at hlk0 hstr0
    rw [final_chains _ (strWF_buildSingleTermResults qr) ts _ did _ (by rw [hlk0]; rfl)]
    rw [hstr0]
    simp only [Option.getD_some, Option.some.injEq]
    rw [foldl_extendMergeChains_map (fun t => strPos (buildSingleTermResults qr) t did) ts]
    constructor
    · rintro ⟨v, hv, hP⟩
      subst hv
      simp only [List.map_map, List.any_eq_true] at hP
      obtain ⟨c, hc, hclen⟩ := hP
      obtain ⟨p, hp, hceq⟩ := List.mem_map.mp hc
      refine ⟨p, hp, ?_⟩
      refine (evolveSets_length_iff (fun t =>
        strPos (buildSingleTermResults qr) t did) ts p).mp ?_
      show (evolveSets (fun t => strPos (buildSingleTermResults qr) t did) ts
        (([p] : List Nat))).length = ts.length + 1
      simp only [Function.comp] at hceq
      rw [show evolveSets (fun t => strPos (buildSingleTermResults qr) t did) ts [p]
          = c from hceq]
      simp only [decide_eq_true_eq] at hclen
      simpa using hclen
    · rintro ⟨p, hp, hok⟩
      refine ⟨_, rfl, ?_⟩
      simp only [List.map_map, List.any_eq_true]
      refine ⟨evolveSets (fun t => strPos (buildSingleTermResults qr) t did) ts [p],
        List.mem_map.mpr ⟨p, hp, rfl⟩, ?_⟩
      simp only [decide_eq_true_eq]
      have := (evolveSets_length_iff (fun t =>
        strPos (buildSingleTermResults qr) t did) ts p).mpr hok
      simpa using this

/-- A fetched postings dict is the canonical one of its pair over collection
`C`: sound per entry, and complete for every document with an occurrence. -/
def PdOf (C : List (Nat × List String)) (ft nt : String) (pd : List (Nat × List Nat)) : Prop :=
  (∀ dp ∈ pd, ∃ tokens, alookup C dp.1 = some tokens ∧ dp.2 = pairPositions ft nt tokens) ∧
  (∀ did tokens, alookup C did = some tokens → pairPositions ft nt tokens ≠ [] →
    alookup pd did = some (pairPositions ft nt tokens))

/-- Soundness: every position in a term's merged set is an occurrence of that
term in its document. -/
theorem strPos_sound (C : List (Nat × List String))
    (qr : List ((String × String) × List (Nat × List Nat)))
    (H1 : ∀ pr ∈ qr, PdOf C pr.1.1 pr.1.2 pr.2)
    (t : String) (ht : t ≠ "_") (did p : Nat)
    (hmem : p ∈ strPos (buildSingleTermResults qr) t did) :
    ∃ tokens, alookup C did = some tokens ∧ p < tokens.length ∧ tokens.getD p "" = t := by
  rw [strPos_buildSingleTermResults] at hmem
  obtain ⟨pr, hpr, dp, hdp, hdid, hcase⟩ := hmem
  obtain ⟨tokens, hC, hps⟩ := (H1 pr hpr).1 dp hdp
  subst hdid
  refine ⟨tokens, hC, ?_⟩
  rcases hcase with ⟨hft, hpmem⟩ | ⟨hnt, q, hq, he⟩
  · rw [hps, mem_pairPositions] at hpmem
    subst hft
    exact ⟨hpmem.1, hpmem.2.1⟩
  · rw [hps, mem_pairPositions] at hq
    subst hnt
    obtain ⟨hqlen, hqtok, hqnext⟩ := hq
    subst he
    unfold nextTok at hqnext
    by_cases hlt : q + 1 < tokens.length
    · refine ⟨hlt, ?_⟩
      rw [List.getD_eq_getElem tokens "" hlt]
      rw [List.getD_eq_getElem tokens "_" hlt] at hqnext
      exact hqnext
    · exfalso
      apply ht
      rw [List.getD_eq_default tokens "_" (by omega)] at hqnext
      exact hqnext.symm

/-- Completeness: a processed pair contributes all its pair occurrences, the
first component at the occurrence and the second one slot later. -/
theorem strPos_complete (C : List (Nat × List String))
    (qr : List ((String × String) × List (Nat × List Nat)))
    (ft nt : String) (pd : List (Nat × List Nat)) (tokens : List String) (did q : Nat)
    (hpr : ((ft, nt), pd) ∈ qr)
    (hPd : PdOf C ft nt pd)
    (hC : alookup C did = some tokens)
    (hq : q ∈ pairPositions ft nt tokens) :
    q ∈ strPos (buildSingleTermResults qr) ft did
      ∧ (q + 1) ∈ strPos (buildSingleTermResults qr) nt did := by
  have hne : pairPositions ft nt tokens ≠ [] := by
    intro hcontr
    rw [hcontr] at hq
    exact absurd hq (List.not_mem_nil q)
  have hlk := hPd.2 did tokens hC hne
  have hdp : (did, pairPositions ft nt tokens) ∈ pd := alookup_mem hlk
  constructor
  · rw [strPos_buildSingleTermResults]
    exact ⟨((ft, nt), pd), hpr, (did, pairPositions ft nt tokens), hdp, rfl,
      Or.inl ⟨rfl, hq⟩⟩
  · rw [strPos_buildSingleTermResults]
    exact ⟨((ft, nt), pd), hpr, (did, pairPositions ft nt tokens), hdp, rfl,
      Or.inr ⟨rfl, q, hq, rfl⟩⟩

theorem foldl_ainsert_fresh (ds : List DocPost) : ∀ (acc : List (Nat × List Nat)),
    (∀ d ∈ ds, alookup acc d.doc_id = none) → (ds.map (fun d => d.doc_id)).Nodup →
    ds.foldl (fun a d => ainsert a d.doc_id d.positions) acc
      = acc ++ ds.map (fun d => (d.doc_id, d.positions)) := by
  induction ds with
  | nil => intro acc _ _; simp
  | cons d ds ih =>
    intro acc hfresh hnodup
    rw [List.foldl_cons, ainsert_of_none _ (hfresh d (by simp))]
    rw [ih _ ?_ (by simpa using hnodup.of_cons)]
    · simp
    · intro d' hd'
      rw [alookup_append_of_none _ (hfresh d' (by simp [hd'])), alookup_cons]
      have hne : d.doc_id ≠ d'.doc_id := by
        simp only [List.map_cons, List.nodup_cons] at hnodup
        intro hcontr
        exact hnodup.1 (hcontr ▸ List.mem_map_of_mem (fun x => x.doc_id) hd')
      rw [if_neg hne]
      rfl

theorem hitFold_no_hit (nt : String) (pgs : List PairGroup)
    (h : ∀ g ∈ pgs, g.next_term ≠ nt) (acc : List (Nat × List Nat)) :
    pgs.foldl (fun a g => if targetHit (some nt) g.next_term = true
        then g.docs.foldl (fun a' d => ainsert a' d.doc_id d.positions) a else a) acc
      = acc := by
  induction pgs generalizing acc with
  | nil => rfl
  | cons g pgs ih =>
    rw [List.foldl_cons]
    rw [if_neg (show ¬ targetHit (some nt) g.next_term = true from by
      rw [show targetHit (some nt) g.next_term = decide (g.next_term = nt) from rfl]
      simp [h g (by simp)])]
    exact ih (fun g' hg' => h g' (List.mem_cons_of_mem _ hg')) acc

/-- With duplicate-free next terms, the hit fold decodes exactly the matching
group (or nothing). -/
theorem hitFold_eq_find (nt : String) (pgs : List PairGroup)
    (hnodup : (pgs.map (fun g => g.next_term)).Nodup)
    (hdocs : ∀ g ∈ pgs, (g.docs.map (fun d => d.doc_id)).Nodup) :
    pgs.foldl (fun a g => if targetHit (some nt) g.next_term = true
        then g.docs.foldl (fun a' d => ainsert a' d.doc_id d.positions) a else a) []
      = match pgs.find? (fun g => g.next_term = nt) with
        | some g => g.docs.map (fun d => (d.doc_id, d.positions))
        | none => [] := by
  induction pgs with
  | nil => rfl
  | cons g pgs ih =>
    rw [List.foldl_cons]
    by_cases hg : g.next_term = nt
    · rw [if_pos (show targetHit (some nt) g.next_term = true from by
        rw [show targetHit (some nt) g.next_term = decide (g.next_term = nt) from rfl]
        simp [hg])]
      rw [List.find?_cons_of_pos _ (by simp [hg])]
      rw [foldl_ainsert_fresh g.docs [] (fun d _ => rfl) (hdocs g (by simp))]
      rw [List.nil_append]
      have hnone : ∀ g' ∈ pgs, g'.next_term ≠ nt := by
        intro g' hg' hcontr
        rw [List.map_cons, List.nodup_cons] at hnodup
        exact hnodup.1 (hg ▸ hcontr ▸ List.mem_map_of_mem (fun x => x.next_term) hg')
      exact hitFold_no_hit nt pgs hnone _
    · rw [if_neg (show ¬ targetHit (some nt) g.next_term = true from by
        rw [show targetHit (some nt) g.next_term = decide (g.next_term = nt) from rfl]
        simp [hg])]
      rw [List.find?_cons_of_neg _ (by simp [hg])]
      exact ih (by rw [List.map_cons, List.nodup_cons] at hnodup; exact hnodup.2)
        (fun g' hg' => hdocs g' (List.mem_cons_of_mem _ hg'))

theorem alookup_map_docs_eq {β : Type} (docs : List DocPost) (f : DocPost → β) (did : Nat)
    (hnd : (docs.map (fun d => d.doc_id)).Nodup) (d : DocPost) (hd : d ∈ docs)
    (hid : d.doc_id = did) :
    alookup (docs.map (fun d => (d.doc_id, f d))) did = some (f d) := by
  induction docs with
  | nil => exact absurd hd (List.not_mem_nil d)
  | cons d₀ docs ih =>
    rw [List.map_cons, alookup_cons]
    rw [List.map_cons, List.nodup_cons] at hnd
    rcases List.mem_cons.mp hd with hd | hd
    · subst hd
      rw [if_pos hid]
    · have hne : d₀.doc_id ≠ did := by
        intro hcontr
        exact hnd.1 ((hcontr.trans hid.symm) ▸ List.mem_map_of_mem (fun x => x.doc_id) hd)
      rw [if_neg hne]
      exact ih hnd.2 hd

/-- The postings dict fetched for any pair `(ft, nt)` from a built biword index
is the canonical one over the collection. -/
theorem built_pd (C : List (Nat × List String)) (tgs : List NWTermGroup)
    (hSO : NWStreamOf C tgs) (s' : NWState)
    (hIds : IdsOk s')
    (hterms : s'.terms = nwLexiconAux (idOfS s') 0 tgs)
    (hstore : s'.store = encodeNWStream (idOfS s') tgs)
    (hmem : ∀ tg' ∈ tgs, ∀ g ∈ tg'.groups, (alookup s'.term_ids_inv g.next_term).isSome)
    (ft nt : String) :
    ∃ pd, findPostings s'.terms s'.term_ids s'.store ft (some nt) = some pd
      ∧ PdOf C ft nt pd := by
  obtain ⟨hWF, hsound, hcomplete⟩ := hSO
  by_cases hft : ft ∈ tgs.map (fun tg => tg.first_term)
  · obtain ⟨tg, htg, htgft⟩ := List.mem_map.mp hft
    obtain ⟨tgs₁, tgs₂, hsplit⟩ := List.append_of_mem htg
    subst hsplit
    subst htgft
    have htgmem : tg ∈ tgs₁ ++ tg :: tgs₂ := by simp
    obtain ⟨hgne, hgnodup, hdocsfacts⟩ := hWF.2.2 tg htgmem
    refine ⟨_, findPostings_spec s' tgs₁ tg tgs₂ (some nt)
      hIds hterms hstore hmem hWF.2.1, ?_⟩
    rw [hitFold_eq_find nt tg.groups hgnodup (fun g hg => (hdocsfacts g hg).2.1)]
    cases hfind : tg.groups.find? (fun g => g.next_term = nt) with
    | some g =>
      have hgmem : g ∈ tg.groups := List.mem_of_find?_eq_some hfind
      have hgnt : g.next_term = nt := by simpa using List.find?_some hfind
      constructor
      · intro dp hdp
        obtain ⟨d, hd, hdp_eq⟩ := List.mem_map.mp hdp
        subst hdp_eq
        have hrec := hsound tg htgmem g hgmem d hd
        unfold NWDocRec at hrec
        cases hC : alookup C d.doc_id with
        | none => rw [hC] at hrec; exact absurd hrec (by simp)
        | some tokens =>
          rw [hC] at hrec
          exact ⟨tokens, rfl, by rw [← hgnt]; exact hrec.1⟩
      · intro did tokens hC hne
        obtain ⟨i, hi⟩ := List.exists_mem_of_ne_nil _ hne
        rw [mem_pairPositions] at hi
        obtain ⟨tg', htg', hft', g', hg', hnt', d, hd, hdid⟩ :=
          hcomplete (did, tokens) (alookup_mem hC) i hi.1
        have htgeq : tg' = tg :=
          List.inj_on_of_nodup_map hWF.2.1 htg' htgmem (hft'.trans hi.2.1)
        have hgeq : g' = g :=
          List.inj_on_of_nodup_map hgnodup (htgeq ▸ hg') hgmem
            ((hnt'.trans hi.2.2).trans hgnt.symm)
        have hd' : d ∈ g.docs := hgeq ▸ hd
        have hlk : alookup (g.docs.map (fun d => (d.doc_id, d.positions))) did
            = some d.positions :=
          alookup_map_docs_eq g.docs (fun d => d.positions) did
            (hdocsfacts g hgmem).2.1 d hd' hdid
        rw [hlk]
        have hrec := hsound tg htgmem g hgmem d hd'
        unfold NWDocRec at hrec
        rw [hdid, hC] at hrec
        rw [hrec.1, hgnt]
    | none =>
      constructor
      · intro dp hdp
        exact absurd hdp (List.not_mem_nil dp)
      · intro did tokens hC hne
        exfalso
        obtain ⟨i, hi⟩ := List.exists_mem_of_ne_nil _ hne
        rw [mem_pairPositions] at hi
        obtain ⟨tg', htg', hft', g', hg', hnt', _⟩ :=
          hcomplete (did, tokens) (alookup_mem hC) i hi.1
        have htgeq : tg' = tg :=
          List.inj_on_of_nodup_map hWF.2.1 htg' htgmem (hft'.trans hi.2.1)
        have hnohit := List.find?_eq_none.mp hfind g' (htgeq ▸ hg')
        simp only [decide_eq_true_eq] at hnohit
        exact hnohit (hnt'.trans hi.2.2)
  · refine ⟨[], ?_, ?_, ?_⟩
    · unfold findPostings
      rw [hterms, nwLexicon_lookup_of_notMem (idOfS s') tgs 0 ft hft]
    · intro dp hdp
      exact absurd hdp (List.not_mem_nil dp)
    · intro did tokens hC hne
      exfalso
      obtain ⟨i, hi⟩ := List.exists_mem_of_ne_nil _ hne
      rw [mem_pairPositions] at hi
      obtain ⟨tg', htg', hft', _⟩ := hcomplete (did, tokens) (alookup_mem hC) i hi.1
      exact hft (List.mem_map.mpr ⟨tg', htg', hft'.trans hi.2.1⟩)

/-- `merge_query_results` over any fetched pair set that is canonical (`H1`)
and covers every query position (`H2`) returns exactly the phrase matches. -/
theorem nwMergeMaster (C : List (Nat × List String))
    (qr : List ((String × String) × List (Nat × List Nat)))
    (t₀ t₁ : String) (rest : List String) (did : Nat)
    (hterms_ : ∀ t ∈ t₀ :: t₁ :: rest, t ≠ "_")
    (H1 : ∀ pr ∈ qr, PdOf C pr.1.1 pr.1.2 pr.2 ∧ pr.2 ≠ [])
    (H2 : ∀ i ≤ (t₁ :: rest).length, ∃ j, j < (t₁ :: rest).length ∧ (i = j ∨ i = j + 1) ∧
      ∃ pd, (((t₀ :: t₁ :: rest).getD j "", (t₀ :: t₁ :: rest).getD (j + 1) ""), pd) ∈ qr) :
    ∃ out, mergeQueryResults qr (t₀ :: t₁ :: rest) = some out ∧
      (did ∈ out ↔ ∃ tokens, alookup C did = some tokens ∧
        ∃ p, phraseAt (t₀ :: t₁ :: rest) tokens p) := by
  have hkey : ∀ i ≤ (t₁ :: rest).length,
      (alookup (buildSingleTermResults qr) ((t₀ :: t₁ :: rest).getD i "")).isSome := by
    intro i hi
    obtain ⟨j, hj, hij, pd, hpd⟩ := H2 i hi
    unfold buildSingleTermResults
    rw [isSome_buildSingleTermResults]
    refine Or.inr ⟨_, hpd, (H1 _ hpd).2, ?_⟩
    rcases hij with hij | hij
    · exact Or.inl (by rw [hij])
    · exact Or.inr (by rw [hij])
  obtain ⟨out, hout, hiff⟩ := mergeQueryResults_spec qr t₀ (t₁ :: rest) did
    (by simpa using hkey 0 (by omega))
    (by intro t htmem
        obtain ⟨k, hk, hkeq⟩ := List.mem_iff_getElem.mp htmem
        have := hkey (k + 1) (by simp only [List.length_cons] at hk ⊢; omega)
        rw [show ((t₀ :: t₁ :: rest).getD (k + 1) "") = ((t₁ :: rest).getD k "") from by
          simp [List.getD_cons_succ]] at this
        rw [show ((t₁ :: rest).getD k "") = t from by
          rw [List.getD_eq_getElem _ _ hk]
          exact hkeq] at this
        exact this)
  refine ⟨out, hout, hiff.trans ?_⟩
  constructor
  · rintro ⟨p, hp0, hok⟩
    obtain ⟨tokens, hC, hplen, hptok⟩ := strPos_sound C qr (fun pr hpr => (H1 pr hpr).1)
      t₀ (hterms_ t₀ (by simp)) did p hp0
    refine ⟨tokens, hC, p, ?_⟩
    intro i hi
    cases i with
    | zero =>
      constructor
      · simpa using hplen
      · simpa using hptok
    | succ k =>
      have hk : k < (t₁ :: rest).length := by
        simp only [List.length_cons] at hi ⊢
        omega
      have hmem := hok k hk
      have htk : (t₁ :: rest).getD k "" ≠ "_" :=
        hterms_ _ (List.mem_cons_of_mem _ (getD_mem_of_lt _ _ hk))
      obtain ⟨tokens', hC', hlen', htok'⟩ := strPos_sound C qr (fun pr hpr => (H1 pr hpr).1)
        _ htk did (p + 1 + k) hmem
      rw [hC] at hC'
      injection hC' with he
      subst he
      constructor
      · rw [show p + (k + 1) = p + 1 + k from by omega]
        exact hlen'
      · rw [show p + (k + 1) = p + 1 + k from by omega]
        simp only [List.getD_cons_succ]
        exact htok'
  · rintro ⟨tokens, hC, p, hph⟩
    have hcoverpos : ∀ i, i ≤ (t₁ :: rest).length →
        (p + i) ∈ strPos (buildSingleTermResults qr) ((t₀ :: t₁ :: rest).getD i "") did := by
      intro i hi
      obtain ⟨j, hj, hij, pd, hpd⟩ := H2 i hi
      have hjlt : j < (t₀ :: t₁ :: rest).length := by
        simp only [List.length_cons] at hj ⊢
        omega
      have hj1lt : j + 1 < (t₀ :: t₁ :: rest).length := by
        simp only [List.length_cons] at hj ⊢
        omega
      have h1 := hph j hjlt
      have h2 := hph (j + 1) hj1lt
      have hq : (p + j) ∈ pairPositions ((t₀ :: t₁ :: rest).getD j "")
          ((t₀ :: t₁ :: rest).getD (j + 1) "") tokens := by
        rw [mem_pairPositions]
        refine ⟨h1.1, h1.2, ?_⟩
        unfold nextTok
        rw [show p + j + 1 = p + (j + 1) from rfl]
        rw [List.getD_eq_getElem tokens "_" h2.1, ← List.getD_eq_getElem tokens "" h2.1]
        exact h2.2
      have hcomp := strPos_complete C qr _ _ pd tokens did (p + j) hpd (H1 _ hpd).1 hC hq
      rcases hij with hij | hij
      · rw [hij]
        exact hcomp.1
      · rw [hij, show p + (j + 1) = (p + j) + 1 from by omega]
        exact hcomp.2
    refine ⟨p, ?_, ?_⟩
    · simpa using hcoverpos 0 (by omega)
    · intro k hk
      have := hcoverpos (k + 1) (by simp only [List.length_cons] at hk ⊢; omega)
      rw [show p + (k + 1) = p + 1 + k from by omega] at this
      simpa using this

/-! ## `setup_term_pairs` and the fetch loop -/

theorem alookup_isSome_iff_mem_keys {κ β : Type} [DecidableEq κ] (l : List (κ × β)) (k : κ) :
    (alookup l k).isSome ↔ k ∈ l.map Prod.fst := by
  induction l with
  | nil => simp [alookup]
  | cons p l ih =>
    rw [show p = (p.1, p.2) from rfl, alookup_cons]
    by_cases h : p.1 = k
    · subst h
      simp
    · rw [if_neg h]
      simp [ih, Ne.symm h]

theorem mem_sortDescBy {α : Type} (key : α → Nat) (l : List α) (a : α) :
    a ∈ sortDescBy key l ↔ a ∈ l := by
  unfold sortDescBy
  have haux : ∀ (xs : List α) (acc : List α),
      a ∈ xs.foldl (fun acc x => insertDescBy key x acc) acc ↔ a ∈ acc ∨ a ∈ xs := by
    intro xs
    induction xs with
    | nil => intro acc; simp
    | cons x xs ih =>
      intro acc
      rw [List.foldl_cons, ih, mem_insertDescBy]
      constructor
      · rintro ((h | h) | h)
        · exact Or.inr (by simp [h])
        · exact Or.inl h
        · exact Or.inr (by simp [h])
      · rintro (h | h)
        · exact Or.inl (Or.inr h)
        · rcases List.mem_cons.mp h with h | h
          · exact Or.inl (Or.inl h)
          · exact Or.inr h
  rw [haux l []]
  simp

theorem setupPairsLoop_some_elim (lex : List (String × NWEntry))
    (prs : List (String × String)) :
    ∀ (uniq u : List ((String × String) × Nat)) (qtps₀ q : List (String × String)),
      setupPairsLoop lex prs uniq qtps₀ = some (u, q) →
      q = qtps₀ ++ prs ∧
        (∀ pr ∈ prs, (alookup lex pr.1).isSome ∧ (alookup lex pr.2).isSome) ∧
        ∀ tp, tp ∈ u.map Prod.fst ↔ tp ∈ uniq.map Prod.fst ∨ tp ∈ prs := by
  induction prs with
  | nil =>
    intro uniq u qtps₀ q h
    unfold setupPairsLoop at h
    injection h with h
    injection h with h1 h2
    subst h1
    subst h2
    simp
  | cons pr prs ih =>
    intro uniq u qtps₀ q h
    rw [show pr = (pr.1, pr.2) from rfl] at h
    unfold setupPairsLoop at h
    cases h1 : alookup lex pr.1 with
    | none => rw [h1] at h; exact absurd h (by simp)
    | some e =>
      cases h2 : alookup lex pr.2 with
      | none => rw [h1, h2] at h; exact absurd h (by simp)
      | some e' =>
        rw [h1, h2] at h
        obtain ⟨hq, hpres, hkeys⟩ := ih _ _ _ _ h
        refine ⟨?_, ?_, ?_⟩
        · rw [hq, List.append_assoc]
          rfl
        · intro pr' hpr'
          rcases List.mem_cons.mp hpr' with hpr' | hpr'
          · subst hpr'
            exact ⟨by rw [h1]; rfl, by rw [h2]; rfl⟩
          · exact hpres pr' hpr'
        · intro tp
          rw [hkeys tp, ← alookup_isSome_iff_mem_keys, alookup_ainsert_isSome,
            alookup_isSome_iff_mem_keys]
          constructor
          · rintro ((h | h) | h)
            · exact Or.inl h
            · exact Or.inr (by simp [h])
            · exact Or.inr (by simp [h])
          · rintro (h | h)
            · exact Or.inl (Or.inl h)
            · rcases List.mem_cons.mp h with h | h
              · exact Or.inl (Or.inr (by simp [h]))
              · exact Or.inr h

theorem setupPairsLoop_isSome (lex : List (String × NWEntry))
    (prs : List (String × String)) :
    ∀ (uniq : List ((String × String) × Nat)) (qtps₀ : List (String × String)),
      (∀ pr ∈ prs, (alookup lex pr.1).isSome ∧ (alookup lex pr.2).isSome) →
      (setupPairsLoop lex prs uniq qtps₀).isSome := by
  induction prs with
  | nil => intro uniq qtps₀ _; simp [setupPairsLoop]
  | cons pr prs ih =>
    intro uniq qtps₀ hall
    obtain ⟨e, he⟩ := Option.isSome_iff_exists.mp (hall pr (by simp)).1
    obtain ⟨e', he'⟩ := Option.isSome_iff_exists.mp (hall pr (by simp)).2
    rw [show pr = (pr.1, pr.2) from rfl]
    unfold setupPairsLoop
    rw [he, he']
    exact ih _ _ (fun pr' hpr' => hall pr' (List.mem_cons_of_mem _ hpr'))

theorem setupTermPairs_some_elim (lex : List (String × NWEntry)) (terms : List String)
    (ordered : List ((String × String) × Nat)) (qtps : List (String × String))
    (covered : List Bool)
    (h : setupTermPairs lex terms = some (ordered, qtps, covered)) :
    qtps = terms.zip terms.tail ∧ covered = List.replicate terms.length false ∧
      (∀ pr ∈ terms.zip terms.tail,
        (alookup lex pr.1).isSome ∧ (alookup lex pr.2).isSome) ∧
      ∀ tp, tp ∈ ordered.map Prod.fst ↔ tp ∈ terms.zip terms.tail := by
  unfold setupTermPairs at h
  cases hloop : setupPairsLoop lex (terms.zip terms.tail) [] [] with
  | none => rw [hloop] at h; exact absurd h (by simp)
  | some uq =>
    rw [hloop] at h
    rw [show (some uq).map (fun pr => (sortDescBy (fun x => x.2) pr.1, pr.2,
      List.replicate terms.length false)) = some (sortDescBy (fun x => x.2) uq.1, uq.2,
      List.replicate terms.length false) from rfl] at h
    injection h with h
    injection h with h1 h
    injection h with h2 h3
    obtain ⟨hq, hpres, hkeys⟩ := setupPairsLoop_some_elim lex (terms.zip terms.tail) []
      uq.1 [] uq.2 (by rw [← hloop])
    refine ⟨?_, h3.symm, hpres, ?_⟩
    · rw [← h2, hq]
      rfl
    intro tp
    rw [← h1, List.mem_map]
    constructor
    · rintro ⟨x, hx, he⟩
      rw [mem_sortDescBy] at hx
      have := (hkeys tp).mp (List.mem_map.mpr ⟨x, hx, he⟩)
      simpa using this
    · intro htp
      obtain ⟨x, hx, he⟩ := List.mem_map.mp ((hkeys tp).mpr (Or.inr htp))
      exact ⟨x, (mem_sortDescBy _ _ _).mpr hx, he⟩

theorem zip_tail_getD (ts : List String) (i : Nat) (h : i < (ts.zip ts.tail).length) :
    (ts.zip ts.tail).getD i ("", "") = (ts.getD i "", ts.getD (i + 1) "") := by
  have hlen : (ts.zip ts.tail).length = ts.length - 1 := by
    rw [List.length_zip, List.length_tail]
    omega
  have h1 : i < ts.length := by omega
  have h2 : i + 1 < ts.length := by omega
  have h3 : i < ts.tail.length := by rw [List.length_tail]; omega
  rw [List.getD_eq_getElem _ _ h, List.getElem_zip, List.getD_eq_getElem _ _ h1,
    List.getD_eq_getElem _ _ h2]
  exact congrArg _ (List.getElem_tail ts i h3)

theorem getD_set_bool (l : List Bool) (i j : Nat) (b : Bool) :
    (l.set i b).getD j false = if i = j ∧ i < l.length then b else l.getD j false := by
  by_cases h : i = j ∧ i < l.length
  · rw [if_pos h]
    obtain ⟨he, hl⟩ := h
    subst he
    rw [List.getD_eq_getElem?_getD, List.getElem?_set_self (by omega)]
    simp
  · rw [if_neg h]
    rcases Decidable.not_and_iff_or_not.mp h with h | h
    · rw [List.getD_eq_getElem?_getD, List.getElem?_set_ne h, ← List.getD_eq_getElem?_getD]
    · rw [List.set_eq_of_length_le (by omega)]

theorem updateCovered_length (covered : List Bool) (qtps : List (String × String))
    (tp : String × String) : (updateCovered covered qtps tp).length = covered.length := by
  unfold updateCovered
  have haux : ∀ (L : List Nat) (c : List Bool),
      (L.foldl (fun cov idx => if qtps.getD idx ("", "") = tp
          then (cov.set idx true).set (idx + 1) true else cov) c).length = c.length := by
    intro L
    induction L with
    | nil => intro c; rfl
    | cons idx L ih =>
      intro c
      rw [List.foldl_cons, ih]
      by_cases hc : qtps.getD idx ("", "") = tp
      · rw [if_pos hc]
        simp
      · rw [if_neg hc]
  exact haux _ _

theorem foldSet_getD (qtps : List (String × String)) (tp : String × String) (L : List Nat) :
    ∀ (c : List Bool) (j : Nat), (∀ idx ∈ L, idx + 1 < c.length) →
      ((L.foldl (fun cov idx => if qtps.getD idx ("", "") = tp
            then (cov.set idx true).set (idx + 1) true else cov) c).getD j false = true
        ↔ c.getD j false = true
          ∨ ∃ idx ∈ L, qtps.getD idx ("", "") = tp ∧ (j = idx ∨ j = idx + 1)) := by
  induction L with
  | nil => intro c j _; simp
  | cons idx L ih =>
    intro c j hbnd
    rw [List.foldl_cons]
    by_cases hc : qtps.getD idx ("", "") = tp
    · rw [if_pos hc]
      have hb := hbnd idx (by simp)
      have hlen : ((c.set idx true).set (idx + 1) true).length = c.length := by simp
      rw [ih _ j (fun idx' h' => by rw [hlen]; exact hbnd idx' (List.mem_cons_of_mem _ h'))]
      rw [getD_set_bool, getD_set_bool]
      constructor
      · rintro (h | h)
        · by_cases h1 : idx + 1 = j ∧ idx + 1 < (c.set idx true).length
          · exact Or.inr ⟨idx, by simp, hc, Or.inr (by omega)⟩
          · rw [if_neg h1] at h
            by_cases h2 : idx = j ∧ idx < c.length
            · exact Or.inr ⟨idx, by simp, hc, Or.inl (by omega)⟩
            · rw [if_neg h2] at h
              exact Or.inl h
        · obtain ⟨idx', h', hq, hj⟩ := h
          exact Or.inr ⟨idx', List.mem_cons_of_mem _ h', hq, hj⟩
      · rintro (h | ⟨idx', h', hq, hj⟩)
        · left
          by_cases h1 : idx + 1 = j ∧ idx + 1 < (c.set idx true).length
          · rw [if_pos h1]
          · rw [if_neg h1]
            by_cases h2 : idx = j ∧ idx < c.length
            · rw [if_pos h2]
            · rw [if_neg h2]
              exact h
        · rcases List.mem_cons.mp h' with h' | h'
          · have hji : j = idx ∨ j = idx + 1 := by rw [← h']; exact hj
            left
            rcases hji with hj2 | hj2
            · by_cases h1 : idx + 1 = j ∧ idx + 1 < (c.set idx true).length
              · rw [if_pos h1]
              · rw [if_neg h1, if_pos ⟨hj2.symm, by omega⟩]
            · rw [if_pos ⟨hj2.symm, by simpa using hb⟩]
          · exact Or.inr ⟨idx', h', hq, hj⟩
    · rw [if_neg hc]
      rw [ih _ j (fun idx' h' => hbnd idx' (List.mem_cons_of_mem _ h'))]
      constructor
      · rintro (h | ⟨idx', h', hq, hj⟩)
        · exact Or.inl h
        · exact Or.inr ⟨idx', List.mem_cons_of_mem _ h', hq, hj⟩
      · rintro (h | ⟨idx', h', hq, hj⟩)
        · exact Or.inl h
        · rcases List.mem_cons.mp h' with h' | h'
          · exact absurd (h' ▸ hq) hc
          · exact Or.inr ⟨idx', h', hq, hj⟩

/-- Where the true bits of `covered` may appear after processing `tp`. -/
theorem updateCovered_getD (covered : List Bool) (qtps : List (String × String))
    (tp : String × String) (j : Nat) (hlen : covered.length = qtps.length + 1) :
    ((updateCovered covered qtps tp).getD j false = true
      ↔ covered.getD j false = true
        ∨ ∃ i, i < qtps.length ∧ qtps.getD i ("", "") = tp ∧ (j = i ∨ j = i + 1)) := by
  unfold updateCovered
  rw [foldSet_getD qtps tp (List.range qtps.length) covered j
    (fun idx h => by rw [hlen]; have := List.mem_range.mp h; omega)]
  constructor
  · rintro (h | ⟨idx, hidx, hq, hj⟩)
    · exact Or.inl h
    · exact Or.inr ⟨idx, List.mem_range.mp hidx, hq, hj⟩
  · rintro (h | ⟨idx, hidx, hq, hj⟩)
    · exact Or.inl h
    · exact Or.inr ⟨idx, List.mem_range.mpr hidx, hq, hj⟩

theorem fetchPairs_nil_eq (lex : List (String × NWEntry)) (ids : List (Nat × String))
    (store : List Nat) (qtps : List (String × String)) (covered : List Bool)
    (acc : List ((String × String) × List (Nat × List Nat))) :
    fetchPairs lex ids store qtps [] covered acc = .done acc [] := rfl

theorem fetchPairs_cons_some (lex : List (String × NWEntry)) (ids : List (Nat × String))
    (store : List Nat) (qtps : List (String × String)) (tp : String × String)
    (rest : List (String × String)) (covered : List Bool)
    (acc : List ((String × String) × List (Nat × List Nat)))
    (pd : List (Nat × List Nat))
    (hfp : findPostings lex ids store tp.1 (some tp.2) = some pd) :
    fetchPairs lex ids store qtps (tp :: rest) covered acc
      = if pd = [] then .unmatchable
        else if (updateCovered covered qtps tp).all (fun b => b = true)
          then .done (ainsert acc tp pd) rest
          else fetchPairs lex ids store qtps rest (updateCovered covered qtps tp)
            (ainsert acc tp pd) := by
  rw [fetchPairs, hfp]

/-- The fetch loop over a built biword index never crashes; on `done` the
accumulated pair results are canonical and every query position is covered by
an accumulated pair; `unmatchable` exhibits a pending pair with no occurrence
anywhere in the collection. -/
theorem fetchPairs_spec (C : List (Nat × List String)) (tgs : List NWTermGroup)
    (hSO : NWStreamOf C tgs) (s' : NWState)
    (hIds : IdsOk s')
    (hterms : s'.terms = nwLexiconAux (idOfS s') 0 tgs)
    (hstore : s'.store = encodeNWStream (idOfS s') tgs)
    (hmem : ∀ tg' ∈ tgs, ∀ g ∈ tg'.groups, (alookup s'.term_ids_inv g.next_term).isSome)
    (qtps : List (String × String)) (hq1 : 1 ≤ qtps.length) :
    ∀ (pend : List (String × String)) (covered : List Bool)
      (acc : List ((String × String) × List (Nat × List Nat))),
      covered.length = qtps.length + 1 →
      (∀ pr ∈ acc, PdOf C pr.1.1 pr.1.2 pr.2 ∧ pr.2 ≠ []) →
      (∀ j < qtps.length + 1, covered.getD j false = true →
        ∃ i, i < qtps.length ∧ (j = i ∨ j = i + 1) ∧
          (alookup acc (qtps.getD i ("", ""))).isSome) →
      (∀ tp ∈ qtps, tp ∈ pend ∨ (alookup acc tp).isSome) →
      fetchPairs s'.terms s'.term_ids s'.store qtps pend covered acc ≠ .crash
      ∧ (∀ qr rem,
          fetchPairs s'.terms s'.term_ids s'.store qtps pend covered acc = .done qr rem →
          (∀ pr ∈ qr, PdOf C pr.1.1 pr.1.2 pr.2 ∧ pr.2 ≠ []) ∧
          ∀ j < qtps.length + 1, ∃ i, i < qtps.length ∧ (j = i ∨ j = i + 1) ∧
            ∃ pd, ((qtps.getD i ("", "")), pd) ∈ qr)
      ∧ (fetchPairs s'.terms s'.term_ids s'.store qtps pend covered acc = .unmatchable →
          ∃ tp ∈ pend, ∀ d tokens, alookup C d = some tokens →
            pairPositions tp.1 tp.2 tokens = []) := by
  intro pend
  induction pend with
  | nil =>
    intro covered acc hlen hacc hcov hcomp
    refine ⟨by rw [fetchPairs_nil_eq]; simp, ?_, ?_⟩
    · intro qr rem hdone
      rw [fetchPairs_nil_eq] at hdone
      injection hdone with h1 h2
      subst h1
      refine ⟨hacc, ?_⟩
      intro j hj
      by_cases hjl : j < qtps.length
      · have := hcomp (qtps.getD j ("", "")) (getD_mem_of_lt _ _ hjl)
        rcases this with h | h
        · exact absurd h (List.not_mem_nil _)
        · obtain ⟨pd, hpd⟩ := Option.isSome_iff_exists.mp h
          exact ⟨j, hjl, Or.inl rfl, pd, alookup_mem hpd⟩
      · have hil : qtps.length - 1 < qtps.length := by omega
        have := hcomp (qtps.getD (qtps.length - 1) ("", "")) (getD_mem_of_lt _ _ hil)
        rcases this with h | h
        · exact absurd h (List.not_mem_nil _)
        · obtain ⟨pd, hpd⟩ := Option.isSome_iff_exists.mp h
          exact ⟨qtps.length - 1, hil, Or.inr (by omega), pd, alookup_mem hpd⟩
    · intro hun
      rw [fetchPairs_nil_eq] at hun
      exact absurd hun (by simp)
  | cons tp rest ih =>
    intro covered acc hlen hacc hcov hcomp
    obtain ⟨pd, hfp, hPd⟩ := built_pd C tgs hSO s' hIds hterms hstore hmem tp.1 tp.2
    rw [fetchPairs_cons_some _ _ _ _ _ _ _ _ _ hfp]
    by_cases hpd : pd = []
    · rw [if_pos hpd]
      refine ⟨by simp, ?_, ?_⟩
      · intro qr rem h
        exact absurd h (by simp)
      · intro _
        refine ⟨tp, by simp, ?_⟩
        intro d tokens hC
        by_contra hne
        have := hPd.2 d tokens hC hne
        rw [hpd] at this
        exact absurd this (by simp [alookup])
    · rw [if_neg hpd]
      have hacc' : ∀ pr ∈ ainsert acc tp pd, PdOf C pr.1.1 pr.1.2 pr.2 ∧ pr.2 ≠ [] := by
        intro pr hpr
        rcases mem_ainsert_elim hpr with hpr | hpr
        · exact hacc pr hpr
        · rw [hpr]
          exact ⟨hPd, hpd⟩
      have hcovgetD : ∀ j, j < qtps.length + 1 →
          (updateCovered covered qtps tp).getD j false = true →
          ∃ i, i < qtps.length ∧ (j = i ∨ j = i + 1) ∧
            (alookup (ainsert acc tp pd) (qtps.getD i ("", ""))).isSome := by
        intro j hj hup
        rcases (updateCovered_getD covered qtps tp j hlen).mp hup with hold | ⟨i, hi, hqi, hji⟩
        · obtain ⟨i, hi, hji, hsome⟩ := hcov j hj hold
          exact ⟨i, hi, hji, (alookup_ainsert_isSome _ _ _ _).mpr (Or.inl hsome)⟩
        · refine ⟨i, hi, hji, ?_⟩
          rw [hqi, alookup_ainsert_self]
          rfl
      by_cases hall : (updateCovered covered qtps tp).all (fun b => b = true) = true
      · rw [if_pos hall]
        refine ⟨by simp, ?_, ?_⟩
        · intro qr rem hdone
          injection hdone with h1 h2
          subst h1
          refine ⟨hacc', ?_⟩
          intro j hj
          have hjl : j < (updateCovered covered qtps tp).length := by
            rw [updateCovered_length]
            omega
          have hbit : (updateCovered covered qtps tp).getD j false = true :=
            of_decide_eq_true (List.all_eq_true.mp hall _ (getD_mem_of_lt _ false hjl))
          obtain ⟨i, hi, hji, hsome⟩ := hcovgetD j hj hbit
          obtain ⟨pd', hpd'⟩ := Option.isSome_iff_exists.mp hsome
          exact ⟨i, hi, hji, pd', alookup_mem hpd'⟩
        · intro h
          exact absurd h (by simp)
      · rw [if_neg hall]
        have hres := ih (updateCovered covered qtps tp) (ainsert acc tp pd)
          (by rw [updateCovered_length]; exact hlen) hacc' (fun j hj => hcovgetD j hj)
          (fun tp' htp' => by
            rcases hcomp tp' htp' with h | h
            · rcases List.mem_cons.mp h with h | h
              · subst h
                exact Or.inr (by rw [alookup_ainsert_self]; rfl)
              · exact Or.inl h
            · exact Or.inr ((alookup_ainsert_isSome _ _ _ _).mpr (Or.inl h)))
        refine ⟨hres.1, hres.2.1, ?_⟩
        intro hun
        obtain ⟨tp', htp', hprop⟩ := hres.2.2 hun
        exact ⟨tp', List.mem_cons_of_mem _ htp', hprop⟩

theorem getD_replicate_false (n j : Nat) : (List.replicate n false).getD j false = false := by
  rw [List.getD_eq_getElem?_getD, List.getElem?_replicate]
  by_cases h : j < n <;> simp [h]

/-- A phrase occurrence at `p` puts `p + i` among the pair positions of the
`i`-th adjacent query pair. -/
theorem phraseAt_pair_mem (terms tokens : List String) (p i : Nat)
    (hph : phraseAt terms tokens p) (hi : i + 1 < terms.length) :
    p + i ∈ pairPositions (terms.getD i "") (terms.getD (i + 1) "") tokens := by
  have h1 := hph i (by omega)
  have h2 := hph (i + 1) hi
  rw [mem_pairPositions]
  refine ⟨h1.1, h1.2, ?_⟩
  unfold nextTok
  rw [show p + i + 1 = p + (i + 1) from by omega]
  rw [List.getD_eq_getElem tokens "_" h2.1, ← List.getD_eq_getElem tokens "" h2.1]
  exact h2.2

/-- Every token of a document of the collection is the first term of some
stream group. -/
theorem term_in_firsts (C : List (Nat × List String)) (tgs : List NWTermGroup)
    (hSO : NWStreamOf C tgs) (did : Nat) (tokens : List String)
    (hC : alookup C did = some tokens) (k : Nat) (hk : k < tokens.length) :
    tokens.getD k "" ∈ tgs.map (fun tg => tg.first_term) := by
  obtain ⟨tg, htg, hft, _⟩ := hSO.2.2 (did, tokens) (alookup_mem hC) k hk
  exact List.mem_map.mpr ⟨tg, htg, hft⟩

/-- The biword resolver on a built index answers every multi-term query with
exactly the documents containing the phrase. -/
theorem nwGDM_master (C : List (Nat × List String)) (tgs : List NWTermGroup)
    (hSO : NWStreamOf C tgs) (s' : NWState)
    (hIds : IdsOk s')
    (hterms : s'.terms = nwLexiconAux (idOfS s') 0 tgs)
    (hstore : s'.store = encodeNWStream (idOfS s') tgs)
    (hmem : ∀ tg' ∈ tgs, ∀ g ∈ tg'.groups, (alookup s'.term_ids_inv g.next_term).isSome)
    (t₀ t₁ : String) (rest' : List String) (did : Nat)
    (hus : ∀ t ∈ t₀ :: t₁ :: rest', t ≠ "_") :
    ∃ out, nwGetDocMatches s'.terms s'.term_ids s'.store (t₀ :: t₁ :: rest') = some out ∧
      (did ∈ out ↔ ∃ tokens, alookup C did = some tokens ∧
        ∃ p, phraseAt (t₀ :: t₁ :: rest') tokens p) := by
  have hterm_some : ∀ tokens p, alookup C did = some tokens →
      phraseAt (t₀ :: t₁ :: rest') tokens p →
      ∀ k, k < (t₀ :: t₁ :: rest').length →
        (alookup s'.terms ((t₀ :: t₁ :: rest').getD k "")).isSome := by
    intro tokens p hC hph k hk
    have hpk := hph k hk
    rw [hterms, alookup_isSome_iff_mem_keys, nwLexiconAux_keys, ← hpk.2]
    exact term_in_firsts C tgs hSO did tokens hC (p + k) hpk.1
  have hzl : ((t₀ :: t₁ :: rest').zip (t₀ :: t₁ :: rest').tail).length = rest'.length + 1 := by
    rw [List.length_zip]
    simp [Nat.min_def]
  unfold nwGetDocMatches
  dsimp only
  cases hsetup : setupTermPairs s'.terms (t₀ :: t₁ :: rest') with
  | none =>
    refine ⟨[], rfl, ?_⟩
    simp only [List.not_mem_nil, false_iff]
    rintro ⟨tokens, hC, p, hph⟩
    have hloopsome := setupPairsLoop_isSome s'.terms
      ((t₀ :: t₁ :: rest').zip (t₀ :: t₁ :: rest').tail) [] [] ?_
    · obtain ⟨uq, huq⟩ := Option.isSome_iff_exists.mp hloopsome
      have : (setupTermPairs s'.terms (t₀ :: t₁ :: rest')).isSome := by
        unfold setupTermPairs
        rw [huq]
        rfl
      rw [hsetup] at this
      exact absurd this (by simp)
    · intro pr hpr
      obtain ⟨i, hilt, hig⟩ := List.mem_iff_getElem.mp hpr
      have higd : ((t₀ :: t₁ :: rest').zip (t₀ :: t₁ :: rest').tail).getD i ("", "") = pr := by
        rw [List.getD_eq_getElem _ _ hilt, hig]
      rw [zip_tail_getD _ _ hilt] at higd
      have hi1 : i + 1 < (t₀ :: t₁ :: rest').length := by
        simp only [List.length_cons]
        rw [hzl] at hilt
        omega
      constructor
      · rw [show pr.1 = (t₀ :: t₁ :: rest').getD i "" from by rw [← higd]]
        exact hterm_some tokens p hC hph i (by omega)
      · rw [show pr.2 = (t₀ :: t₁ :: rest').getD (i + 1) "" from by rw [← higd]]
        exact hterm_some tokens p hC hph (i + 1) hi1
  | some trip =>
    obtain ⟨ordered, qtps, covered⟩ := trip
    obtain ⟨hq, hcov, hpres, hkeys⟩ := setupTermPairs_some_elim _ _ _ _ _ hsetup
    subst hq
    subst hcov
    dsimp only
    have hspec := fetchPairs_spec C tgs hSO s' hIds hterms hstore hmem
      ((t₀ :: t₁ :: rest').zip (t₀ :: t₁ :: rest').tail) (by omega)
      (ordered.map Prod.fst) (List.replicate (t₀ :: t₁ :: rest').length false) []
      (by rw [List.length_replicate, hzl]; simp)
      (fun pr hpr => absurd hpr (List.not_mem_nil pr))
      (fun j hj h => absurd (getD_replicate_false _ _ ▸ h) (by simp))
      (fun tp htp => Or.inl ((hkeys tp).mpr htp))
    cases hfetch : fetchPairs s'.terms s'.term_ids s'.store
        ((t₀ :: t₁ :: rest').zip (t₀ :: t₁ :: rest').tail) (ordered.map Prod.fst)
        (List.replicate (t₀ :: t₁ :: rest').length false) [] with
    | crash => exact absurd hfetch hspec.1
    | unmatchable =>
      refine ⟨[], rfl, ?_⟩
      simp only [List.not_mem_nil, false_iff]
      rintro ⟨tokens, hC, p, hph⟩
      obtain ⟨tp, htp, hprop⟩ := hspec.2.2 hfetch
      have htpz := (hkeys tp).mp htp
      obtain ⟨i, hilt, hig⟩ := List.mem_iff_getElem.mp htpz
      have higd : ((t₀ :: t₁ :: rest').zip (t₀ :: t₁ :: rest').tail).getD i ("", "") = tp := by
        rw [List.getD_eq_getElem _ _ hilt, hig]
      rw [zip_tail_getD _ _ hilt] at higd
      have hi1 : i + 1 < (t₀ :: t₁ :: rest').length := by
        simp only [List.length_cons]
        rw [hzl] at hilt
        omega
      have hmemp := phraseAt_pair_mem (t₀ :: t₁ :: rest') tokens p i hph hi1
      have hempty := hprop did tokens hC
      rw [show tp.1 = (t₀ :: t₁ :: rest').getD i "" from by rw [← higd],
        show tp.2 = (t₀ :: t₁ :: rest').getD (i + 1) "" from by rw [← higd]] at hempty
      rw [hempty] at hmemp
      exact absurd hmemp (List.not_mem_nil _)
    | done qr rem =>
      obtain ⟨hH1, hH2⟩ := hspec.2.1 qr rem hfetch
      have hmm := nwMergeMaster C qr t₀ t₁ rest' did hus hH1 ?_
      · obtain ⟨out, hout, hiff⟩ := hmm
        exact ⟨out, hout, hiff⟩
      · intro i hi
        have hi' : i < ((t₀ :: t₁ :: rest').zip (t₀ :: t₁ :: rest').tail).length + 1 := by
          rw [hzl]
          simp only [List.length_cons] at hi
          omega
        obtain ⟨i', hilt', hii, pd, hpd⟩ := hH2 i hi'
        refine ⟨i', by rw [hzl] at hilt'; simp only [List.length_cons]; omega, hii, pd, ?_⟩
        rw [← zip_tail_getD _ _ hilt']
        exact hpd

theorem alookup_docsFold_isSome (ds : List DocPost) (did : Nat) :
    ∀ acc : List (Nat × List Nat),
      ((alookup (ds.foldl (fun a' d => ainsert a' d.doc_id d.positions) acc) did).isSome
        ↔ (alookup acc did).isSome ∨ ∃ d ∈ ds, d.doc_id = did) := by
  induction ds with
  | nil => intro acc; simp
  | cons d ds ih =>
    intro acc
    rw [List.foldl_cons, ih, alookup_ainsert_isSome]
    constructor
    · rintro ((h | h) | h)
      · exact Or.inl h
      · exact Or.inr ⟨d, by simp, h.symm⟩
      · obtain ⟨d', hd', he⟩ := h
        exact Or.inr ⟨d', List.mem_cons_of_mem _ hd', he⟩
    · rintro (h | ⟨d', hd', he⟩)
      · exact Or.inl (Or.inl h)
      · rcases List.mem_cons.mp hd' with hd' | hd'
        · exact Or.inl (Or.inr (hd' ▸ he).symm)
        · exact Or.inr ⟨d', hd', he⟩

theorem alookup_groupsFold_isSome (pgs : List PairGroup) (did : Nat) :
    ∀ acc : List (Nat × List Nat),
      ((alookup (pgs.foldl (fun a g =>
          if targetHit none g.next_term = true
            then g.docs.foldl (fun a' d => ainsert a' d.doc_id d.positions) a else a)
          acc) did).isSome
        ↔ (alookup acc did).isSome ∨ ∃ g ∈ pgs, ∃ d ∈ g.docs, d.doc_id = did) := by
  induction pgs with
  | nil => intro acc; simp
  | cons g pgs ih =>
    intro acc
    rw [List.foldl_cons, if_pos (show targetHit none g.next_term = true from rfl)]
    rw [ih, alookup_docsFold_isSome]
    constructor
    · rintro ((h | h) | h)
      · exact Or.inl h
      · obtain ⟨d, hd, he⟩ := h
        exact Or.inr ⟨g, by simp, d, hd, he⟩
      · obtain ⟨g', hg', hrest⟩ := h
        exact Or.inr ⟨g', List.mem_cons_of_mem _ hg', hrest⟩
    · rintro (h | ⟨g', hg', d, hd, he⟩)
      · exact Or.inl (Or.inl h)
      · rcases List.mem_cons.mp hg' with hg' | hg'
        · exact Or.inl (Or.inr ⟨d, hg' ▸ hd, he⟩)
        · exact Or.inr ⟨g', hg', d, hd, he⟩

/-- The biword resolver on a built index answers a one-term query with exactly
the documents containing the term (the sentinel decodes every group). -/
theorem nwGDM_single (C : List (Nat × List String)) (tgs : List NWTermGroup)
    (hSO : NWStreamOf C tgs) (s' : NWState)
    (hIds : IdsOk s')
    (hterms : s'.terms = nwLexiconAux (idOfS s') 0 tgs)
    (hstore : s'.store = encodeNWStream (idOfS s') tgs)
    (hmem : ∀ tg' ∈ tgs, ∀ g ∈ tg'.groups, (alookup s'.term_ids_inv g.next_term).isSome)
    (t : String) (did : Nat) :
    ∃ out, nwGetDocMatches s'.terms s'.term_ids s'.store [t] = some out ∧
      (did ∈ out ↔ ∃ tokens, alookup C did = some tokens ∧ ∃ p, phraseAt [t] tokens p) := by
  obtain ⟨hWF, hsound, hcomplete⟩ := hSO
  unfold nwGetDocMatches
  dsimp only
  by_cases hft : t ∈ tgs.map (fun tg => tg.first_term)
  · obtain ⟨tg, htg, htgft⟩ := List.mem_map.mp hft
    obtain ⟨tgs₁, tgs₂, hsplit⟩ := List.append_of_mem htg
    subst hsplit
    subst htgft
    have htgmem : tg ∈ tgs₁ ++ tg :: tgs₂ := by simp
    rw [findPostings_spec s' tgs₁ tg tgs₂ none hIds hterms hstore hmem hWF.2.1]
    refine ⟨_, rfl, ?_⟩
    rw [← alookup_isSome_iff_mem_keys, alookup_groupsFold_isSome]
    constructor
    · rintro (h | ⟨g, hg, d, hd, he⟩)
      · rw [alookup] at h
        exact absurd h (by simp)
      · have hrec := hsound tg htgmem g hg d hd
        unfold NWDocRec at hrec
        cases hC : alookup C d.doc_id with
        | none => rw [hC] at hrec; exact absurd hrec (by simp)
        | some tokens =>
          rw [hC] at hrec
          obtain ⟨i, hi⟩ := List.exists_mem_of_ne_nil _ (hrec.1 ▸ hrec.2)
          rw [mem_pairPositions] at hi
          refine ⟨tokens, he ▸ hC, i, ?_⟩
          intro k hk
          simp only [List.length_cons, List.length_nil] at hk
          have hk0 : k = 0 := by omega
          subst hk0
          exact ⟨by omega, by simpa using hi.2.1⟩
    · rintro ⟨tokens, hC, p, hph⟩
      have hp0 := hph 0 (by simp)
      simp only [Nat.add_zero] at hp0
      obtain ⟨tg', htg', hft', g', hg', hnt', d, hd, hdid⟩ :=
        hcomplete (did, tokens) (alookup_mem hC) p hp0.1
      have htgeq : tg' = tg :=
        List.inj_on_of_nodup_map hWF.2.1 htg' htgmem
          (hft'.trans (hp0.2.trans (by simp)))
      exact Or.inr ⟨g', htgeq ▸ hg', d, hd, hdid⟩
  · rw [show findPostings s'.terms s'.term_ids s'.store t none = some [] from by
      unfold findPostings
      rw [hterms, nwLexicon_lookup_of_notMem (idOfS s') tgs 0 t hft]]
    refine ⟨[], rfl, ?_⟩
    simp only [List.not_mem_nil, false_iff]
    rintro ⟨tokens, hC, p, hph⟩
    have hp0 := hph 0 (by simp)
    simp only [Nat.add_zero] at hp0
    apply hft
    have := term_in_firsts C tgs ⟨hWF, hsound, hcomplete⟩ did tokens hC p hp0.1
    rwa [hp0.2, show ([t].getD 0 "") = t from rfl] at this

/-! ## The spec-side comparator for early termination: fetch all unique pairs -/

/-- The fetch loop with the covered-break removed: every ordered unique pair is
fetched and merged (this is the spec's reference behaviour for C7). -/
def fetchPairsAll (lex : List (String × NWEntry)) (ids : List (Nat × String))
    (store : List Nat) :
    List (String × String) → List ((String × String) × List (Nat × List Nat)) →
    FetchResult
  | [], acc => .done acc []
  | tp :: rest, acc =>
    match findPostings lex ids store tp.1 (some tp.2) with
    | none => .crash
    | some pd =>
      if pd = [] then .unmatchable
      else fetchPairsAll lex ids store rest (ainsert acc tp pd)

/-- `get_doc_matches` with the all-pairs fetch loop substituted. -/
def nwGetDocMatchesAll (lex : List (String × NWEntry)) (ids : List (Nat × String))
    (store : List Nat) (terms : List String) : Option (List Nat) :=
  match terms with
  | [] => some []
  | [t] => (findPostings lex ids store t none).map (List.map Prod.fst)
  | _ =>
    match setupTermPairs lex terms with
    | none => some []
    | some (ordered, _qtps, _covered) =>
      match fetchPairsAll lex ids store (ordered.map Prod.fst) [] with
      | .crash => none
      | .unmatchable => some []
      | .done qr _ => mergeQueryResults qr terms

theorem fetchPairsAll_cons_some (lex : List (String × NWEntry)) (ids : List (Nat × String))
    (store : List Nat) (tp : String × String) (rest : List (String × String))
    (acc : List ((String × String) × List (Nat × List Nat))) (pd : List (Nat × List Nat))
    (hfp : findPostings lex ids store tp.1 (some tp.2) = some pd) :
    fetchPairsAll lex ids store (tp :: rest) acc
      = if pd = [] then .unmatchable
        else fetchPairsAll lex ids store rest (ainsert acc tp pd) := by
  rw [fetchPairsAll, hfp]

/-- The all-pairs fetch loop over a built index: no crash, canonical
accumulated results covering every query position on `done`, and an
occurrence-free pending pair on `unmatchable`. -/
theorem fetchPairsAll_spec (C : List (Nat × List String)) (tgs : List NWTermGroup)
    (hSO : NWStreamOf C tgs) (s' : NWState)
    (hIds : IdsOk s')
    (hterms : s'.terms = nwLexiconAux (idOfS s') 0 tgs)
    (hstore : s'.store = encodeNWStream (idOfS s') tgs)
    (hmem : ∀ tg' ∈ tgs, ∀ g ∈ tg'.groups, (alookup s'.term_ids_inv g.next_term).isSome)
    (qtps : List (String × String)) (hq1 : 1 ≤ qtps.length) :
    ∀ (pend : List (String × String))
      (acc : List ((String × String) × List (Nat × List Nat))),
      (∀ pr ∈ acc, PdOf C pr.1.1 pr.1.2 pr.2 ∧ pr.2 ≠ []) →
      (∀ tp ∈ qtps, tp ∈ pend ∨ (alookup acc tp).isSome) →
      fetchPairsAll s'.terms s'.term_ids s'.store pend acc ≠ .crash
      ∧ (∀ qr rem,
          fetchPairsAll s'.terms s'.term_ids s'.store pend acc = .done qr rem →
          (∀ pr ∈ qr, PdOf C pr.1.1 pr.1.2 pr.2 ∧ pr.2 ≠ []) ∧
          ∀ j < qtps.length + 1, ∃ i, i < qtps.length ∧ (j = i ∨ j = i + 1) ∧
            ∃ pd, ((qtps.getD i ("", "")), pd) ∈ qr)
      ∧ (fetchPairsAll s'.terms s'.term_ids s'.store pend acc = .unmatchable →
          ∃ tp ∈ pend, ∀ d tokens, alookup C d = some tokens →
            pairPositions tp.1 tp.2 tokens = []) := by
  intro pend
  induction pend with
  | nil =>
    intro acc hacc hcomp
    refine ⟨by rw [show fetchPairsAll s'.terms s'.term_ids s'.store [] acc
        = .done acc [] from rfl]; simp, ?_, ?_⟩
    · intro qr rem hdone
      rw [show fetchPairsAll s'.terms s'.term_ids s'.store [] acc
        = .done acc [] from rfl] at hdone
      injection hdone with h1 h2
      subst h1
      refine ⟨hacc, ?_⟩
      intro j hj
      by_cases hjl : j < qtps.length
      · have := hcomp (qtps.getD j ("", "")) (getD_mem_of_lt _ _ hjl)
        rcases this with h | h
        · exact absurd h (List.not_mem_nil _)
        · obtain ⟨pd, hpd⟩ := Option.isSome_iff_exists.mp h
          exact ⟨j, hjl, Or.inl rfl, pd, alookup_mem hpd⟩
      · have hil : qtps.length - 1 < qtps.length := by omega
        have := hcomp (qtps.getD (qtps.length - 1) ("", "")) (getD_mem_of_lt _ _ hil)
        rcases this with h | h
        · exact absurd h (List.not_mem_nil _)
        · obtain ⟨pd, hpd⟩ := Option.isSome_iff_exists.mp h
          exact ⟨qtps.length - 1, hil, Or.inr (by omega), pd, alookup_mem hpd⟩
    · intro hun
      rw [show fetchPairsAll s'.terms s'.term_ids s'.store [] acc
        = .done acc [] from rfl] at hun
      exact absurd hun (by simp)
  | cons tp rest ih =>
    intro acc hacc hcomp
    obtain ⟨pd, hfp, hPd⟩ := built_pd C tgs hSO s' hIds hterms hstore hmem tp.1 tp.2
    rw [fetchPairsAll_cons_some _ _ _ _ _ _ _ hfp]
    by_cases hpd : pd = []
    · rw [if_pos hpd]
      refine ⟨by simp, ?_, ?_⟩
      · intro qr rem h
        exact absurd h (by simp)
      · intro _
        refine ⟨tp, by simp, ?_⟩
        intro d tokens hC
        by_contra hne
        have := hPd.2 d tokens hC hne
        rw [hpd] at this
        exact absurd this (by simp [alookup])
    · rw [if_neg hpd]
      have hacc' : ∀ pr ∈ ainsert acc tp pd, PdOf C pr.1.1 pr.1.2 pr.2 ∧ pr.2 ≠ [] := by
        intro pr hpr
        rcases mem_ainsert_elim hpr with hpr | hpr
        · exact hacc pr hpr
        · rw [hpr]
          exact ⟨hPd, hpd⟩
      have hres := ih (ainsert acc tp pd) hacc'
        (fun tp' htp' => by
          rcases hcomp tp' htp' with h | h
          · rcases List.mem_cons.mp h with h | h
            · subst h
              exact Or.inr (by rw [alookup_ainsert_self]; rfl)
            · exact Or.inl h
          · exact Or.inr ((alookup_ainsert_isSome _ _ _ _).mpr (Or.inl h)))
      refine ⟨hres.1, hres.2.1, ?_⟩
      intro hun
      obtain ⟨tp', htp', hprop⟩ := hres.2.2 hun
      exact ⟨tp', List.mem_cons_of_mem _ htp', hprop⟩

/-- The all-pairs variant answers multi-term queries with exactly the phrase
matches as well. -/
theorem nwGDMAll_master (C : List (Nat × List String)) (tgs : List NWTermGroup)
    (hSO : NWStreamOf C tgs) (s' : NWState)
    (hIds : IdsOk s')
    (hterms : s'.terms = nwLexiconAux (idOfS s') 0 tgs)
    (hstore : s'.store = encodeNWStream (idOfS s') tgs)
    (hmem : ∀ tg' ∈ tgs, ∀ g ∈ tg'.groups, (alookup s'.term_ids_inv g.next_term).isSome)
    (t₀ t₁ : String) (rest' : List String) (did : Nat)
    (hus : ∀ t ∈ t₀ :: t₁ :: rest', t ≠ "_") :
    ∃ out, nwGetDocMatchesAll s'.terms s'.term_ids s'.store (t₀ :: t₁ :: rest') = some out ∧
      (did ∈ out ↔ ∃ tokens, alookup C did = some tokens ∧
        ∃ p, phraseAt (t₀ :: t₁ :: rest') tokens p) := by
  have hterm_some : ∀ tokens p, alookup C did = some tokens →
      phraseAt (t₀ :: t₁ :: rest') tokens p →
      ∀ k, k < (t₀ :: t₁ :: rest').length →
        (alookup s'.terms ((t₀ :: t₁ :: rest').getD k "")).isSome := by
    intro tokens p hC hph k hk
    have hpk := hph k hk
    rw [hterms, alookup_isSome_iff_mem_keys, nwLexiconAux_keys, ← hpk.2]
    exact term_in_firsts C tgs hSO did tokens hC (p + k) hpk.1
  have hzl : ((t₀ :: t₁ :: rest').zip (t₀ :: t₁ :: rest').tail).length = rest'.length + 1 := by
    rw [List.length_zip]
    simp [Nat.min_def]
  unfold nwGetDocMatchesAll
  dsimp only
  cases hsetup : setupTermPairs s'.terms (t₀ :: t₁ :: rest') with
  | none =>
    refine ⟨[], rfl, ?_⟩
    simp only [List.not_mem_nil, false_iff]
    rintro ⟨tokens, hC, p, hph⟩
    have hloopsome := setupPairsLoop_isSome s'.terms
      ((t₀ :: t₁ :: rest').zip (t₀ :: t₁ :: rest').tail) [] [] ?_
    · obtain ⟨uq, huq⟩ := Option.isSome_iff_exists.mp hloopsome
      have : (setupTermPairs s'.terms (t₀ :: t₁ :: rest')).isSome := by
        unfold setupTermPairs
        rw [huq]
        rfl
      rw [hsetup] at this
      exact absurd this (by simp)
    · intro pr hpr
      obtain ⟨i, hilt, hig⟩ := List.mem_iff_getElem.mp hpr
      have higd : ((t₀ :: t₁ :: rest').zip (t₀ :: t₁ :: rest').tail).getD i ("", "") = pr := by
        rw [List.getD_eq_getElem _ _ hilt, hig]
      rw [zip_tail_getD _ _ hilt] at higd
      have hi1 : i + 1 < (t₀ :: t₁ :: rest').length := by
        simp only [List.length_cons]
        rw [hzl] at hilt
        omega
      constructor
      · rw [show pr.1 = (t₀ :: t₁ :: rest').getD i "" from by rw [← higd]]
        exact hterm_some tokens p hC hph i (by omega)
      · rw [show pr.2 = (t₀ :: t₁ :: rest').getD (i + 1) "" from by rw [← higd]]
        exact hterm_some tokens p hC hph (i + 1) hi1
  | some trip =>
    obtain ⟨ordered, qtps, covered⟩ := trip
    obtain ⟨hq, hcov, hpres, hkeys⟩ := setupTermPairs_some_elim _ _ _ _ _ hsetup
    subst hq
    subst hcov
    dsimp only
    have hspec := fetchPairsAll_spec C tgs hSO s' hIds hterms hstore hmem
      ((t₀ :: t₁ :: rest').zip (t₀ :: t₁ :: rest').tail) (by omega)
      (ordered.map Prod.fst) []
      (fun pr hpr => absurd hpr (List.not_mem_nil pr))
      (fun tp htp => Or.inl ((hkeys tp).mpr htp))
    cases hfetch : fetchPairsAll s'.terms s'.term_ids s'.store (ordered.map Prod.fst) [] with
    | crash => exact absurd hfetch hspec.1
    | unmatchable =>
      refine ⟨[], rfl, ?_⟩
      simp only [List.not_mem_nil, false_iff]
      rintro ⟨tokens, hC, p, hph⟩
      obtain ⟨tp, htp, hprop⟩ := hspec.2.2 hfetch
      have htpz := (hkeys tp).mp htp
      obtain ⟨i, hilt, hig⟩ := List.mem_iff_getElem.mp htpz
      have higd : ((t₀ :: t₁ :: rest').zip (t₀ :: t₁ :: rest').tail).getD i ("", "") = tp := by
        rw [List.getD_eq_getElem _ _ hilt, hig]
      rw [zip_tail_getD _ _ hilt] at higd
      have hi1 : i + 1 < (t₀ :: t₁ :: rest').length := by
        simp only [List.length_cons]
        rw [hzl] at hilt
        omega
      have hmemp := phraseAt_pair_mem (t₀ :: t₁ :: rest') tokens p i hph hi1
      have hempty := hprop did tokens hC
      rw [show tp.1 = (t₀ :: t₁ :: rest').getD i "" from by rw [← higd],
        show tp.2 = (t₀ :: t₁ :: rest').getD (i + 1) "" from by rw [← higd]] at hempty
      rw [hempty] at hmemp
      exact absurd hmemp (List.not_mem_nil _)
    | done qr rem =>
      obtain ⟨hH1, hH2⟩ := hspec.2.1 qr rem hfetch
      have hmm := nwMergeMaster C qr t₀ t₁ rest' did hus hH1 ?_
      · obtain ⟨out, hout, hiff⟩ := hmm
        exact ⟨out, hout, hiff⟩
      · intro i hi
        have hi' : i < ((t₀ :: t₁ :: rest').zip (t₀ :: t₁ :: rest').tail).length + 1 := by
          rw [hzl]
          simp only [List.length_cons] at hi
          omega
        obtain ⟨i', hilt', hii, pd, hpd⟩ := hH2 i hi'
        refine ⟨i', by rw [hzl] at hilt'; simp only [List.length_cons]; omega, hii, pd, ?_⟩
        rw [← zip_tail_getD _ _ hilt']
        exact hpd

/-! ## Small query-shape conversions -/

theorem phraseAt_two_iff (w1 w2 : String) (tokens : List String) (p : Nat) :
    phraseAt [w1, w2] tokens p
      ↔ p + 1 < tokens.length ∧ tokens.getD p "" = w1 ∧ tokens.getD (p + 1) "" = w2 := by
  unfold phraseAt
  constructor
  · intro h
    have h0 := h 0 (by simp)
    have h1 := h 1 (by simp)
    exact ⟨by simpa using h1.1, by simpa using h0.2, by simpa using h1.2⟩
  · rintro ⟨hl, h0, h1⟩
    intro i hi
    simp only [List.length_cons, List.length_nil] at hi
    have : i = 0 ∨ i = 1 := by omega
    rcases this with hi0 | hi0 <;> subst hi0
    · exact ⟨by omega, by simpa using h0⟩
    · exact ⟨by simpa using hl, by simpa using h1⟩

theorem phraseAt_single_iff (t : String) (tokens : List String) :
    (∃ p, phraseAt [t] tokens p) ↔ t ∈ tokens := by
  constructor
  · rintro ⟨p, hph⟩
    have h0 := hph 0 (by simp)
    simp only [Nat.add_zero] at h0
    have := getD_mem_of_lt tokens "" h0.1
    rwa [h0.2, show ([t].getD 0 "") = t from rfl] at this
  · intro ht
    obtain ⟨i, hlt, hgi⟩ := List.mem_iff_getElem.mp ht
    refine ⟨i, ?_⟩
    intro k hk
    simp only [List.length_cons, List.length_nil] at hk
    have hk0 : k = 0 := by omega
    subst hk0
    refine ⟨by omega, ?_⟩
    simp only [Nat.add_zero]
    rw [List.getD_eq_getElem _ _ hlt]
    simpa using hgi

/-! ## Concrete collections and streams used as witnesses -/

/-- Witness collection: one document `0` with tokens `b a`. -/
def wC : List (Nat × List String) := [(0, ["b", "a"])]

/-- Its sorted standard record stream. -/
def wgs : List StdGroup := [⟨"a", [⟨0, [1]⟩]⟩, ⟨"b", [⟨0, [0]⟩]⟩]

/-- Its sorted nextword record stream. -/
def wtgs : List NWTermGroup :=
  [⟨"a", [⟨"_", [⟨0, [1]⟩]⟩]⟩, ⟨"b", [⟨"a", [⟨0, [0]⟩]⟩]⟩]

/-- Counterexample collection for C2: one document `a b a c`, in which the
term `a` occurs with two different next terms. -/
def c2C : List (Nat × List String) := [(0, ["a", "b", "a", "c"])]

def c2tgs : List NWTermGroup :=
  [⟨"a", [⟨"b", [⟨0, [0]⟩]⟩, ⟨"c", [⟨0, [2]⟩]⟩]⟩,
   ⟨"b", [⟨"a", [⟨0, [1]⟩]⟩]⟩,
   ⟨"c", [⟨"_", [⟨0, [3]⟩]⟩]⟩]

/-- C2, counterexample: over a well-formed nextword stream of a collection
whose only document contains `a` twice (with different next terms), the built
biword lexicon records `doc_freq = 2` for `a`, while only `1` distinct
document contains `a`; the spec's reading of `doc_freq` fails for the biword
index. -/
theorem c2_counterexample :
    NWStreamOf c2C c2tgs ∧
    (buildNW (nwStreamRecords c2tgs)).map
        (fun s' => (alookup s'.terms "a").map (fun e => e.doc_freq)) = some (some 2) ∧
    (c2C.filter (fun dp => dp.2.contains "a")).length = 1 ∧
    (2 : Nat) ≠ 1 := by
  exact ⟨by decide, by decide, by decide, by decide⟩

/-- C2, corrected: for a standard index, `doc_freq` is the number of distinct
documents containing the term and `collection_freq` the total number of its
occurrences; for a biword index, `collection_freq` still totals the pair
occurrences but `doc_freq` counts `(next_term, document)` records, not
distinct documents. -/
theorem c2_lexicon_counts (C : List (Nat × List String)) (gs : List StdGroup)
    (tgs : List NWTermGroup) (hstd : StdStreamOf C gs) (hnw : NWStreamOf C tgs)
    (gs₁ : List StdGroup) (g : StdGroup) (gs₂ : List StdGroup)
    (hgs : gs = gs₁ ++ g :: gs₂)
    (tgs₁ : List NWTermGroup) (tg : NWTermGroup) (tgs₂ : List NWTermGroup)
    (htgs : tgs = tgs₁ ++ tg :: tgs₂) :
    (∃ e, alookup (buildStd (stdStreamRecords gs)).terms g.term = some e ∧
      e.doc_freq = g.docs.length ∧
      (g.docs.map (fun d => d.doc_id)).Nodup ∧
      (∀ did, (∃ d ∈ g.docs, d.doc_id = did)
        ↔ ∃ tokens, alookup C did = some tokens ∧ occPositions g.term tokens ≠ []) ∧
      e.collection_freq = (g.docs.map (fun d => d.positions.length)).sum ∧
      ∀ d ∈ g.docs, ∃ tokens, alookup C d.doc_id = some tokens ∧
        d.positions = occPositions g.term tokens) ∧
    (∃ s', buildNW (nwStreamRecords tgs) = some s' ∧
      ∃ e, alookup s'.terms tg.first_term = some e ∧
        e.doc_freq = (tg.groups.map (fun g' => g'.docs.length)).sum ∧
        e.collection_freq = (tg.groups.map (fun g' =>
            (g'.docs.map (fun d => d.positions.length)).sum)).sum ∧
        ∀ g' ∈ tg.groups, ∀ d ∈ g'.docs, ∃ tokens, alookup C d.doc_id = some tokens ∧
          d.positions = pairPositions tg.first_term g'.next_term tokens) := by
  subst hgs
  subst htgs
  obtain ⟨hWF, hsound, hcomplete⟩ := hstd
  constructor
  · rw [buildStd_spec _ hWF]
    refine ⟨⟨g.docs.length, posTotal g.docs, ((gs₁.map encodeStdGroup).flatten).length⟩,
      stdLexicon_lookup gs₁ g gs₂ hWF.1, rfl, (hWF.2 g (by simp)).2.1, ?_, rfl, ?_⟩
    · intro did
      constructor
      · rintro ⟨d, hd, hdid⟩
        have hrec := hsound g (by simp) d hd
        unfold StdDocRec at hrec
        cases hC : alookup C d.doc_id with
        | none => rw [hC] at hrec; exact absurd hrec (by simp)
        | some tokens =>
          rw [hC] at hrec
          exact ⟨tokens, hdid ▸ hC, hrec.1 ▸ hrec.2⟩
      · rintro ⟨tokens, hC, hocc⟩
        obtain ⟨i, hi⟩ := List.exists_mem_of_ne_nil _ hocc
        rw [mem_occPositions] at hi
        have htmem : g.term ∈ tokens := by
          have := getD_mem_of_lt tokens "" hi.1
          rwa [hi.2] at this
        obtain ⟨g', hg', hgt, d, hd, hdid⟩ :=
          hcomplete (did, tokens) (alookup_mem hC) g.term htmem
        have hgeq : g' = g := List.inj_on_of_nodup_map hWF.1 hg' (by simp) hgt
        exact ⟨d, hgeq ▸ hd, hdid⟩
    · intro d hd
      have hrec := hsound g (by simp) d hd
      unfold StdDocRec at hrec
      cases hC : alookup C d.doc_id with
      | none => rw [hC] at hrec; exact absurd hrec (by simp)
      | some tokens =>
        rw [hC] at hrec
        exact ⟨tokens, rfl, hrec.1⟩
  · obtain ⟨s', hbuild, hIds, hterms, hstore, hoff, hmem⟩ := buildNW_spec _ hnw.1
    refine ⟨s', hbuild, ⟨pairDocTotal tg, tg.groups.length, nwPosTotal tg,
      ((tgs₁.map (encodeTermGroup (idOfS s'))).flatten).length⟩, ?_, rfl, rfl, ?_⟩
    · rw [hterms]
      exact nwLexicon_lookup (idOfS s') tgs₁ tg tgs₂ hnw.1.2.1
    · intro g' hg' d hd
      have hrec := hnw.2.1 tg (by simp) g' hg' d hd
      unfold NWDocRec at hrec
      cases hC : alookup C d.doc_id with
      | none => rw [hC] at hrec; exact absurd hrec (by simp)
      | some tokens =>
        rw [hC] at hrec
        exact ⟨tokens, rfl, hrec.1⟩

/-- C2 witness: the corrected counts at the concrete two-token collection. -/
theorem c2_witness :
    (StdStreamOf wC wgs ∧ NWStreamOf wC wtgs) ∧
    ((∃ e, alookup (buildStd (stdStreamRecords wgs)).terms "a" = some e ∧
      e.doc_freq = [(⟨0, [1]⟩ : DocPost)].length ∧
      ([(⟨0, [1]⟩ : DocPost)].map (fun d => d.doc_id)).Nodup ∧
      (∀ did, (∃ d ∈ [(⟨0, [1]⟩ : DocPost)], d.doc_id = did)
        ↔ ∃ tokens, alookup wC did = some tokens ∧ occPositions "a" tokens ≠ []) ∧
      e.collection_freq = ([(⟨0, [1]⟩ : DocPost)].map (fun d => d.positions.length)).sum ∧
      ∀ d ∈ [(⟨0, [1]⟩ : DocPost)], ∃ tokens, alookup wC d.doc_id = some tokens ∧
        d.positions = occPositions "a" tokens) ∧
    (∃ s', buildNW (nwStreamRecords wtgs) = some s' ∧
      ∃ e, alookup s'.terms "a" = some e ∧
        e.doc_freq = ([(⟨"_", [⟨0, [1]⟩]⟩ : PairGroup)].map (fun g' => g'.docs.length)).sum ∧
        e.collection_freq = ([(⟨"_", [⟨0, [1]⟩]⟩ : PairGroup)].map (fun g' =>
            (g'.docs.map (fun d => d.positions.length)).sum)).sum ∧
        ∀ g' ∈ [(⟨"_", [⟨0, [1]⟩]⟩ : PairGroup)], ∀ d ∈ g'.docs,
          ∃ tokens, alookup wC d.doc_id = some tokens ∧
            d.positions = pairPositions "a" g'.next_term tokens)) :=
  ⟨⟨by decide, by decide⟩,
    c2_lexicon_counts wC wgs wtgs (by decide) (by decide)
      [] ⟨"a", [⟨0, [1]⟩]⟩ [⟨"b", [⟨0, [0]⟩]⟩] rfl
      [] ⟨"a", [⟨"_", [⟨0, [1]⟩]⟩]⟩ [⟨"b", [⟨"a", [⟨0, [0]⟩]⟩]⟩] rfl⟩

/-- C3: a term's offset equals the number of units already written when its
first record is processed; the store is the append-only concatenation of the
per-term blocks; reading `doc_freq` groups from the offset consumes exactly
`2*doc_freq + collection_freq` units, ending exactly where the next term's
block begins.  The biword store likewise is the contiguous concatenation of
blocks with offsets equal to the preceding length. -/
theorem c3_offset_integrity (gs₁ : List StdGroup) (g : StdGroup) (gs₂ : List StdGroup)
    (hWF : StdWF (gs₁ ++ g :: gs₂))
    (tgs₁ : List NWTermGroup) (tg : NWTermGroup) (tgs₂ : List NWTermGroup)
    (hwf : NWWF (tgs₁ ++ tg :: tgs₂)) :
    ((buildStd (stdStreamRecords (gs₁ ++ g :: gs₂))).store
        = ((gs₁ ++ g :: gs₂).map encodeStdGroup).flatten ∧
      ∃ e, alookup (buildStd (stdStreamRecords (gs₁ ++ g :: gs₂))).terms g.term = some e ∧
        e.offset = ((gs₁.map encodeStdGroup).flatten).length ∧
        (readStdDocs (buildStd (stdStreamRecords (gs₁ ++ g :: gs₂))).store e.offset []
            e.doc_freq).2 = e.offset + (2 * e.doc_freq + e.collection_freq) ∧
        ∀ g₂ gs₂', gs₂ = g₂ :: gs₂' →
          ∃ e₂, alookup (buildStd (stdStreamRecords (gs₁ ++ g :: gs₂))).terms g₂.term
              = some e₂ ∧ e₂.offset = e.offset + (2 * e.doc_freq + e.collection_freq)) ∧
    (∃ s', buildNW (nwStreamRecords (tgs₁ ++ tg :: tgs₂)) = some s' ∧
      s'.store = encodeNWStream (idOfS s') (tgs₁ ++ tg :: tgs₂) ∧
      s'.current_offset = s'.store.length ∧
      ∃ e, alookup s'.terms tg.first_term = some e ∧
        e.offset = ((tgs₁.map (encodeTermGroup (idOfS s'))).flatten).length) := by
  constructor
  · obtain ⟨hlk, hread⟩ := std_block_read gs₁ g gs₂ hWF
    refine ⟨by rw [buildStd_spec _ hWF], ?_⟩
    refine ⟨⟨g.docs.length, posTotal g.docs, ((gs₁.map encodeStdGroup).flatten).length⟩,
      hlk, rfl, ?_, ?_⟩
    · rw [hread]
      simp only []
      have h2 := encodeDocs_length g.docs
      rw [show encodeStdGroup g = encodeDocs g.docs from rfl]
      omega
    · intro g₂ gs₂' hsplit
      subst hsplit
      have hre : gs₁ ++ g :: g₂ :: gs₂' = (gs₁ ++ [g]) ++ g₂ :: gs₂' := by simp
      refine ⟨⟨g₂.docs.length, posTotal g₂.docs,
        (((gs₁ ++ [g]).map encodeStdGroup).flatten).length⟩, ?_, ?_⟩
      · rw [buildStd_spec _ hWF]
        show alookup (stdLexiconAux 0 (gs₁ ++ g :: g₂ :: gs₂')) g₂.term = _
        rw [hre]
        exact stdLexicon_lookup (gs₁ ++ [g]) g₂ gs₂' (by rw [← hre]; exact hWF.1)
      · show (((gs₁ ++ [g]).map encodeStdGroup).flatten).length = _
        simp only [List.map_append, List.map_cons, List.map_nil, List.flatten_append,
          List.flatten_cons, List.flatten_nil, List.length_append, List.length_nil,
          List.append_nil]
        have h2 := encodeDocs_length g.docs
        rw [show encodeStdGroup g = encodeDocs g.docs from rfl]
        omega
  · obtain ⟨s', hbuild, hIds, hterms, hstore, hoff, hmem⟩ := buildNW_spec _ hwf
    refine ⟨s', hbuild, hstore, hoff,
      ⟨pairDocTotal tg, tg.groups.length, nwPosTotal tg,
        ((tgs₁.map (encodeTermGroup (idOfS s'))).flatten).length⟩, ?_, rfl⟩
    rw [hterms]
    exact nwLexicon_lookup (idOfS s') tgs₁ tg tgs₂ hwf.2.1

/-- C3 witness: offsets and read cursors of the two-term witness streams. -/
theorem c3_witness :
    (StdWF wgs ∧ NWWF wtgs) ∧
    (((buildStd (stdStreamRecords ([] ++ (⟨"a", [⟨0, [1]⟩]⟩ : StdGroup)
          :: [⟨"b", [⟨0, [0]⟩]⟩]))).store
        = (([] ++ (⟨"a", [⟨0, [1]⟩]⟩ : StdGroup) :: [⟨"b", [⟨0, [0]⟩]⟩]).map
            encodeStdGroup).flatten ∧
      ∃ e, alookup (buildStd (stdStreamRecords ([] ++ (⟨"a", [⟨0, [1]⟩]⟩ : StdGroup)
            :: [⟨"b", [⟨0, [0]⟩]⟩]))).terms (⟨"a", [⟨0, [1]⟩]⟩ : StdGroup).term = some e ∧
        e.offset = ((([] : List StdGroup).map encodeStdGroup).flatten).length ∧
        (readStdDocs (buildStd (stdStreamRecords ([] ++ (⟨"a", [⟨0, [1]⟩]⟩ : StdGroup)
            :: [⟨"b", [⟨0, [0]⟩]⟩]))).store e.offset [] e.doc_freq).2
          = e.offset + (2 * e.doc_freq + e.collection_freq) ∧
        ∀ g₂ gs₂', [(⟨"b", [⟨0, [0]⟩]⟩ : StdGroup)] = g₂ :: gs₂' →
          ∃ e₂, alookup (buildStd (stdStreamRecords ([] ++ (⟨"a", [⟨0, [1]⟩]⟩ : StdGroup)
              :: [⟨"b", [⟨0, [0]⟩]⟩]))).terms g₂.term = some e₂ ∧
            e₂.offset = e.offset + (2 * e.doc_freq + e.collection_freq)) ∧
    (∃ s', buildNW (nwStreamRecords ([] ++ (⟨"a", [⟨"_", [⟨0, [1]⟩]⟩]⟩ : NWTermGroup)
          :: [⟨"b", [⟨"a", [⟨0, [0]⟩]⟩]⟩])) = some s' ∧
      s'.store = encodeNWStream (idOfS s') ([] ++ (⟨"a", [⟨"_", [⟨0, [1]⟩]⟩]⟩ : NWTermGroup)
          :: [⟨"b", [⟨"a", [⟨0, [0]⟩]⟩]⟩]) ∧
      s'.current_offset = s'.store.length ∧
      ∃ e, alookup s'.terms (⟨"a", [⟨"_", [⟨0, [1]⟩]⟩]⟩ : NWTermGroup).first_term = some e ∧
        e.offset = ((([] : List NWTermGroup).map (encodeTermGroup (idOfS s'))).flatten).length)) :=
  ⟨⟨by decide, by decide⟩,
    c3_offset_integrity [] ⟨"a", [⟨0, [1]⟩]⟩ [⟨"b", [⟨0, [0]⟩]⟩] (by decide)
      [] ⟨"a", [⟨"_", [⟨0, [1]⟩]⟩]⟩ [⟨"b", [⟨"a", [⟨0, [0]⟩]⟩]⟩] (by decide)⟩

/-- C4: for every built biword index and pair with the first term in the
lexicon, `find_postings` returns exactly the doc-to-positions mapping written
for the matching next-term group (empty if none matches), and the skip path
consumes exactly a group's units, so every later group header is decoded at
the correct offset. -/
theorem c4_find_postings_exact (tgs₁ : List NWTermGroup) (tg : NWTermGroup)
    (tgs₂ : List NWTermGroup) (hwf : NWWF (tgs₁ ++ tg :: tgs₂)) (nt : String) :
    (∃ s', buildNW (nwStreamRecords (tgs₁ ++ tg :: tgs₂)) = some s' ∧
      findPostings s'.terms s'.term_ids s'.store tg.first_term (some nt)
        = some (match tg.groups.find? (fun g => g.next_term = nt) with
            | some g => g.docs.map (fun d => (d.doc_id, d.positions))
            | none => [])) ∧
    ∀ (ds : List DocPost) (A B : List Nat),
      skipPairDocs (A ++ encodeDocs ds ++ B) A.length ds.length
        = A.length + (encodeDocs ds).length := by
  constructor
  · obtain ⟨s', hbuild, hIds, hterms, hstore, hoff, hmem⟩ := buildNW_spec _ hwf
    refine ⟨s', hbuild, ?_⟩
    rw [findPostings_spec s' tgs₁ tg tgs₂ (some nt) hIds hterms hstore hmem hwf.2.1]
    rw [hitFold_eq_find nt tg.groups
      (hwf.2.2 tg (by simp)).2.1
      (fun g hg => ((hwf.2.2 tg (by simp)).2.2 g hg).2.1)]
  · intro ds A B
    exact skipPairDocs_spec ds A B

/-- C4 witness: fetching the pair `(b, a)` from the witness index returns the
written mapping, and a concrete skip lands exactly after the group. -/
theorem c4_witness :
    NWWF ([⟨"a", [⟨"_", [⟨0, [1]⟩]⟩]⟩] ++ (⟨"b", [⟨"a", [⟨0, [0]⟩]⟩]⟩ : NWTermGroup) :: []) ∧
    ((∃ s', buildNW (nwStreamRecords ([⟨"a", [⟨"_", [⟨0, [1]⟩]⟩]⟩]
          ++ (⟨"b", [⟨"a", [⟨0, [0]⟩]⟩]⟩ : NWTermGroup) :: [])) = some s' ∧
      findPostings s'.terms s'.term_ids s'.store
          (⟨"b", [⟨"a", [⟨0, [0]⟩]⟩]⟩ : NWTermGroup).first_term (some "a")
        = some (match (⟨"b", [⟨"a", [⟨0, [0]⟩]⟩]⟩ : NWTermGroup).groups.find?
              (fun g => g.next_term = "a") with
            | some g => g.docs.map (fun d => (d.doc_id, d.positions))
            | none => [])) ∧
    ∀ (ds : List DocPost) (A B : List Nat),
      skipPairDocs (A ++ encodeDocs ds ++ B) A.length ds.length
        = A.length + (encodeDocs ds).length) :=
  ⟨by decide,
    c4_find_postings_exact [⟨"a", [⟨"_", [⟨0, [1]⟩]⟩]⟩] ⟨"b", [⟨"a", [⟨0, [0]⟩]⟩]⟩ []
      (by decide) "a"⟩

/-- C5: a document with `w1` immediately followed by `w2` matches the query
`[w1, w2]` under both resolvers, and matches the reversed query `[w2, w1]`
iff `w2` is immediately followed by `w1` somewhere in it. -/
theorem c5_phrase_correctness (C : List (Nat × List String)) (gs : List StdGroup)
    (tgs : List NWTermGroup) (hstd : StdStreamOf C gs) (hnw : NWStreamOf C tgs)
    (w1 w2 : String) (hne : w1 ≠ w2) (h1 : w1 ≠ "_") (h2 : w2 ≠ "_")
    (did : Nat) (tokens : List String) (hC : alookup C did = some tokens)
    (i : Nat) (hi : i + 1 < tokens.length)
    (hw1 : tokens.getD i "" = w1) (hw2 : tokens.getD (i + 1) "" = w2) :
    did ∈ stdGetDocMatches (buildStd (stdStreamRecords gs)).terms
        (buildStd (stdStreamRecords gs)).store [w1, w2] ∧
    (∃ s' out, buildNW (nwStreamRecords tgs) = some s' ∧
      nwGetDocMatches s'.terms s'.term_ids s'.store [w1, w2] = some out ∧ did ∈ out) ∧
    (did ∈ stdGetDocMatches (buildStd (stdStreamRecords gs)).terms
        (buildStd (stdStreamRecords gs)).store [w2, w1]
      ↔ ∃ j, j + 1 < tokens.length ∧ tokens.getD j "" = w2
          ∧ tokens.getD (j + 1) "" = w1) ∧
    (∃ s' out, buildNW (nwStreamRecords tgs) = some s' ∧
      nwGetDocMatches s'.terms s'.term_ids s'.store [w2, w1] = some out ∧
      (did ∈ out ↔ ∃ j, j + 1 < tokens.length ∧ tokens.getD j "" = w2
          ∧ tokens.getD (j + 1) "" = w1)) := by
  have hph : phraseAt [w1, w2] tokens i := (phraseAt_two_iff w1 w2 tokens i).mpr ⟨hi, hw1, hw2⟩
  have hus12 : ∀ t ∈ [w1, w2], t ≠ "_" := by
    intro t ht
    rcases List.mem_cons.mp ht with ht | ht
    · exact ht ▸ h1
    · simp only [List.mem_singleton] at ht
      exact ht ▸ h2
  have hus21 : ∀ t ∈ [w2, w1], t ≠ "_" := by
    intro t ht
    rcases List.mem_cons.mp ht with ht | ht
    · exact ht ▸ h2
    · simp only [List.mem_singleton] at ht
      exact ht ▸ h1
  obtain ⟨s', hbuild, hIds, hterms, hstore, hoff, hmem⟩ := buildNW_spec _ hnw.1
  refine ⟨?_, ?_, ?_, ?_⟩
  · exact (stdMaster C gs hstd w1 [w2] did).mpr ⟨tokens, hC, i, hph⟩
  · obtain ⟨out, hout, hiff⟩ :=
      nwGDM_master C tgs hnw s' hIds hterms hstore hmem w1 w2 [] did hus12
    exact ⟨s', out, hbuild, hout, hiff.mpr ⟨tokens, hC, i, hph⟩⟩
  · rw [stdMaster C gs hstd w2 [w1] did]
    constructor
    · rintro ⟨tokens', hC', p, hph'⟩
      rw [hC] at hC'
      injection hC' with hC'
      subst hC'
      obtain ⟨hj, hjw2, hjw1⟩ := (phraseAt_two_iff w2 w1 tokens p).mp hph'
      exact ⟨p, hj, hjw2, hjw1⟩
    · rintro ⟨j, hj, hjw2, hjw1⟩
      exact ⟨tokens, hC, j, (phraseAt_two_iff w2 w1 tokens j).mpr ⟨hj, hjw2, hjw1⟩⟩
  · obtain ⟨out, hout, hiff⟩ :=
      nwGDM_master C tgs hnw s' hIds hterms hstore hmem w2 w1 [] did hus21
    refine ⟨s', out, hbuild, hout, ?_⟩
    rw [hiff]
    constructor
    · rintro ⟨tokens', hC', p, hph'⟩
      rw [hC] at hC'
      injection hC' with hC'
      subst hC'
      obtain ⟨hj, hjw2, hjw1⟩ := (phraseAt_two_iff w2 w1 tokens p).mp hph'
      exact ⟨p, hj, hjw2, hjw1⟩
    · rintro ⟨j, hj, hjw2, hjw1⟩
      exact ⟨tokens, hC, j, (phraseAt_two_iff w2 w1 tokens j).mpr ⟨hj, hjw2, hjw1⟩⟩

/-- C5 witness: in the collection with the single document `b a`, the query
`[b, a]` matches document `0` under both resolvers and the reversed query
`[a, b]` matches nothing. -/
theorem c5_witness :
    (StdStreamOf wC wgs ∧ NWStreamOf wC wtgs ∧ alookup wC 0 = some ["b", "a"]) ∧
    (0 ∈ stdGetDocMatches (buildStd (stdStreamRecords wgs)).terms
        (buildStd (stdStreamRecords wgs)).store ["b", "a"] ∧
    (∃ s' out, buildNW (nwStreamRecords wtgs) = some s' ∧
      nwGetDocMatches s'.terms s'.term_ids s'.store ["b", "a"] = some out ∧ 0 ∈ out) ∧
    (0 ∈ stdGetDocMatches (buildStd (stdStreamRecords wgs)).terms
        (buildStd (stdStreamRecords wgs)).store ["a", "b"]
      ↔ ∃ j, j + 1 < (["b", "a"] : List String).length ∧ (["b", "a"] : List String).getD j "" = "a"
          ∧ (["b", "a"] : List String).getD (j + 1) "" = "b") ∧
    (∃ s' out, buildNW (nwStreamRecords wtgs) = some s' ∧
      nwGetDocMatches s'.terms s'.term_ids s'.store ["a", "b"] = some out ∧
      (0 ∈ out ↔ ∃ j, j + 1 < (["b", "a"] : List String).length
          ∧ (["b", "a"] : List String).getD j "" = "a"
          ∧ (["b", "a"] : List String).getD (j + 1) "" = "b"))) :=
  ⟨⟨by decide, by decide, by decide⟩,
    c5_phrase_correctness wC wgs wtgs (by decide) (by decide) "b" "a"
      (by decide) (by decide) (by decide) 0 ["b", "a"] (by decide) 0
      (by decide) (by decide) (by decide)⟩

/-- C6: for every built index and every term, a one-term query returns exactly
the documents containing that term, under the standard resolver and under the
biword resolver's sentinel pair fetch. -/
theorem c6_single_term_roundtrip (C : List (Nat × List String)) (gs : List StdGroup)
    (tgs : List NWTermGroup) (hstd : StdStreamOf C gs) (hnw : NWStreamOf C tgs)
    (t : String) (did : Nat) :
    (did ∈ stdGetDocMatches (buildStd (stdStreamRecords gs)).terms
        (buildStd (stdStreamRecords gs)).store [t]
      ↔ ∃ tokens, alookup C did = some tokens ∧ t ∈ tokens) ∧
    (∃ s' out, buildNW (nwStreamRecords tgs) = some s' ∧
      nwGetDocMatches s'.terms s'.term_ids s'.store [t] = some out ∧
      (did ∈ out ↔ ∃ tokens, alookup C did = some tokens ∧ t ∈ tokens)) := by
  constructor
  · rw [stdMaster C gs hstd t [] did]
    constructor
    · rintro ⟨tokens, hC, hp⟩
      exact ⟨tokens, hC, (phraseAt_single_iff t tokens).mp hp⟩
    · rintro ⟨tokens, hC, ht⟩
      exact ⟨tokens, hC, (phraseAt_single_iff t tokens).mpr ht⟩
  · obtain ⟨s', hbuild, hIds, hterms, hstore, hoff, hmem⟩ := buildNW_spec _ hnw.1
    obtain ⟨out, hout, hiff⟩ := nwGDM_single C tgs hnw s' hIds hterms hstore hmem t did
    refine ⟨s', out, hbuild, hout, ?_⟩
    rw [hiff]
    constructor
    · rintro ⟨tokens, hC, hp⟩
      exact ⟨tokens, hC, (phraseAt_single_iff t tokens).mp hp⟩
    · rintro ⟨tokens, hC, ht⟩
      exact ⟨tokens, hC, (phraseAt_single_iff t tokens).mpr ht⟩

/-- C6 witness: the one-term queries of the two-token witness collection. -/
theorem c6_witness :
    (StdStreamOf wC wgs ∧ NWStreamOf wC wtgs) ∧
    ((0 ∈ stdGetDocMatches (buildStd (stdStreamRecords wgs)).terms
        (buildStd (stdStreamRecords wgs)).store ["a"]
      ↔ ∃ tokens, alookup wC 0 = some tokens ∧ "a" ∈ tokens) ∧
    (∃ s' out, buildNW (nwStreamRecords wtgs) = some s' ∧
      nwGetDocMatches s'.terms s'.term_ids s'.store ["a"] = some out ∧
      (0 ∈ out ↔ ∃ tokens, alookup wC 0 = some tokens ∧ "a" ∈ tokens))) :=
  ⟨⟨by decide, by decide⟩,
    c6_single_term_roundtrip wC wgs wtgs (by decide) (by decide) "a" 0⟩

/-- C7: on a built biword index, the resolver with its covered-positions early
break returns the same match set as the variant that fetches and merges every
ordered unique pair. -/
theorem c7_early_termination (C : List (Nat × List String)) (tgs : List NWTermGroup)
    (hnw : NWStreamOf C tgs) (t₀ t₁ : String) (rest' : List String)
    (hus : ∀ t ∈ t₀ :: t₁ :: rest', t ≠ "_") :
    ∃ s' out outAll, buildNW (nwStreamRecords tgs) = some s' ∧
      nwGetDocMatches s'.terms s'.term_ids s'.store (t₀ :: t₁ :: rest') = some out ∧
      nwGetDocMatchesAll s'.terms s'.term_ids s'.store (t₀ :: t₁ :: rest') = some outAll ∧
      ∀ d, d ∈ out ↔ d ∈ outAll := by
  obtain ⟨s', hbuild, hIds, hterms, hstore, hoff, hmem⟩ := buildNW_spec _ hnw.1
  obtain ⟨out, hout, _⟩ :=
    nwGDM_master C tgs hnw s' hIds hterms hstore hmem t₀ t₁ rest' 0 hus
  obtain ⟨outAll, houtAll, _⟩ :=
    nwGDMAll_master C tgs hnw s' hIds hterms hstore hmem t₀ t₁ rest' 0 hus
  refine ⟨s', out, outAll, hbuild, hout, houtAll, ?_⟩
  intro d
  obtain ⟨out2, hout2, hiff2⟩ :=
    nwGDM_master C tgs hnw s' hIds hterms hstore hmem t₀ t₁ rest' d hus
  rw [hout] at hout2
  injection hout2 with he
  subst he
  obtain ⟨outAll2, houtAll2, hiffAll2⟩ :=
    nwGDMAll_master C tgs hnw s' hIds hterms hstore hmem t₀ t₁ rest' d hus
  rw [houtAll] at houtAll2
  injection houtAll2 with heAll
  subst heAll
  exact hiff2.trans hiffAll2.symm

/-- C7 witness: both fetch disciplines agree on the two-term query of the
witness index. -/
theorem c7_witness :
    (NWStreamOf wC wtgs ∧ ∀ t ∈ ["b", "a"], t ≠ "_") ∧
    (∃ s' out outAll, buildNW (nwStreamRecords wtgs) = some s' ∧
      nwGetDocMatches s'.terms s'.term_ids s'.store ["b", "a"] = some out ∧
      nwGetDocMatchesAll s'.terms s'.term_ids s'.store ["b", "a"] = some outAll ∧
      ∀ d, d ∈ out ↔ d ∈ outAll) :=
  ⟨⟨by decide, by decide⟩,
    c7_early_termination wC wtgs (by decide) "b" "a" [] (by decide)⟩

/-- C9: an empty query yields an empty match set in both resolvers, and a
query containing a term absent from the lexicon yields an empty match set
without an error, in both resolvers. -/
theorem c9_empty_and_absent_terms (C : List (Nat × List String)) (gs : List StdGroup)
    (tgs : List NWTermGroup) (hstd : StdStreamOf C gs) (hnw : NWStreamOf C tgs) :
    (∀ (lex : List (String × Entry)) (store : List Nat),
      stdGetDocMatches lex store [] = []) ∧
    (∀ (lex : List (String × NWEntry)) (ids : List (Nat × String)) (store : List Nat),
      nwGetDocMatches lex ids store [] = some []) ∧
    (∀ terms t, t ∈ terms →
      alookup (buildStd (stdStreamRecords gs)).terms t = none →
      stdGetDocMatches (buildStd (stdStreamRecords gs)).terms
        (buildStd (stdStreamRecords gs)).store terms = []) ∧
    (∃ s', buildNW (nwStreamRecords tgs) = some s' ∧
      ∀ terms t, t ∈ terms → alookup s'.terms t = none →
        nwGetDocMatches s'.terms s'.term_ids s'.store terms = some []) := by
  refine ⟨fun lex store => rfl, fun lex ids store => rfl, ?_, ?_⟩
  · intro terms t ht hnone
    cases terms with
    | nil => exact absurd ht (List.not_mem_nil t)
    | cons t0 rest =>
      rw [List.eq_nil_iff_forall_not_mem]
      intro did hdid
      obtain ⟨tokens, hC, p, hph⟩ := (stdMaster C gs hstd t0 rest did).mp hdid
      obtain ⟨k, hk, hkt⟩ := List.mem_iff_getElem.mp ht
      have hpk := hph k hk
      have htmem : t ∈ tokens := by
        have := getD_mem_of_lt tokens "" hpk.1
        rwa [hpk.2, List.getD_eq_getElem _ _ hk, hkt] at this
      obtain ⟨g, hg, hgt, _⟩ := hstd.2.2 (did, tokens) (alookup_mem hC) t htmem
      have hsome : (alookup (buildStd (stdStreamRecords gs)).terms t).isSome := by
        rw [buildStd_spec _ hstd.1]
        show (alookup (stdLexiconAux 0 gs) t).isSome
        rw [alookup_isSome_iff_mem_keys, stdLexiconAux_keys]
        exact List.mem_map.mpr ⟨g, hg, hgt⟩
      rw [hnone] at hsome
      exact absurd hsome (by simp)
  · obtain ⟨s', hbuild, hIds, hterms, hstore, hoff, hmem⟩ := buildNW_spec _ hnw.1
    refine ⟨s', hbuild, ?_⟩
    intro terms t ht hnone
    cases terms with
    | nil => exact absurd ht (List.not_mem_nil t)
    | cons u us =>
      cases us with
      | nil =>
        simp only [List.mem_singleton] at ht
        subst ht
        unfold nwGetDocMatches
        dsimp only
        rw [show findPostings s'.terms s'.term_ids s'.store t none = some [] from by
          unfold findPostings
          rw [hnone]]
        rfl
      | cons v vs =>
        cases hsetup : setupTermPairs s'.terms (u :: v :: vs) with
        | none =>
          unfold nwGetDocMatches
          dsimp only
          rw [hsetup]
        | some trip =>
          exfalso
          obtain ⟨ordered, qtps, covered⟩ := trip
          obtain ⟨hq, hcov, hpres, hkeys⟩ := setupTermPairs_some_elim _ _ _ _ _ hsetup
          obtain ⟨k, hk, hkt⟩ := List.mem_iff_getElem.mp ht
          simp only [List.length_cons] at hk
          have hkD : (u :: v :: vs).getD k "" = t := by
            rw [List.getD_eq_getElem _ _ (by simp only [List.length_cons]; omega), hkt]
          have hzl : ((u :: v :: vs).zip (u :: v :: vs).tail).length = vs.length + 1 := by
            rw [List.length_zip]
            simp [Nat.min_def]
          by_cases hklt : k < vs.length + 1
          · have hpr := hpres (((u :: v :: vs).zip (u :: v :: vs).tail).getD k ("", ""))
              (getD_mem_of_lt _ _ (by omega))
            rw [zip_tail_getD _ _ (by omega)] at hpr
            rw [hkD] at hpr
            rw [hnone] at hpr
            exact absurd hpr.1 (by simp)
          · have hk1 : k = vs.length + 1 := by omega
            have hpr := hpres (((u :: v :: vs).zip (u :: v :: vs).tail).getD (k - 1) ("", ""))
              (getD_mem_of_lt _ _ (by omega))
            rw [zip_tail_getD _ _ (by omega)] at hpr
            rw [show k - 1 + 1 = k from by omega] at hpr
            rw [hkD] at hpr
            rw [hnone] at hpr
            exact absurd hpr.2 (by simp)

/-- C9 witness: the empty query and the absent term `z` on the witness
indexes. -/
theorem c9_witness :
    (StdStreamOf wC wgs ∧ NWStreamOf wC wtgs) ∧
    ((∀ (lex : List (String × Entry)) (store : List Nat),
      stdGetDocMatches lex store [] = []) ∧
    (∀ (lex : List (String × NWEntry)) (ids : List (Nat × String)) (store : List Nat),
      nwGetDocMatches lex ids store [] = some []) ∧
    (∀ terms t, t ∈ terms →
      alookup (buildStd (stdStreamRecords wgs)).terms t = none →
      stdGetDocMatches (buildStd (stdStreamRecords wgs)).terms
        (buildStd (stdStreamRecords wgs)).store terms = []) ∧
    (∃ s', buildNW (nwStreamRecords wtgs) = some s' ∧
      ∀ terms t, t ∈ terms → alookup s'.terms t = none →
        nwGetDocMatches s'.terms s'.term_ids s'.store terms = some [])) :=
  ⟨⟨by decide, by decide⟩,
    c9_empty_and_absent_terms wC wgs wtgs (by decide) (by decide)⟩

/-- C10: every next-term id written to the built postings store is a key of
the lexicon's `term_ids` table, so the id lookup in `find_postings` never
fails — `find_postings` is total on a built index for any first term and any
target. -/
theorem c10_term_ids_total (tgs : List NWTermGroup) (hwf : NWWF tgs) :
    ∃ s', buildNW (nwStreamRecords tgs) = some s' ∧
      s'.store = encodeNWStream (idOfS s') tgs ∧
      (∀ tg ∈ tgs, ∀ g ∈ tg.groups,
        alookup s'.term_ids (idOfS s' g.next_term) = some g.next_term) ∧
      ∀ ft target, (findPostings s'.terms s'.term_ids s'.store ft target).isSome := by
  obtain ⟨s', hbuild, hIds, hterms, hstore, hoff, hmem⟩ := buildNW_spec _ hwf
  refine ⟨s', hbuild, hstore, ?_, ?_⟩
  · intro tg htg g hg
    obtain ⟨i, hi⟩ := Option.isSome_iff_exists.mp (hmem tg htg g hg)
    rw [idOfS_eq_of_lookup hi]
    exact idsOk_lookup hIds hi
  · intro ft target
    by_cases hft : ft ∈ tgs.map (fun tg => tg.first_term)
    · obtain ⟨tg, htg, htgft⟩ := List.mem_map.mp hft
      obtain ⟨tgs₁, tgs₂, hsplit⟩ := List.append_of_mem htg
      subst hsplit
      subst htgft
      rw [findPostings_spec s' tgs₁ tg tgs₂ target hIds hterms hstore hmem hwf.2.1]
      rfl
    · rw [show findPostings s'.terms s'.term_ids s'.store ft target = some [] from by
        unfold findPostings
        rw [hterms, nwLexicon_lookup_of_notMem (idOfS s') tgs 0 ft hft]]
      rfl

/-- C10 witness: totality of `find_postings` on the witness biword index. -/
theorem c10_witness :
    NWWF wtgs ∧
    (∃ s', buildNW (nwStreamRecords wtgs) = some s' ∧
      s'.store = encodeNWStream (idOfS s') wtgs ∧
      (∀ tg ∈ wtgs, ∀ g ∈ tg.groups,
        alookup s'.term_ids (idOfS s' g.next_term) = some g.next_term) ∧
      ∀ ft target, (findPostings s'.terms s'.term_ids s'.store ft target).isSome) :=
  ⟨by decide, c10_term_ids_total wtgs (by decide)⟩

end PQP
